import Mathlib

/-!
# CaboCha `selector.cpp`: pattern matcher, head/function selection, feature emission

A shallow embedding of `src/src/selector.cpp`.

* A C string (`const char *`) is the list of its bytes before the terminating
  NUL; a byte is a `Nat`.
* `size_t` values are `Nat`; the two places where the source adds or subtracts
  chunk indices carry an explicit `% 2 ^ 64`.
* `none` as the result of an operation stands for the places where the source
  leaves the run of the program: a `CHECK_DIE` abort in `compile`, an
  out-of-range `tree->token(j)` or a feature text that does not fit its
  2048-byte stream buffer in `parse`.
-/

namespace CaboCha

/-! ## Strings -/

/-- A C string: its bytes up to, and without, the terminating NUL. -/
abbrev CStr := List Nat

/-- The bytes of an ASCII string literal of the source. -/
def ascii (s : String) : CStr := s.toList.map Char.toNat

/-- What `c_str()` of a `std::string` shows to a C-string reader: the bytes
before the first NUL. -/
def cstr (s : List Nat) : CStr := s.takeWhile (fun b => b != 0)

/-- The pieces of `str` between delimiter bytes (the bytes of `del`), empty
pieces included. -/
def splitPieces (del : CStr) : CStr → List CStr
  | [] => [[]]
  | b :: rest =>
    if b ∈ del then [] :: splitPieces del rest
    else
      match splitPieces del rest with
      | [] => [[b]]
      | p :: ps => (b :: p) :: ps

/-- The non-empty pieces of `str` between delimiter bytes, in order. -/
def pieces (del str : CStr) : List CStr :=
  (splitPieces del str).filter (fun p => !p.isEmpty)

/-- Modelled from the spec: `tokenize(str, del, out, max)` of `utils.h`, which is
not under `src/`. The spec has it split a text into the ordered list of
pieces between delimiters, "treating runs of delimiter as token separators"
(so no empty piece is produced, and a text of delimiters only "reduces to zero
alternatives"); `max` is the capacity of the output array, as both callers in
`selector.cpp` pass it, and `compile` checks the returned count against it: at
most the first `max` pieces are stored. -/
def tokenize (str del : CStr) (max : Nat) : List CStr :=
  (pieces del str).take max

/-! ## PatternMatcher -/

/-- The `PatternMatcher` class: its only member is `patterns_`. -/
structure PatternMatcher where
  patterns_ : List CStr
deriving DecidableEq, Repr

/-- The `Iconv::convert(std::string *)` capability: the success flag and the
content of the string after the call. -/
abbrev Iconv := List Nat → Bool × List Nat

/-- The normalizer that leaves every text as it is. -/
def Iconv.identity : Iconv := fun s => (true, s)

/-- Member `PatternMatcher::clear`. -/
def PatternMatcher.clear (_self : PatternMatcher) : PatternMatcher :=
  { patterns_ := [] }

/-- Member `PatternMatcher::compile(pattern, iconv)`, lines 30-57. `BUF_SIZE` is the
constant of `common.h` (not under `src/`), a parameter here, taken to be at least 3
so that `BUF_SIZE - 3` is the source's value. The result is `none` when a
`CHECK_DIE` aborts the process, else the returned flag and the matcher
after the call. -/
def PatternMatcher.compile (BUF_SIZE : Nat) (self : PatternMatcher) (pattern : CStr)
    (iconv : Option Iconv) : Option (Bool × PatternMatcher) :=
  let self := self.clear
  let converted : List Nat :=
    match iconv with
    | some ic => (ic pattern).2
    | none => pattern
  let len := converted.length
  if len ≥ 3 ∧ converted[0]? = some 40 ∧ converted[len - 1]? = some 41 then
    if ¬ (len < BUF_SIZE - 3) then none
    else
      let buf := cstr ((converted.drop 1).take (len - 2))
      let col := tokenize buf [124] BUF_SIZE
      if ¬ (col.length < BUF_SIZE) then none
      else
        let self : PatternMatcher := { patterns_ := self.patterns_ ++ col }
        some (!self.patterns_.isEmpty, self)
  else
    let self : PatternMatcher := { patterns_ := self.patterns_ ++ [cstr converted] }
    some (!self.patterns_.isEmpty, self)

/-- The scan of `PatternMatcher::match` over the alternatives that are left. -/
def matchLoop (str : CStr) : List CStr → Option CStr
  | [] => none
  | p :: ps => if p = str then some p else matchLoop str ps

/-- Member `PatternMatcher::match(str)`, lines 59-66 (`match` is a keyword of Lean,
hence the underscore). -/
def PatternMatcher.match_ (self : PatternMatcher) (str : CStr) : Option CStr :=
  matchLoop str self.patterns_

/-- The scan of `PatternMatcher::prefix_match` over the alternatives that are left;
`len` is `strlen(str)`. -/
def prefixMatchLoop (str : CStr) (len : Nat) : List CStr → Option CStr
  | [] => none
  | p :: ps =>
    if len < p.length then prefixMatchLoop str len ps
    else if str.take p.length = p then some p
    else prefixMatchLoop str len ps

/-- Member `PatternMatcher::prefix_match(str)`, lines 68-80. -/
def PatternMatcher.prefix_match (self : PatternMatcher) (str : CStr) : Option CStr :=
  prefixMatchLoop str str.length self.patterns_

/-- The spec text `(l1|...|ln)` of a list of literals. -/
def parenSpec (ls : List CStr) : CStr :=
  40 :: (List.intercalate [124] ls ++ [41])

/-! ## Data model (`cabocha.h`, read through what `selector.cpp` uses of it) -/

/-- The range of `size_t`. -/
def SIZE_RANGE : Nat := 2 ^ 64

/-- The tagset selector returned by `tree->posset()`; `UNIDIC` is the value the
commented-out parts of `findHead` name. -/
inductive PossetType where
  | IPA
  | JUMAN
  | UNIDIC
deriving DecidableEq, Repr

/-- Modelled from the spec: the sentence's "processing stage" marker, an enum of
`cabocha.h` (not under `src/`). `selector.cpp` names one value of it,
`OUTPUT_SELECTION`; `earlier k` stands for any other value. -/
inductive OutputLayerType where
  | OUTPUT_SELECTION
  | earlier (k : Nat)
deriving DecidableEq, Repr

/-- A token: `feature_list` holds its `feature_list_size` subfields. -/
structure Token where
  surface : CStr
  normalized_surface : CStr
  feature : CStr
  feature_list : List CStr
deriving DecidableEq, Repr

/-- A chunk: the token range `token_pos`, `token_size` and the fields `parse` writes.
`feature_list` holds the entries of the array, `feature_list_size` the stored count. -/
structure Chunk where
  head_pos : Nat
  func_pos : Nat
  token_size : Nat
  token_pos : Nat
  feature_list : List CStr
  feature_list_size : Nat
deriving DecidableEq, Repr

/-- A sentence: `tree->token(j)`, `tree->chunk(i)`, `tree->posset()` and the stage
marker set by `tree->set_output_layer`. -/
structure Tree where
  tokens : List Token
  chunks : List Chunk
  posset : PossetType
  output_layer : OutputLayerType
deriving DecidableEq, Repr

/-- The `Selector` class: its nine compiled patterns. -/
structure Selector where
  pat_ipa_func_ : PatternMatcher
  pat_ipa_head_ : PatternMatcher
  pat_juman_func_ : PatternMatcher
  pat_juman_head_ : PatternMatcher
  pat_kutouten_ : PatternMatcher
  pat_open_bracket_ : PatternMatcher
  pat_close_bracket_ : PatternMatcher
  pat_dyn_a_ : PatternMatcher
  pat_case_ : PatternMatcher
deriving DecidableEq, Repr

/-- The number of passes of the loops `for (j = token_pos; j < token_size; ++j)`, lines
114 and 219, where `token_size = chunk.token_pos + chunk.token_size` in `size_t`. -/
def chunkSpan (chunk : Chunk) : Nat :=
  (chunk.token_pos + chunk.token_size) % SIZE_RANGE - chunk.token_pos

/-- The sentinel subfield `"*"`. -/
def STAR : CStr := [42]

/-- Function `get_token(token, id)`, lines 17-21; `none` is the null pointer. -/
def get_token (token : Token) (id : Nat) : Option CStr :=
  if token.feature_list.length ≤ id then none
  else
    match token.feature_list[id]? with
    | none => none
    | some f => if f = STAR then none else some f

/-- Modelled from the spec: `concat_feature(token, size, &output)`, not under
`src/`: "the concatenation of the token's basic POS subfields (stopping at the
first sentinel), joined with a fixed delimiter". The spec does not name the
delimiter: it is the parameter `delim`. -/
def concat_feature (delim : CStr) (token : Token) (size : Nat) : CStr :=
  List.intercalate delim ((token.feature_list.take size).takeWhile (fun f => f != STAR))

/-- What `ostrs << n` writes for a `size_t`: its decimal digits. -/
def decimal (n : Nat) : CStr := (Nat.toDigits 10 n).map Char.toNat

/-! ## Selector::findHead -/

/-- One pass of the loop body of `findHead`, lines 220-234, at token index `j`;
the state is `(*hid, *fid)`. -/
def findHeadStep (sel : Selector) (tree : Tree) (st : Nat × Nat) (j : Nat) :
    Option (Nat × Nat) :=
  match tree.tokens[j]? with
  | none => none
  | some token =>
    if tree.posset = PossetType.IPA then
      if (sel.pat_ipa_func_.prefix_match token.feature).isSome then some (st.1, j)
      else if ¬ (sel.pat_ipa_head_.prefix_match token.feature).isSome then some (j, st.2)
      else some st
    else if tree.posset = PossetType.JUMAN then
      let fid := if ¬ (sel.pat_juman_func_.prefix_match token.feature).isSome then j else st.2
      let hid := if ¬ (sel.pat_juman_head_.prefix_match token.feature).isSome then j else st.1
      some (hid, fid)
    else some st

/-- The loop of `findHead`, line 219: `n` passes are left, the next one at index `j`. -/
def findHeadLoop (sel : Selector) (tree : Tree) : Nat → Nat → Nat × Nat → Option (Nat × Nat)
  | 0, _, st => some st
  | n + 1, j, st =>
    match findHeadStep sel tree st j with
    | none => none
    | some st1 => findHeadLoop sel tree n (j + 1) st1

/-- Member `Selector::findHead(tree, chunk, &hid, &fid)`, lines 212-263: the final
`(hid, fid)`. -/
def Selector.findHead (sel : Selector) (tree : Tree) (chunk : Chunk) : Option (Nat × Nat) :=
  match findHeadLoop sel tree (chunkSpan chunk) chunk.token_pos
      (chunk.token_pos, chunk.token_pos) with
  | none => none
  | some (hid, fid) =>
    if tree.posset = PossetType.IPA ∧ hid > fid then some (hid, hid) else some (hid, fid)

/-! ## Selector::parse -/

/-- Lines 116-133: what the flag scan writes for one token. -/
def flagText (sel : Selector) (token : Token) : CStr :=
  (match sel.pat_kutouten_.match_ token.normalized_surface with
    | some p => ascii " G_PUNC:" ++ p ++ (ascii " F_PUNC:" ++ p)
    | none => []) ++
  ((match sel.pat_open_bracket_.match_ token.normalized_surface with
    | some p => ascii " G_OB:" ++ p ++ (ascii " F_OB:" ++ p)
    | none => []) ++
  (match sel.pat_close_bracket_.match_ token.normalized_surface with
    | some p => ascii " G_CB:" ++ p ++ (ascii " F_CB:" ++ p)
    | none => []))

/-- The flag scan, lines 114-134: `n` tokens are left, the next one at index `j`;
`ostrs` is the text written so far. -/
def flagLoop (sel : Selector) (tree : Tree) : Nat → Nat → CStr → Option CStr
  | 0, _, ostrs => some ostrs
  | n + 1, j, ostrs =>
    match tree.tokens[j]? with
    | none => none
    | some token => flagLoop sel tree n (j + 1) (ostrs ++ flagText sel token)

/-- The subfield loops, lines 154-157 and 164-167, over the first `hsize` subfields
`fl` of the token: stop at the first `"*"`, else write `name`, `k + 1`, `:` and the
subfield. -/
def fieldLoop (name : CStr) : List CStr → Nat → CStr → CStr
  | [], _, ostrs => ostrs
  | f :: fs, k, ostrs =>
    if f = STAR then ostrs
    else fieldLoop name fs (k + 1) (ostrs ++ name ++ decimal (k + 1) ++ [58] ++ f)

/-- The text written for an optional subfield: `if (p) ostrs << name << p`. -/
def optText (name : CStr) : Option CStr → CStr
  | some p => name ++ p
  | none => []

/-- Lines 143-190 for head token `htoken` and function token `ftoken` of chunk `i`:
the text written to `ostrs` after the flag scan. -/
def tokenText (delim : CStr) (sel : Selector) (size pos_size i : Nat)
    (htoken ftoken : Token) : CStr :=
  let hsurface := htoken.normalized_surface
  let fsurface := ftoken.normalized_surface
  let hctype := get_token htoken pos_size
  let hcform := get_token htoken (pos_size + 1)
  let fctype := get_token ftoken pos_size
  let fcform := get_token ftoken (pos_size + 1)
  let ostrs : CStr := ascii " F_H0:" ++ hsurface
  let hsize := min pos_size htoken.feature_list.length
  let ostrs := fieldLoop (ascii " F_H") (htoken.feature_list.take hsize) 0 ostrs
  let ostrs := ostrs ++ optText (ascii " F_H5:") hctype
  let ostrs := ostrs ++ optText (ascii " F_H6:") hcform
  let ostrs := ostrs ++ (ascii " F_F0:" ++ fsurface)
  let fsize := min pos_size ftoken.feature_list.length
  let ostrs := fieldLoop (ascii " F_F") (ftoken.feature_list.take fsize) 0 ostrs
  let ostrs := ostrs ++ optText (ascii " F_F5:") fctype
  let ostrs := ostrs ++ optText (ascii " F_F6:") fcform
  let ostrs :=
    if (sel.pat_dyn_a_.prefix_match ftoken.feature).isSome then
      ostrs ++ (ascii " A:" ++ fsurface)
    else
      match fcform with
      | some p => ostrs ++ (ascii " A:" ++ p)
      | none => ostrs ++ (ascii " A:" ++ concat_feature delim ftoken pos_size)
  let ostrs := ostrs ++ (ascii " B:" ++ concat_feature delim htoken pos_size)
  let ostrs :=
    if (sel.pat_case_.prefix_match ftoken.feature).isSome then
      ostrs ++ (ascii " G_CASE:" ++ fsurface)
    else ostrs
  let ostrs := if i = 0 then ostrs ++ ascii " F_BOS:1" else ostrs
  let ostrs := if i = size - 1 then ostrs ++ ascii " F_EOS:1" else ostrs
  ostrs

/-- Lines 109-190 for chunk `i`: the whole text written to `ostrs` before
`std::ends`, with the `hid` and `fid` of `findHead`. `none`: a token index is out
of range. -/
def Selector.featureText (delim : CStr) (sel : Selector) (tree : Tree)
    (size pos_size i : Nat) (chunk : Chunk) : Option (CStr × Nat × Nat) :=
  match flagLoop sel tree (chunkSpan chunk) chunk.token_pos [] with
  | none => none
  | some flags =>
    match sel.findHead tree chunk with
    | none => none
    | some (hid, fid) =>
      match tree.tokens[hid]?, tree.tokens[fid]? with
      | some htoken, some ftoken =>
        some (flags ++ tokenText delim sel size pos_size i htoken ftoken, hid, fid)
      | _, _ => none

/-- The capacity of the stream buffer, `tree->alloc(2048)`. -/
def FEATURE_BUF : Nat := 2048

/-- The constant `kFeatureSize`, line 198. -/
def kFeatureSize : Nat := 256

/-- Lines 192-204 for chunk `chunk` once `text`, `hid`, `fid` are known: the chunk
after the writes. `none`: the text and its terminating NUL do not fit the
stream buffer, and what `tokenize` then reads is not determined by the source. -/
def writeChunk (chunk : Chunk) (text : CStr) (hid fid : Nat) : Option Chunk :=
  if ¬ (text.length + 1 ≤ FEATURE_BUF) then none
  else
    let feature := tokenize (text.drop 1) [32] kFeatureSize
    let s := feature.length
    some { chunk with
      head_pos := (hid + SIZE_RANGE - chunk.token_pos) % SIZE_RANGE
      func_pos := (fid + SIZE_RANGE - chunk.token_pos) % SIZE_RANGE
      feature_list_size := s % 256
      feature_list := feature }

/-- Lines 109-204 for chunk `i`, read as `chunk`: the chunk as it is written back. -/
def Selector.chunkOut (delim : CStr) (sel : Selector) (tree : Tree)
    (size pos_size i : Nat) (chunk : Chunk) : Option Chunk :=
  match sel.featureText delim tree size pos_size i chunk with
  | none => none
  | some (text, hid, fid) => writeChunk chunk text hid fid

/-- The body of the chunk loop, lines 108-204, for chunk `i`: the tree after it. -/
def Selector.parseChunk (delim : CStr) (sel : Selector) (size pos_size : Nat)
    (tree : Tree) (i : Nat) : Option Tree :=
  match tree.chunks[i]? with
  | none => none
  | some chunk =>
    match sel.chunkOut delim tree size pos_size i chunk with
    | none => none
    | some mutable_chunk => some { tree with chunks := tree.chunks.set i mutable_chunk }

/-- The chunk loop, line 107: `n` chunks are left, the next one is chunk `i`. -/
def Selector.parseLoop (delim : CStr) (sel : Selector) (size pos_size : Nat) :
    Nat → Nat → Tree → Option Tree
  | 0, _, tree => some tree
  | n + 1, i, tree =>
    match sel.parseChunk delim size pos_size tree i with
    | none => none
    | some tree1 => Selector.parseLoop delim sel size pos_size n (i + 1) tree1

/-- The value of `pos_size`, line 105. -/
def posSize (tree : Tree) : Nat :=
  if tree.posset = PossetType.IPA then 4 else 2

/-- Member `Selector::parse(tree)`, lines 102-210; the argument `none` is the null
pointer. The result holds the returned flag and the sentence after the call;
it is `none` where the source leaves defined behaviour (see `featureText`,
`writeChunk`). -/
def Selector.parse (delim : CStr) (sel : Selector) (tree : Option Tree) :
    Option (Bool × Option Tree) :=
  match tree with
  | none => some (false, none)
  | some tree =>
    let size := tree.chunks.length
    let pos_size := posSize tree
    match sel.parseLoop delim size pos_size size 0 tree with
    | none => none
    | some tree1 =>
      some (true, some { tree1 with output_layer := OutputLayerType.OUTPUT_SELECTION })

/-! ## The feature text as a list of feature tokens

The text `parse` writes is a sequence of feature tokens, each after one space.
The definitions below list those tokens; `tokenText_eq` and `flagText_eq` show
that they spell the text. -/

/-- The text of a list of feature tokens: each one written after one space. -/
def itemsText (items : List CStr) : CStr :=
  (items.map (fun it => 32 :: it)).flatten

/-- The feature tokens of `flagText`. -/
def flagItems (sel : Selector) (token : Token) : List CStr :=
  (match sel.pat_kutouten_.match_ token.normalized_surface with
    | some p => [ascii "G_PUNC:" ++ p, ascii "F_PUNC:" ++ p]
    | none => []) ++
  ((match sel.pat_open_bracket_.match_ token.normalized_surface with
    | some p => [ascii "G_OB:" ++ p, ascii "F_OB:" ++ p]
    | none => []) ++
  (match sel.pat_close_bracket_.match_ token.normalized_surface with
    | some p => [ascii "G_CB:" ++ p, ascii "F_CB:" ++ p]
    | none => []))

/-- The feature tokens of `fieldLoop`. -/
def fieldItems (name : CStr) : List CStr → Nat → List CStr
  | [], _ => []
  | f :: fs, k =>
    if f = STAR then []
    else (name ++ decimal (k + 1) ++ [58] ++ f) :: fieldItems name fs (k + 1)

/-- The feature tokens of `optText`. -/
def optItems (name : CStr) : Option CStr → List CStr
  | some p => [name ++ p]
  | none => []

/-- The feature tokens of `tokenText`. -/
def tokenItems (delim : CStr) (sel : Selector) (size pos_size i : Nat)
    (htoken ftoken : Token) : List CStr :=
  [ascii "F_H0:" ++ htoken.normalized_surface] ++
  fieldItems (ascii "F_H")
    (htoken.feature_list.take (min pos_size htoken.feature_list.length)) 0 ++
  optItems (ascii "F_H5:") (get_token htoken pos_size) ++
  optItems (ascii "F_H6:") (get_token htoken (pos_size + 1)) ++
  [ascii "F_F0:" ++ ftoken.normalized_surface] ++
  fieldItems (ascii "F_F")
    (ftoken.feature_list.take (min pos_size ftoken.feature_list.length)) 0 ++
  optItems (ascii "F_F5:") (get_token ftoken pos_size) ++
  optItems (ascii "F_F6:") (get_token ftoken (pos_size + 1)) ++
  [ascii "A:" ++
    (if (sel.pat_dyn_a_.prefix_match ftoken.feature).isSome then ftoken.normalized_surface
     else
       match get_token ftoken (pos_size + 1) with
       | some p => p
       | none => concat_feature delim ftoken pos_size)] ++
  [ascii "B:" ++ concat_feature delim htoken pos_size] ++
  (if (sel.pat_case_.prefix_match ftoken.feature).isSome then
    [ascii "G_CASE:" ++ ftoken.normalized_surface] else []) ++
  (if i = 0 then [ascii "F_BOS:1"] else []) ++
  (if i = size - 1 then [ascii "F_EOS:1"] else [])

/-- The token range of a chunk, which `parse` reads. -/
def Chunk.range (c : Chunk) : Nat × Nat := (c.token_pos, c.token_size)

/-- The fields of a chunk that `parse` writes. -/
def Chunk.outputs (c : Chunk) : Nat × Nat × List CStr × Nat :=
  (c.head_pos, c.func_pos, c.feature_list, c.feature_list_size)

/-- The tokens of the sentence that the loops over chunk `chunk` visit. -/
def chunkTokens (tree : Tree) (chunk : Chunk) : List Token :=
  (tree.tokens.drop chunk.token_pos).take (chunkSpan chunk)

/-! ## Example sentences -/

/-- Patterns for the examples: function-word marker `f`, head-exclusion marker `h`,
punctuation `。` (UTF-8), brackets `(` and `)`, class-A marker `d`, case marker `c`. -/
def exSel : Selector where
  pat_ipa_func_ := PatternMatcher.mk [ascii "f"]
  pat_ipa_head_ := PatternMatcher.mk [ascii "h"]
  pat_juman_func_ := PatternMatcher.mk [ascii "f"]
  pat_juman_head_ := PatternMatcher.mk [ascii "h"]
  pat_kutouten_ := PatternMatcher.mk [[227, 128, 130]]
  pat_open_bracket_ := PatternMatcher.mk [ascii "("]
  pat_close_bracket_ := PatternMatcher.mk [ascii ")"]
  pat_dyn_a_ := PatternMatcher.mk [ascii "d"]
  pat_case_ := PatternMatcher.mk [ascii "c"]

/-- A token with normalized surface `s`, raw feature `feature` and subfields `fl`. -/
def exToken (s feature : CStr) (fl : List CStr) : Token where
  surface := s
  normalized_surface := s
  feature := feature
  feature_list := fl

/-- A chunk over the tokens `token_pos ..< token_pos + token_size`, not yet processed. -/
def exChunk (token_pos token_size : Nat) : Chunk where
  head_pos := 0
  func_pos := 0
  token_size := token_size
  token_pos := token_pos
  feature_list := []
  feature_list_size := 0

/-- A Scheme A sentence of one chunk with two tokens: a function word, then a content
word. -/
def exTreeFuncFirst : Tree where
  tokens := [exToken (ascii "x") (ascii "f,*") [ascii "f", STAR],
    exToken (ascii "y") (ascii "n,*") [ascii "n", STAR]]
  chunks := [exChunk 0 2]
  posset := PossetType.IPA
  output_layer := OutputLayerType.earlier 0

/-- A Scheme A sentence of two chunks: a content word and a function word, then a
content word and the punctuation `。`. -/
def exTreeTwoChunks : Tree where
  tokens := [exToken (ascii "x") (ascii "n,*") [ascii "n", STAR],
    exToken (ascii "y") (ascii "f,*") [ascii "f", STAR],
    exToken (ascii "z") (ascii "n,*") [ascii "n", STAR],
    exToken [227, 128, 130] (ascii "k,*") [ascii "k", STAR]]
  chunks := [exChunk 0 2, exChunk 2 2]
  posset := PossetType.IPA
  output_layer := OutputLayerType.earlier 0

/-- The sentence `exTreeTwoChunks` after `parse`. -/
def exTreeTwoChunksParsed : Tree where
  tokens := exTreeTwoChunks.tokens
  chunks := [
    { head_pos := 0, func_pos := 1, token_size := 2, token_pos := 0,
      feature_list := [ascii "F_H0:x", ascii "F_H1:n", ascii "F_F0:y", ascii "F_F1:f",
        ascii "A:f", ascii "B:n", ascii "F_BOS:1"],
      feature_list_size := 7 },
    { head_pos := 1, func_pos := 1, token_size := 2, token_pos := 2,
      feature_list := [ascii "G_PUNC:" ++ [227, 128, 130], ascii "F_PUNC:" ++ [227, 128, 130],
        ascii "F_H0:" ++ [227, 128, 130], ascii "F_H1:k",
        ascii "F_F0:" ++ [227, 128, 130], ascii "F_F1:k",
        ascii "A:k", ascii "B:k", ascii "F_EOS:1"],
      feature_list_size := 9 }]
  posset := PossetType.IPA
  output_layer := OutputLayerType.OUTPUT_SELECTION

/-- A Scheme A sentence of one chunk with 129 tokens: 126 times `(`, twice `)`, then
the punctuation `。`. -/
def exTreeManyFlags : Tree where
  tokens := List.replicate 126 (exToken (ascii "(") (ascii "n,*") [ascii "n", STAR]) ++
    [exToken (ascii ")") (ascii "n,*") [ascii "n", STAR],
     exToken (ascii ")") (ascii "n,*") [ascii "n", STAR],
     exToken [227, 128, 130] (ascii "n,*") [ascii "n", STAR]]
  chunks := [exChunk 0 129]
  posset := PossetType.IPA
  output_layer := OutputLayerType.earlier 0

/-- The sentence `exTreeManyFlags` after `parse`: 256 feature tokens are stored, all of
them bracket flags, and the stored count is `256 % 256`. -/
def exTreeManyFlagsParsed : Tree where
  tokens := exTreeManyFlags.tokens
  chunks := [
    { head_pos := 128, func_pos := 128, token_size := 129, token_pos := 0,
      feature_list := (List.replicate 126 [ascii "G_OB:(", ascii "F_OB:("]).flatten ++
        [ascii "G_CB:)", ascii "F_CB:)", ascii "G_CB:)", ascii "F_CB:)"],
      feature_list_size := 0 }]
  posset := PossetType.IPA
  output_layer := OutputLayerType.OUTPUT_SELECTION

/-- A Scheme A sentence of one chunk with the one token `a b`, subfields `(*,*,*,*)`. -/
def exTreeSpace : Tree where
  tokens := [exToken (ascii "a b") (ascii "*,*,*,*") [STAR, STAR, STAR, STAR]]
  chunks := [exChunk 0 1]
  posset := PossetType.IPA
  output_layer := OutputLayerType.earlier 0

/-- The sentence `exTreeSpace` after `parse`. -/
def exTreeSpaceParsed : Tree where
  tokens := exTreeSpace.tokens
  chunks := [
    { head_pos := 0, func_pos := 0, token_size := 1, token_pos := 0,
      feature_list := [ascii "F_H0:a", ascii "b", ascii "F_F0:a", ascii "b", ascii "A:",
        ascii "B:", ascii "F_BOS:1", ascii "F_EOS:1"],
      feature_list_size := 8 }]
  posset := PossetType.IPA
  output_layer := OutputLayerType.OUTPUT_SELECTION

/-- A Scheme A sentence of one chunk with the one token `私` (UTF-8), subfields
`(*,*,*,*)`. -/
def exTreeWatashi : Tree where
  tokens := [exToken [231, 167, 129] (ascii "*,*,*,*") [STAR, STAR, STAR, STAR]]
  chunks := [exChunk 0 1]
  posset := PossetType.IPA
  output_layer := OutputLayerType.earlier 0

/-- The test of the loop of `findHead` under which it sets `*fid = j`, by tagset. -/
def funcTest (sel : Selector) (posset : PossetType) (token : Token) : Bool :=
  match posset with
  | PossetType.IPA => (sel.pat_ipa_func_.prefix_match token.feature).isSome
  | PossetType.JUMAN => !(sel.pat_juman_func_.prefix_match token.feature).isSome
  | PossetType.UNIDIC => false

/-- The test of the loop of `findHead` under which it sets `*hid = j`, by tagset. -/
def headTest (sel : Selector) (posset : PossetType) (token : Token) : Bool :=
  match posset with
  | PossetType.IPA =>
    !(sel.pat_ipa_func_.prefix_match token.feature).isSome &&
      !(sel.pat_ipa_head_.prefix_match token.feature).isSome
  | PossetType.JUMAN => !(sel.pat_juman_head_.prefix_match token.feature).isSome
  | PossetType.UNIDIC => false

/-- Whether the token of index `k` passes `test`. -/
def tokenPasses (tokens : List Token) (test : Token → Bool) (k : Nat) : Bool :=
  match tokens[k]? with
  | some t => test t
  | none => false

/-- Reference rule, in the spec's words: the index of the last token, among the `n`
tokens from index `lo` on, that passes `test`; `lo`, the chunk's first token index, if
there is none. -/
def lastIndexOr (tokens : List Token) (lo n : Nat) (test : Token → Bool) : Nat :=
  (((List.range' lo n).filter (tokenPasses tokens test)).getLast?).getD lo

/-- Reference rule of Scheme B, in the spec's words: `(head, func)`, each the last
token of the chunk that does not prefix-match its exclusion pattern. -/
def findHeadRefB (sel : Selector) (tree : Tree) (chunk : Chunk) : Nat × Nat :=
  (lastIndexOr tree.tokens chunk.token_pos (chunkSpan chunk)
      (fun t => !(sel.pat_juman_head_.prefix_match t.feature).isSome),
   lastIndexOr tree.tokens chunk.token_pos (chunkSpan chunk)
      (fun t => !(sel.pat_juman_func_.prefix_match t.feature).isSome))

/-- Reference rule of Scheme A, in the spec's words: `f0` is the last token that
prefix-matches the function-word pattern, `head` the last token that prefix-matches
neither pattern, and `func` is `f0` if `head <= f0`, else `head`; the result is
`(head, func)`. -/
def findHeadRefA (sel : Selector) (tree : Tree) (chunk : Chunk) : Nat × Nat :=
  let f0 := lastIndexOr tree.tokens chunk.token_pos (chunkSpan chunk)
    (fun t => (sel.pat_ipa_func_.prefix_match t.feature).isSome)
  let head := lastIndexOr tree.tokens chunk.token_pos (chunkSpan chunk)
    (fun t => !(sel.pat_ipa_func_.prefix_match t.feature).isSome &&
      !(sel.pat_ipa_head_.prefix_match t.feature).isSome)
  (head, if head ≤ f0 then f0 else head)

/-- A Scheme B sentence of one chunk with two tokens: the first is not
function-excluded, the second is; neither is head-excluded. -/
def exTreeJuman : Tree where
  tokens := [exToken (ascii "x") (ascii "n,*") [ascii "n", STAR],
    exToken (ascii "y") (ascii "f,*") [ascii "f", STAR]]
  chunks := [exChunk 0 2]
  posset := PossetType.JUMAN
  output_layer := OutputLayerType.earlier 0

/-- A sentence of one chunk with two tokens whose tagset is neither Scheme A nor
Scheme B. -/
def exTreeUnidic : Tree where
  tokens := [exToken (ascii "x") (ascii "n,*") [ascii "n", STAR],
    exToken (ascii "y") (ascii "f,*") [ascii "f", STAR]]
  chunks := [exChunk 0 2]
  posset := PossetType.UNIDIC
  output_layer := OutputLayerType.earlier 0

/-- The sentence `exTreeUnidic` after `parse`. -/
def exTreeUnidicParsed : Tree where
  tokens := exTreeUnidic.tokens
  chunks := [
    { head_pos := 0, func_pos := 0, token_size := 2, token_pos := 0,
      feature_list := [ascii "F_H0:x", ascii "F_H1:n", ascii "F_F0:x", ascii "F_F1:n",
        ascii "A:n", ascii "B:n", ascii "F_BOS:1", ascii "F_EOS:1"],
      feature_list_size := 8 }]
  posset := PossetType.UNIDIC
  output_layer := OutputLayerType.OUTPUT_SELECTION

/-- The token strings that `parse` writes hold no space: the delimiter of
`concat_feature`, and the normalized surface and the subfields of every token. -/
def SpaceFree (delim : CStr) (tree : Tree) : Prop :=
  32 ∉ delim ∧
  ∀ tok ∈ tree.tokens, 32 ∉ tok.normalized_surface ∧ ∀ f ∈ tok.feature_list, 32 ∉ f

/-- The feature tokens written for a chunk, in order: the flags of its tokens, then
the fields of its head and function token. -/
def chunkItems (delim : CStr) (sel : Selector) (tree : Tree) (size pos_size i : Nat)
    (chunk : Chunk) (htoken ftoken : Token) : List CStr :=
  (chunkTokens tree chunk).flatMap (flagItems sel) ++
    tokenItems delim sel size pos_size i htoken ftoken

/-- The names of the flag features and of the head and function token fields. -/
def flagFieldNames : List CStr :=
  [ascii "G_PUNC", ascii "F_PUNC", ascii "G_OB", ascii "F_OB", ascii "G_CB", ascii "F_CB",
   ascii "F_H0", ascii "F_H1", ascii "F_H2", ascii "F_H3", ascii "F_H4", ascii "F_H5",
   ascii "F_H6",
   ascii "F_F0", ascii "F_F1", ascii "F_F2", ascii "F_F3", ascii "F_F4", ascii "F_F5",
   ascii "F_F6"]

/-- The feature names the Selector emits. -/
def featureNames : List CStr :=
  flagFieldNames ++ [ascii "A", ascii "B", ascii "G_CASE", ascii "F_BOS", ascii "F_EOS"]

/-- A feature token of the form `NAME:VALUE` with `NAME` one of `names`. -/
def Named (names : List CStr) (it : CStr) : Prop :=
  ∃ name ∈ names, ∃ value : CStr, it = name ++ 58 :: value

/-- The value of the `A` feature, lines 173-180. -/
def classAValue (delim : CStr) (sel : Selector) (pos_size : Nat) (ftoken : Token) : CStr :=
  if (sel.pat_dyn_a_.prefix_match ftoken.feature).isSome then ftoken.normalized_surface
  else
    match get_token ftoken (pos_size + 1) with
    | some p => p
    | none => concat_feature delim ftoken pos_size

/-- Reference, in the spec's words: for `k = 0, 1, ...` while
`k < min(basicFieldCount, declared subfield count)` and subfield `k` is not `*`, the
field `name{k+1}:subfield k`. -/
def basicFieldsRef (name : CStr) (bfc : Nat) (fl : List CStr) : List CStr :=
  (((fl.take (min bfc fl.length)).takeWhile (fun f => f != STAR)).enum).map
    (fun kf => name ++ decimal (kf.1 + 1) ++ [58] ++ kf.2)

/-- Reference, in the spec's words: the field `name` of the subfield at index `idx`, if
that index is within the declared count and the subfield is not `*`. -/
def conjFieldRef (name : CStr) (fl : List CStr) (idx : Nat) : List CStr :=
  match fl[idx]? with
  | some f => if f = STAR then [] else [name ++ f]
  | none => []

/-- Reference, in the spec's words: the head-token fields, `F_H0`, then the fields of
the leading basic subfields, then `F_H5` and `F_H6` for the two subfields right after
the basic ones. -/
def headFieldsRef (bfc : Nat) (htoken : Token) : List CStr :=
  [ascii "F_H0:" ++ htoken.normalized_surface] ++
  basicFieldsRef (ascii "F_H") bfc htoken.feature_list ++
  conjFieldRef (ascii "F_H5:") htoken.feature_list bfc ++
  conjFieldRef (ascii "F_H6:") htoken.feature_list (bfc + 1)

/-- The function-token fields as the code writes them: the same pattern as for the
head token, with `F_F0`, the basic subfields, `F_F5` and `F_F6`. -/
def funcFieldsRef (bfc : Nat) (ftoken : Token) : List CStr :=
  [ascii "F_F0:" ++ ftoken.normalized_surface] ++
  basicFieldsRef (ascii "F_F") bfc ftoken.feature_list ++
  conjFieldRef (ascii "F_F5:") ftoken.feature_list bfc ++
  conjFieldRef (ascii "F_F6:") ftoken.feature_list (bfc + 1)

/-- Reference, in the spec's words: the value of the `A` feature, by priority: the
function token's normalized surface if its raw feature prefix-matches the
dynamic-class-A pattern; else its conjugation-form subfield, at index
`basicFieldCount + 1`, if there is one and it is not `*`; else the concatenation of its
basic subfields up to the first `*`. -/
def classAValueRef (delim : CStr) (sel : Selector) (bfc : Nat) (ftoken : Token) : CStr :=
  if (sel.pat_dyn_a_.prefix_match ftoken.feature).isSome then ftoken.normalized_surface
  else
    match ftoken.feature_list[bfc + 1]? with
    | some f =>
      if f = STAR then
        List.intercalate delim
          ((ftoken.feature_list.take bfc).takeWhile (fun f => f != STAR))
      else f
    | none =>
      List.intercalate delim ((ftoken.feature_list.take bfc).takeWhile (fun f => f != STAR))

/-- The feature tokens written after the function-token fields: `A`, `B`, the case flag
and the boundary flags. -/
def tailItems (delim : CStr) (sel : Selector) (size pos_size i : Nat)
    (htoken ftoken : Token) : List CStr :=
  [ascii "A:" ++ classAValueRef delim sel pos_size ftoken] ++
  [ascii "B:" ++ concat_feature delim htoken pos_size] ++
  (if (sel.pat_case_.prefix_match ftoken.feature).isSome then
    [ascii "G_CASE:" ++ ftoken.normalized_surface] else []) ++
  (if i = 0 then [ascii "F_BOS:1"] else []) ++
  (if i = size - 1 then [ascii "F_EOS:1"] else [])

/-- A Scheme A sentence of one chunk with one token whose subfields are
`(v,j,*,*,g,k)`: two basic subfields, then `*`, `*`, then a conjugation type and a
conjugation form. -/
def exTreeConj : Tree where
  tokens := [exToken (ascii "x") (ascii "v,j,*,*,g,k")
    [ascii "v", ascii "j", STAR, STAR, ascii "g", ascii "k"]]
  chunks := [exChunk 0 1]
  posset := PossetType.IPA
  output_layer := OutputLayerType.earlier 0

/-- The feature tokens written for the chunk of `exTreeConj`. -/
def exConjItems : List CStr :=
  [ascii "F_H0:x", ascii "F_H1:v", ascii "F_H2:j", ascii "F_H5:g", ascii "F_H6:k",
   ascii "F_F0:x", ascii "F_F1:v", ascii "F_F2:j", ascii "F_F5:g", ascii "F_F6:k",
   ascii "A:k", ascii "B:v-j", ascii "F_BOS:1", ascii "F_EOS:1"]

/-- The sentence `exTreeConj` after `parse`. -/
def exTreeConjParsed : Tree where
  tokens := exTreeConj.tokens
  chunks := [
    { head_pos := 0, func_pos := 0, token_size := 1, token_pos := 0,
      feature_list := exConjItems, feature_list_size := 14 }]
  posset := PossetType.IPA
  output_layer := OutputLayerType.OUTPUT_SELECTION

/-- What `parse` reads of the subfields of a head or function token: the basic
subfields up to the first `*`, and the two subfields right after the basic ones, each
when it is within the declared count and not `*`. -/
def subfieldView (pos_size : Nat) (tok : Token) : List CStr × Option CStr × Option CStr :=
  ((tok.feature_list.take pos_size).takeWhile (fun f => f != STAR),
   get_token tok pos_size, get_token tok (pos_size + 1))

/-- The token `tok` with its subfield of index `j` replaced by `x`. -/
def setSubfield (tok : Token) (j : Nat) (x : CStr) : Token :=
  { tok with feature_list := tok.feature_list.set j x }

/-- A Scheme A sentence of one chunk with one token whose normalized surface is 1100
bytes long. -/
def exTreeLong : Tree where
  tokens := [exToken (List.replicate 1100 97) (ascii "*,*,*,*") [STAR, STAR, STAR, STAR]]
  chunks := [exChunk 0 1]
  posset := PossetType.IPA
  output_layer := OutputLayerType.earlier 0

/-- The names of the head-token fields. -/
def headFieldNames : List CStr :=
  [ascii "F_H0", ascii "F_H1", ascii "F_H2", ascii "F_H3", ascii "F_H4", ascii "F_H5",
   ascii "F_H6"]

/-- The names of the features that are not head-token fields: the flags, the
function-token fields, `A`, `B`, the case flag and the boundary flags. -/
def otherFieldNames : List CStr :=
  [ascii "G_PUNC", ascii "F_PUNC", ascii "G_OB", ascii "F_OB", ascii "G_CB", ascii "F_CB",
   ascii "F_F0", ascii "F_F1", ascii "F_F2", ascii "F_F3", ascii "F_F4", ascii "F_F5",
   ascii "F_F6", ascii "A", ascii "B", ascii "G_CASE", ascii "F_BOS", ascii "F_EOS"]

/-- The indices of the subfield array that the loop of lines 154-157 and 164-167
dereferences, over the first `hsize` subfields `fl` from index `k` on: each index up to
and including that of the first `"*"`, where the loop breaks. -/
def fieldLoopReads : List CStr → Nat → List Nat
  | [], _ => []
  | f :: fs, k => if f = STAR then [k] else k :: fieldLoopReads fs (k + 1)

/-- The indices of the subfield array that `get_token(token, id)` dereferences, lines
18-20: `id`, unless the declared count is at most `id`. -/
def getTokenReads (token : Token) (id : Nat) : List Nat :=
  if token.feature_list.length ≤ id then [] else [id]

/-- The indices of the subfield array of a head or function token that lines 145-170
dereference: those of the two `get_token` calls and those of the subfield loop. What
`concat_feature` dereferences is inside that helper, which is not under `src/`. -/
def subfieldReads (pos_size : Nat) (token : Token) : List Nat :=
  getTokenReads token pos_size ++ getTokenReads token (pos_size + 1) ++
    fieldLoopReads (token.feature_list.take (min pos_size token.feature_list.length)) 0

/-! ## Lemmas on strings and patterns -/

theorem splitPieces_ne_nil (del : CStr) (s : CStr) : splitPieces del s ≠ [] := by
  induction s with
  | nil => simp [splitPieces]
  | cons b rest ih =>
    unfold splitPieces
    split
    · simp
    · split <;> simp

theorem splitPieces_free (del : CStr) (s : CStr) (h : ∀ b ∈ s, b ∉ del) :
    splitPieces del s = [s] := by
  induction s with
  | nil => simp [splitPieces]
  | cons b rest ih =>
    have hb : b ∉ del := h b (by simp)
    have hr : ∀ c ∈ rest, c ∉ del := fun c hc => h c (by simp [hc])
    simp [splitPieces, hb, ih hr]

theorem splitPieces_append (del : CStr) (s : CStr) (d : Nat) (rest : CStr)
    (h : ∀ b ∈ s, b ∉ del) (hd : d ∈ del) :
    splitPieces del (s ++ d :: rest) = s :: splitPieces del rest := by
  induction s with
  | nil => simp [splitPieces, hd]
  | cons b s ih =>
    have hb : b ∉ del := h b (by simp)
    have hr : ∀ c ∈ s, c ∉ del := fun c hc => h c (by simp [hc])
    simp [splitPieces, hb, ih hr]


theorem matchLoop_some_iff (str : CStr) (P : List CStr) (p : CStr) :
    matchLoop str P = some p ↔
      ∃ pre post, P = pre ++ p :: post ∧ p = str ∧ ∀ q ∈ pre, q ≠ str := by
  induction P with
  | nil => simp [matchLoop]
  | cons a P ih =>
    unfold matchLoop
    by_cases h : a = str
    · simp only [h, if_true, Option.some.injEq]
      constructor
      · intro hp
        exact ⟨[], P, by simp [hp], hp.symm, by simp⟩
      · rintro ⟨pre, post, hP, hp, hpre⟩
        cases pre with
        | nil => simp at hP; exact hP.1
        | cons b pre =>
          simp at hP
          exact absurd hP.1.symm (hpre b (by simp))
    · simp only [h, if_false, ih]
      constructor
      · rintro ⟨pre, post, hP, hp, hpre⟩
        refine ⟨a :: pre, post, by simp [hP], hp, ?_⟩
        intro q hq
        rcases List.mem_cons.1 hq with rfl | hq
        · exact h
        · exact hpre q hq
      · rintro ⟨pre, post, hP, hp, hpre⟩
        cases pre with
        | nil => simp at hP; exact absurd (hP.1.trans hp) h
        | cons b pre =>
          simp at hP
          exact ⟨pre, post, hP.2, hp, fun q hq => hpre q (by simp [hq])⟩

theorem matchLoop_none_iff (str : CStr) (P : List CStr) :
    matchLoop str P = none ↔ ∀ p ∈ P, p ≠ str := by
  induction P with
  | nil => simp [matchLoop]
  | cons a P ih =>
    unfold matchLoop
    by_cases h : a = str
    · simp [h]
    · simp [h, ih]

theorem take_eq_iff_isPrefix (p str : CStr) :
    (¬ str.length < p.length ∧ str.take p.length = p) ↔ p <+: str := by
  constructor
  · rintro ⟨_, h⟩
    exact h ▸ List.take_prefix _ _
  · intro h
    refine ⟨Nat.not_lt.2 h.length_le, ?_⟩
    exact List.prefix_iff_eq_take.1 h |>.symm

theorem prefixMatchLoop_step (str : CStr) (a : CStr) (P : List CStr) :
    prefixMatchLoop str str.length (a :: P) =
      if a <+: str then some a else prefixMatchLoop str str.length P := by
  have key := take_eq_iff_isPrefix a str
  rw [prefixMatchLoop]
  by_cases h1 : str.length < a.length
  · have : ¬ a <+: str := fun h => (key.2 h).1 h1
    simp [h1, this]
  · by_cases h2 : str.take a.length = a
    · have : a <+: str := key.1 ⟨h1, h2⟩
      simp [h1, h2, this]
    · have : ¬ a <+: str := fun h => h2 (key.2 h).2
      simp [h1, h2, this]

theorem prefixMatchLoop_some_iff (str : CStr) (P : List CStr) (p : CStr) :
    prefixMatchLoop str str.length P = some p ↔
      ∃ pre post, P = pre ++ p :: post ∧ p <+: str ∧ ∀ q ∈ pre, ¬ q <+: str := by
  induction P with
  | nil => simp [prefixMatchLoop]
  | cons a P ih =>
    rw [prefixMatchLoop_step]
    by_cases h : a <+: str
    · simp only [h, if_true, Option.some.injEq]
      constructor
      · intro hp
        exact ⟨[], P, by simp [hp], hp ▸ h, by simp⟩
      · rintro ⟨pre, post, hP, hp, hpre⟩
        cases pre with
        | nil => simp at hP; exact hP.1
        | cons b pre =>
          simp at hP
          exact absurd (hP.1 ▸ h) (hpre b (by simp))
    · simp only [h, if_false, ih]
      constructor
      · rintro ⟨pre, post, hP, hp, hpre⟩
        refine ⟨a :: pre, post, by simp [hP], hp, ?_⟩
        intro q hq
        rcases List.mem_cons.1 hq with rfl | hq
        · exact h
        · exact hpre q hq
      · rintro ⟨pre, post, hP, hp, hpre⟩
        cases pre with
        | nil => simp at hP; exact absurd (hP.1 ▸ hp) h
        | cons b pre =>
          simp at hP
          exact ⟨pre, post, hP.2, hp, fun q hq => hpre q (by simp [hq])⟩

theorem prefixMatchLoop_none_iff (str : CStr) (P : List CStr) :
    prefixMatchLoop str str.length P = none ↔ ∀ p ∈ P, ¬ p <+: str := by
  induction P with
  | nil => simp [prefixMatchLoop]
  | cons a P ih =>
    rw [prefixMatchLoop_step]
    by_cases h : a <+: str
    · simp [h]
    · simp [h, ih]

theorem cstr_of_no_nul (s : List Nat) (h : 0 ∉ s) : cstr s = s := by
  unfold cstr
  rw [List.takeWhile_eq_self_iff]
  intro b hb
  have : b ≠ 0 := fun hb0 => h (hb0 ▸ hb)
  simpa using this

theorem intercalate_cons_cons (sep l l2 : CStr) (ls : List CStr) :
    List.intercalate sep (l :: l2 :: ls) = l ++ sep ++ List.intercalate sep (l2 :: ls) := by
  simp [List.intercalate, List.intersperse]

theorem intercalate_singleton (sep l : CStr) : List.intercalate sep [l] = l := by
  simp [List.intercalate, List.intersperse]

theorem splitPieces_intercalate (d : Nat) (ls : List CStr) (hne : ls ≠ [])
    (h : ∀ l ∈ ls, d ∉ l) : splitPieces [d] (List.intercalate [d] ls) = ls := by
  induction ls with
  | nil => exact absurd rfl hne
  | cons l ls ih =>
    have hl : ∀ b ∈ l, b ∉ [d] := by
      intro b hb hbd
      have : b = d := by simpa using hbd
      exact h l (by simp) (this ▸ hb)
    cases ls with
    | nil => rw [intercalate_singleton]; exact splitPieces_free [d] l hl
    | cons l2 ls =>
      rw [intercalate_cons_cons, List.append_assoc, List.singleton_append,
        splitPieces_append [d] l d _ hl (by simp),
        ih (by simp) (fun x hx => h x (List.mem_cons_of_mem _ hx))]

theorem length_le_intercalate (sep : CStr) (ls : List CStr) (h : ∀ l ∈ ls, l ≠ []) :
    ls.length ≤ (List.intercalate sep ls).length := by
  induction ls with
  | nil => simp
  | cons l ls ih =>
    have hl : 1 ≤ l.length := List.length_pos.2 (h l (by simp))
    have ih1 := ih (fun x hx => h x (List.mem_cons_of_mem _ hx))
    cases ls with
    | nil => rw [intercalate_singleton]; simpa using hl
    | cons l2 ls =>
      rw [intercalate_cons_cons]
      simp only [List.length_append, List.length_cons] at ih1 ⊢
      omega

theorem mem_intercalate (sep : CStr) (ls : List CStr) (b : Nat)
    (hb : b ∈ List.intercalate sep ls) : b ∈ sep ∨ ∃ l ∈ ls, b ∈ l := by
  induction ls with
  | nil => simp [List.intercalate, List.intersperse] at hb
  | cons l ls ih =>
    cases ls with
    | nil =>
      rw [intercalate_singleton] at hb
      exact Or.inr ⟨l, by simp, hb⟩
    | cons l2 ls =>
      rw [intercalate_cons_cons] at hb
      simp only [List.mem_append] at hb
      rcases hb with (hb | hb) | hb
      · exact Or.inr ⟨l, by simp, hb⟩
      · exact Or.inl hb
      · rcases ih hb with h1 | ⟨x, hx, hbx⟩
        · exact Or.inl h1
        · exact Or.inr ⟨x, List.mem_cons_of_mem _ hx, hbx⟩

theorem filter_nonempty_self (ls : List CStr) (h : ∀ l ∈ ls, l ≠ []) :
    ls.filter (fun p => !p.isEmpty) = ls := by
  rw [List.filter_eq_self]
  intro l hl
  have := h l hl
  cases l with
  | nil => exact absurd rfl this
  | cons => rfl

theorem splitPieces_replicate (d : Nat) (k : Nat) :
    (splitPieces [d] (List.replicate k d)).filter (fun p => !p.isEmpty) = [] := by
  induction k with
  | zero => simp [splitPieces]
  | succ k ih => simp [List.replicate_succ, splitPieces, ih]

/-- The two branches of `compile`, stated on the converted text. -/
theorem compile_eq (BUF_SIZE : Nat) (m : PatternMatcher) (spec : CStr) :
    m.compile BUF_SIZE spec (some Iconv.identity) =
      if spec.length ≥ 3 ∧ spec[0]? = some 40 ∧ spec[spec.length - 1]? = some 41 then
        if ¬ (spec.length < BUF_SIZE - 3) then none
        else if ¬ ((tokenize (cstr ((spec.drop 1).take (spec.length - 2))) [124]
            BUF_SIZE).length < BUF_SIZE) then none
        else some (!(tokenize (cstr ((spec.drop 1).take (spec.length - 2))) [124]
            BUF_SIZE).isEmpty,
          PatternMatcher.mk (tokenize (cstr ((spec.drop 1).take (spec.length - 2))) [124]
            BUF_SIZE))
      else some (true, PatternMatcher.mk [cstr spec]) := by
  simp only [PatternMatcher.compile, PatternMatcher.clear, Iconv.identity, List.nil_append]
  rfl

theorem parenSpec_shape (inner : CStr) :
    (40 :: (inner ++ [41]) : CStr)[0]? = some 40 ∧
    (40 :: (inner ++ [41]) : CStr)[(40 :: (inner ++ [41]) : CStr).length - 1]? = some 41 ∧
    ((40 :: (inner ++ [41]) : CStr).drop 1).take
      ((40 :: (inner ++ [41]) : CStr).length - 2) = inner := by
  refine ⟨by simp, ?_, ?_⟩
  · simp [List.getElem?_append_right]
  · simp

/-! ## Lemmas on `findHead` -/

theorem chunkSpan_le (chunk : Chunk) : chunkSpan chunk ≤ chunk.token_size := by
  unfold chunkSpan
  have := Nat.mod_le (chunk.token_pos + chunk.token_size) SIZE_RANGE
  omega

theorem chunkSpan_lt (chunk : Chunk) (h : 0 < chunkSpan chunk) :
    chunk.token_pos + chunkSpan chunk < SIZE_RANGE := by
  unfold chunkSpan at h ⊢
  have : (chunk.token_pos + chunk.token_size) % SIZE_RANGE < SIZE_RANGE :=
    Nat.mod_lt _ (by unfold SIZE_RANGE; positivity)
  omega

theorem chunkSpan_eq (chunk : Chunk) (h : chunk.token_pos + chunk.token_size < SIZE_RANGE) :
    chunkSpan chunk = chunk.token_size := by
  unfold chunkSpan
  rw [Nat.mod_eq_of_lt h]
  omega

theorem findHeadStep_some (sel : Selector) (tree : Tree) (st st1 : Nat × Nat) (j : Nat)
    (h : findHeadStep sel tree st j = some st1) :
    (st1.1 = st.1 ∨ st1.1 = j) ∧ (st1.2 = st.2 ∨ st1.2 = j) := by
  unfold findHeadStep at h
  split at h
  · exact absurd h (by simp)
  · split at h
    · split at h
      · cases h; simp
      · split at h <;> cases h <;> simp
    · split at h
      · cases h
        constructor
        · dsimp only; split <;> simp
        · dsimp only; split <;> simp
      · cases h; simp

theorem findHeadLoop_range (sel : Selector) (tree : Tree) :
    ∀ (n j : Nat) (st st1 : Nat × Nat), findHeadLoop sel tree n j st = some st1 →
      (st1.1 = st.1 ∨ (j ≤ st1.1 ∧ st1.1 < j + n)) ∧
      (st1.2 = st.2 ∨ (j ≤ st1.2 ∧ st1.2 < j + n)) := by
  intro n
  induction n with
  | zero =>
    intro j st st1 h
    simp only [findHeadLoop, Option.some.injEq] at h
    subst h
    simp
  | succ n ih =>
    intro j st st1 h
    unfold findHeadLoop at h
    split at h
    · exact absurd h (by simp)
    · rename_i st2 hstep
      have h1 := findHeadStep_some sel tree st st2 j hstep
      have h2 := ih (j + 1) st2 st1 h
      omega

theorem findHeadStep_defined (sel : Selector) (tree : Tree) (st : Nat × Nat) (j : Nat)
    (hj : j < tree.tokens.length) : ∃ st1, findHeadStep sel tree st j = some st1 := by
  unfold findHeadStep
  rw [List.getElem?_eq_getElem hj]
  dsimp only
  split
  · split
    · exact ⟨_, rfl⟩
    · split <;> exact ⟨_, rfl⟩
  · split <;> exact ⟨_, rfl⟩

theorem findHeadLoop_defined (sel : Selector) (tree : Tree) :
    ∀ (n j : Nat) (st : Nat × Nat), j + n ≤ tree.tokens.length →
      ∃ st1, findHeadLoop sel tree n j st = some st1 := by
  intro n
  induction n with
  | zero => intro j st _; exact ⟨st, rfl⟩
  | succ n ih =>
    intro j st h
    obtain ⟨st2, h2⟩ := findHeadStep_defined sel tree st j (by omega)
    obtain ⟨st1, h1⟩ := ih (j + 1) st2 (by omega)
    exact ⟨st1, by rw [findHeadLoop, h2]; exact h1⟩

/-- What `findHead` returns lies in the range of indices its loop visits, or is the
first index of the chunk. -/
theorem findHead_range (sel : Selector) (tree : Tree) (chunk : Chunk) (hid fid : Nat)
    (h : sel.findHead tree chunk = some (hid, fid)) :
    (hid = chunk.token_pos ∨ (chunk.token_pos ≤ hid ∧ hid < chunk.token_pos + chunkSpan chunk)) ∧
    (fid = chunk.token_pos ∨ (chunk.token_pos ≤ fid ∧ fid < chunk.token_pos + chunkSpan chunk)) := by
  unfold Selector.findHead at h
  split at h
  · exact absurd h (by simp)
  · rename_i h1 f1 hloop
    have hr := findHeadLoop_range sel tree _ _ _ _ hloop
    simp only at hr
    split at h
    · simp only [Option.some.injEq, Prod.mk.injEq] at h
      obtain ⟨rfl, rfl⟩ := h
      exact ⟨hr.1, hr.1⟩
    · simp only [Option.some.injEq, Prod.mk.injEq] at h
      obtain ⟨rfl, rfl⟩ := h
      exact hr

theorem findHead_defined (sel : Selector) (tree : Tree) (chunk : Chunk)
    (h : chunk.token_pos + chunkSpan chunk ≤ tree.tokens.length) :
    ∃ hid fid, sel.findHead tree chunk = some (hid, fid) := by
  obtain ⟨st1, h1⟩ := findHeadLoop_defined sel tree (chunkSpan chunk) chunk.token_pos
    (chunk.token_pos, chunk.token_pos) h
  unfold Selector.findHead
  rw [h1]
  obtain ⟨a, b⟩ := st1
  dsimp only
  split <;> exact ⟨_, _, rfl⟩

/-- The `size_t` difference `idx - token_pos` of lines 195-196, for an index that
`findHead` returns. -/
theorem offset_eq (chunk : Chunk) (idx : Nat)
    (h : idx = chunk.token_pos ∨
      (chunk.token_pos ≤ idx ∧ idx < chunk.token_pos + chunkSpan chunk)) :
    (idx + SIZE_RANGE - chunk.token_pos) % SIZE_RANGE = idx - chunk.token_pos := by
  rcases h with h | ⟨h1, h2⟩
  · subst h
    rw [Nat.add_sub_cancel_left, Nat.mod_self, Nat.sub_self]
  · have h3 := chunkSpan_lt chunk (by omega)
    have h4 : idx + SIZE_RANGE - chunk.token_pos = (idx - chunk.token_pos) + SIZE_RANGE := by
      omega
    rw [h4, Nat.add_mod_right, Nat.mod_eq_of_lt (by omega)]

/-! ## Lemmas on the chunk loop of `parse` -/

theorem findHeadLoop_congr (sel : Selector) (t1 t2 : Tree) (ht : t1.tokens = t2.tokens)
    (hp : t1.posset = t2.posset) :
    ∀ (n j : Nat) (st : Nat × Nat), findHeadLoop sel t1 n j st = findHeadLoop sel t2 n j st := by
  intro n
  induction n with
  | zero => intro j st; rfl
  | succ n ih =>
    intro j st
    have hstep : findHeadStep sel t1 st j = findHeadStep sel t2 st j := by
      unfold findHeadStep
      rw [ht, hp]
    rw [findHeadLoop, findHeadLoop, hstep]
    split
    · rfl
    · exact ih _ _

theorem flagLoop_congr (sel : Selector) (t1 t2 : Tree) (ht : t1.tokens = t2.tokens) :
    ∀ (n j : Nat) (o : CStr), flagLoop sel t1 n j o = flagLoop sel t2 n j o := by
  intro n
  induction n with
  | zero => intro j o; rfl
  | succ n ih =>
    intro j o
    rw [flagLoop, flagLoop, ht]
    split
    · rfl
    · exact ih _ _

theorem featureText_congr (delim : CStr) (sel : Selector) (t1 t2 : Tree) (c1 c2 : Chunk)
    (size pos_size i : Nat) (ht : t1.tokens = t2.tokens) (hp : t1.posset = t2.posset)
    (hpos : c1.token_pos = c2.token_pos) (hsz : c1.token_size = c2.token_size) :
    sel.featureText delim t1 size pos_size i c1 = sel.featureText delim t2 size pos_size i c2 := by
  have hspan : chunkSpan c1 = chunkSpan c2 := by unfold chunkSpan; rw [hpos, hsz]
  have hfh : sel.findHead t1 c1 = sel.findHead t2 c2 := by
    unfold Selector.findHead
    rw [hspan, hpos, findHeadLoop_congr sel t1 t2 ht hp, hp]
  unfold Selector.featureText
  rw [hspan, hpos, flagLoop_congr sel t1 t2 ht, hfh, ht]

theorem writeChunk_congr (c1 c2 : Chunk) (text : CStr) (hid fid : Nat)
    (hpos : c1.token_pos = c2.token_pos) (hsz : c1.token_size = c2.token_size) :
    writeChunk c1 text hid fid = writeChunk c2 text hid fid := by
  unfold writeChunk
  rw [hpos, hsz]

/-- The chunk written back depends on the sentence through its tokens and tagset,
and on the chunk through its token range. -/
theorem chunkOut_congr (delim : CStr) (sel : Selector) (t1 t2 : Tree) (c1 c2 : Chunk)
    (size pos_size i : Nat) (ht : t1.tokens = t2.tokens) (hp : t1.posset = t2.posset)
    (hpos : c1.token_pos = c2.token_pos) (hsz : c1.token_size = c2.token_size) :
    sel.chunkOut delim t1 size pos_size i c1 = sel.chunkOut delim t2 size pos_size i c2 := by
  unfold Selector.chunkOut
  rw [featureText_congr delim sel t1 t2 c1 c2 size pos_size i ht hp hpos hsz]
  split
  · rfl
  · exact writeChunk_congr c1 c2 _ _ _ hpos hsz

theorem writeChunk_range (c c1 : Chunk) (text : CStr) (hid fid : Nat)
    (h : writeChunk c text hid fid = some c1) :
    c1.token_pos = c.token_pos ∧ c1.token_size = c.token_size := by
  unfold writeChunk at h
  split at h
  · exact absurd h (by simp)
  · cases h
    exact ⟨rfl, rfl⟩

theorem chunkOut_range (delim : CStr) (sel : Selector) (tree : Tree) (c c1 : Chunk)
    (size pos_size i : Nat) (h : sel.chunkOut delim tree size pos_size i c = some c1) :
    c1.token_pos = c.token_pos ∧ c1.token_size = c.token_size := by
  unfold Selector.chunkOut at h
  split at h
  · exact absurd h (by simp)
  · exact writeChunk_range _ _ _ _ _ h

/-- What the chunk loop leaves when it ends: tokens, tagset, stage marker and chunk
count as before, the chunks it has passed written back, the others as before. -/
theorem parseLoop_some (delim : CStr) (sel : Selector) (size pos_size : Nat) :
    ∀ (n i : Nat) (tree tree1 : Tree),
      sel.parseLoop delim size pos_size n i tree = some tree1 →
      tree1.tokens = tree.tokens ∧ tree1.posset = tree.posset ∧
      tree1.output_layer = tree.output_layer ∧
      tree1.chunks.length = tree.chunks.length ∧
      (∀ k, k < i ∨ i + n ≤ k → tree1.chunks[k]? = tree.chunks[k]?) ∧
      (∀ k, i ≤ k → k < i + n → ∃ c c1, tree.chunks[k]? = some c ∧
        sel.chunkOut delim tree size pos_size k c = some c1 ∧
        tree1.chunks[k]? = some c1) := by
  intro n
  induction n with
  | zero =>
    intro i tree tree1 h
    simp only [Selector.parseLoop, Option.some.injEq] at h
    subst h
    refine ⟨rfl, rfl, rfl, rfl, fun _ _ => rfl, ?_⟩
    intro k h1 h2
    omega
  | succ n ih =>
    intro i tree tree1 h
    unfold Selector.parseLoop Selector.parseChunk at h
    split at h
    · exact absurd h (by simp)
    · rename_i t2 hchunk
      split at hchunk
      · exact absurd hchunk (by simp)
      · rename_i c hc
        split at hchunk
        · exact absurd hchunk (by simp)
        · rename_i c1 hout
          simp only [Option.some.injEq] at hchunk
          subst hchunk
          obtain ⟨h1, h2, h3, h4, h5, h6⟩ := ih (i + 1) _ tree1 h
          have hi : i < tree.chunks.length := by
            by_contra hcon
            rw [List.getElem?_eq_none (by omega)] at hc
            exact absurd hc (by simp)
          refine ⟨h1, h2, h3, by simpa using h4, ?_, ?_⟩
          · intro k hk
            rw [h5 k (by omega)]
            simp only [List.getElem?_set]
            rw [if_neg (by omega)]
          · intro k hk1 hk2
            by_cases hki : k = i
            · subst hki
              refine ⟨c, c1, hc, hout, ?_⟩
              rw [h5 k (by omega)]
              simp only [List.getElem?_set]
              simp [hi]
            · obtain ⟨c2, c3, e1, e2, e3⟩ := h6 k (by omega) (by omega)
              simp only [List.getElem?_set] at e1
              rw [if_neg (by omega)] at e1
              refine ⟨c2, c3, e1, ?_, e3⟩
              rw [← e2]
              exact chunkOut_congr delim sel _ _ c2 c2 size pos_size k rfl rfl rfl rfl

/-- The chunk loop runs to its end when every chunk it passes can be written back. -/
theorem parseLoop_defined (delim : CStr) (sel : Selector) (size pos_size : Nat) :
    ∀ (n i : Nat) (tree : Tree),
      (∀ k, i ≤ k → k < i + n → ∃ c c1, tree.chunks[k]? = some c ∧
        sel.chunkOut delim tree size pos_size k c = some c1) →
      ∃ tree1, sel.parseLoop delim size pos_size n i tree = some tree1 := by
  intro n
  induction n with
  | zero => intro i tree _; exact ⟨tree, rfl⟩
  | succ n ih =>
    intro i tree h
    obtain ⟨c, c1, hc, hout⟩ := h i (by omega) (by omega)
    have hstep : sel.parseChunk delim size pos_size tree i =
        some { tree with chunks := tree.chunks.set i c1 } := by
      unfold Selector.parseChunk
      rw [hc]
      dsimp only
      rw [hout]
    have hnext : ∀ k, i + 1 ≤ k → k < i + 1 + n → ∃ d d1,
        ({ tree with chunks := tree.chunks.set i c1 } : Tree).chunks[k]? = some d ∧
        sel.chunkOut delim { tree with chunks := tree.chunks.set i c1 } size pos_size k d =
          some d1 := by
      intro k hk1 hk2
      obtain ⟨c2, c3, e1, e2⟩ := h k (by omega) (by omega)
      refine ⟨c2, c3, ?_, ?_⟩
      · simp only [List.getElem?_set]
        rw [if_neg (by omega)]
        exact e1
      · rw [← e2]
        exact chunkOut_congr delim sel _ _ c2 c2 size pos_size k rfl rfl rfl rfl
    obtain ⟨tree1, h1⟩ := ih (i + 1) _ hnext
    exact ⟨tree1, by rw [Selector.parseLoop, hstep]; exact h1⟩

/-- What `parse` leaves on a sentence: success, the stage marker set, the tokens, the
tagset and the chunk count as before, and every chunk written back by `chunkOut`. -/
theorem parse_some (delim : CStr) (sel : Selector) (tree : Tree) (r : Bool × Option Tree)
    (h : sel.parse delim (some tree) = some r) :
    ∃ tree1, r = (true, some tree1) ∧
      tree1.tokens = tree.tokens ∧ tree1.posset = tree.posset ∧
      tree1.output_layer = OutputLayerType.OUTPUT_SELECTION ∧
      tree1.chunks.length = tree.chunks.length ∧
      ∀ k c, tree.chunks[k]? = some c → ∃ c1,
        sel.chunkOut delim tree tree.chunks.length (posSize tree) k c = some c1 ∧
        tree1.chunks[k]? = some c1 := by
  unfold Selector.parse at h
  dsimp only at h
  split at h
  · exact absurd h (by simp)
  · rename_i t1 hloop
    simp only [Option.some.injEq] at h
    subst h
    obtain ⟨h1, h2, _, h4, _, h6⟩ := parseLoop_some delim sel _ _ _ _ _ _ hloop
    refine ⟨_, rfl, h1, h2, rfl, h4, ?_⟩
    intro k c hc
    have hk : k < tree.chunks.length := by
      by_contra hcon
      rw [List.getElem?_eq_none (by omega)] at hc
      exact absurd hc (by simp)
    obtain ⟨c2, c1, e1, e2, e3⟩ := h6 k (by omega) (by omega)
    rw [hc] at e1
    cases e1
    exact ⟨c1, e2, e3⟩

/-- `parse` returns on every sentence whose chunks can all be written back. -/
theorem parse_defined (delim : CStr) (sel : Selector) (tree : Tree)
    (h : ∀ k c, tree.chunks[k]? = some c →
      ∃ c1, sel.chunkOut delim tree tree.chunks.length (posSize tree) k c = some c1) :
    ∃ tree1, sel.parse delim (some tree) = some (true, some tree1) := by
  obtain ⟨t1, h1⟩ := parseLoop_defined delim sel tree.chunks.length (posSize tree)
    tree.chunks.length 0 tree (by
      intro k _ hk
      have hk2 : k < tree.chunks.length := by omega
      obtain ⟨c1, hc1⟩ := h k _ (List.getElem?_eq_getElem hk2)
      exact ⟨_, c1, List.getElem?_eq_getElem hk2, hc1⟩)
  refine ⟨{ t1 with output_layer := OutputLayerType.OUTPUT_SELECTION }, ?_⟩
  unfold Selector.parse
  dsimp only
  rw [h1]

/-- Inversion of `chunkOut`: the parts of the chunk written back. -/
theorem chunkOut_some (delim : CStr) (sel : Selector) (tree : Tree) (c c1 : Chunk)
    (size pos_size i : Nat) (h : sel.chunkOut delim tree size pos_size i c = some c1) :
    ∃ flags hid fid htoken ftoken,
      flagLoop sel tree (chunkSpan c) c.token_pos [] = some flags ∧
      sel.findHead tree c = some (hid, fid) ∧
      tree.tokens[hid]? = some htoken ∧ tree.tokens[fid]? = some ftoken ∧
      sel.featureText delim tree size pos_size i c =
        some (flags ++ tokenText delim sel size pos_size i htoken ftoken, hid, fid) ∧
      (flags ++ tokenText delim sel size pos_size i htoken ftoken).length + 1 ≤ FEATURE_BUF ∧
      c1.token_pos = c.token_pos ∧ c1.token_size = c.token_size ∧
      c1.head_pos = (hid + SIZE_RANGE - c.token_pos) % SIZE_RANGE ∧
      c1.func_pos = (fid + SIZE_RANGE - c.token_pos) % SIZE_RANGE ∧
      c1.feature_list =
        tokenize ((flags ++ tokenText delim sel size pos_size i htoken ftoken).drop 1) [32]
          kFeatureSize ∧
      c1.feature_list_size = c1.feature_list.length % 256 := by
  unfold Selector.chunkOut at h
  split at h
  · exact absurd h (by simp)
  · rename_i text hid fid htext
    have htext0 := htext
    unfold Selector.featureText at htext
    split at htext
    · exact absurd htext (by simp)
    · rename_i flags hflags
      split at htext
      · exact absurd htext (by simp)
      · rename_i hid1 fid1 hfh
        split at htext
        · rename_i htoken ftoken hh hf
          simp only [Option.some.injEq, Prod.mk.injEq] at htext
          obtain ⟨rfl, rfl, rfl⟩ := htext
          unfold writeChunk at h
          split at h
          · exact absurd h (by simp)
          · rename_i hfit
            simp only [Option.some.injEq] at h
            subst h
            exact ⟨flags, hid1, fid1, htoken, ftoken, hflags, hfh, hh, hf, htext0,
              not_not.1 hfit, rfl, rfl, rfl, rfl, rfl, rfl⟩
        · exact absurd htext (by simp)

theorem map_range_getElem? (l1 l2 : List Chunk) (h : l1.map Chunk.range = l2.map Chunk.range)
    (k : Nat) (c1 : Chunk) (h1 : l1[k]? = some c1) :
    ∃ c2, l2[k]? = some c2 ∧ c1.token_pos = c2.token_pos ∧ c1.token_size = c2.token_size := by
  have hk := congrArg (fun l => l[k]?) h
  simp only [List.getElem?_map, h1, Option.map_some'] at hk
  cases h2 : l2[k]? with
  | none => rw [h2] at hk; simp at hk
  | some c2 =>
    rw [h2] at hk
    simp only [Option.map_some', Option.some.injEq, Chunk.range, Prod.mk.injEq] at hk
    exact ⟨c2, rfl, hk.1, hk.2⟩

/-- A sentence with the same tokens, tagset and chunk token ranges is parsed to the
same sentence. -/
theorem parse_congr_some (delim : CStr) (sel : Selector) (tree tree1 tree2 : Tree)
    (h : sel.parse delim (some tree) = some (true, some tree1))
    (ht : tree2.tokens = tree.tokens) (hp : tree2.posset = tree.posset)
    (hr : tree2.chunks.map Chunk.range = tree.chunks.map Chunk.range) :
    sel.parse delim (some tree2) = some (true, some tree1) := by
  obtain ⟨t1, ht1, a1, a2, a3, a4, a5⟩ := parse_some delim sel tree _ h
  simp only [Prod.mk.injEq, Option.some.injEq, true_and] at ht1
  subst ht1
  have hlen : tree2.chunks.length = tree.chunks.length := by
    have := congrArg List.length hr
    simpa using this
  have hps : posSize tree2 = posSize tree := by unfold posSize; rw [hp]
  have hout : ∀ k c2, tree2.chunks[k]? = some c2 → ∃ c1,
      sel.chunkOut delim tree2 tree2.chunks.length (posSize tree2) k c2 = some c1 ∧
      tree1.chunks[k]? = some c1 := by
    intro k c2 hc2
    obtain ⟨c, hc, e1, e2⟩ := map_range_getElem? _ _ hr k c2 hc2
    obtain ⟨c1, hc1, hc1b⟩ := a5 k c hc
    refine ⟨c1, ?_, hc1b⟩
    rw [hlen, hps, ← hc1]
    exact chunkOut_congr delim sel _ _ _ _ _ _ _ ht hp e1 e2
  obtain ⟨t3, ht3⟩ := parse_defined delim sel tree2 (fun k c2 hc2 =>
    (hout k c2 hc2).imp (fun _ hx => hx.1))
  obtain ⟨t3b, hb, b1, b2, b3, b4, b5⟩ := parse_some delim sel tree2 _ ht3
  simp only [Prod.mk.injEq, Option.some.injEq, true_and] at hb
  subst hb
  have hchunks : t3.chunks = tree1.chunks := by
    apply List.ext_getElem?
    intro k
    by_cases hk : k < tree2.chunks.length
    · obtain ⟨c1, hc1, hc1b⟩ := hout k _ (List.getElem?_eq_getElem hk)
      obtain ⟨c3, hc3, hc3b⟩ := b5 k _ (List.getElem?_eq_getElem hk)
      rw [hc1] at hc3
      cases hc3
      rw [hc1b, hc3b]
    · rw [List.getElem?_eq_none (by omega), List.getElem?_eq_none (by omega)]
  have : t3 = tree1 := by
    cases t3
    cases tree1
    simp only [Tree.mk.injEq]
    simp only at hchunks b1 b2 b3 a1 a2 a3
    exact ⟨by rw [b1, ht, a1], hchunks, by rw [b2, hp, a2], by rw [b3, a3]⟩
  rw [ht3, this]

/-! ## Lemmas on the feature text -/

theorem itemsText_nil : itemsText [] = [] := rfl

theorem itemsText_cons (it : CStr) (items : List CStr) :
    itemsText (it :: items) = 32 :: (it ++ itemsText items) := by
  simp [itemsText]

theorem itemsText_append (a b : List CStr) :
    itemsText (a ++ b) = itemsText a ++ itemsText b := by
  simp [itemsText]

theorem itemsText_head (items : List CStr) :
    itemsText items = [] ∨ ∃ z, itemsText items = 32 :: z := by
  cases items with
  | nil => exact Or.inl rfl
  | cons it items => exact Or.inr ⟨_, itemsText_cons it items⟩

theorem pieces_nil : pieces [32] [] = [] := by
  simp [pieces, splitPieces]

theorem pieces_cons_sep (x : CStr) : pieces [32] (32 :: x) = pieces [32] x := by
  simp [pieces, splitPieces]

theorem pieces_item_append (it y : CStr) (hne : it ≠ []) (hfree : 32 ∉ it)
    (hy : y = [] ∨ ∃ z, y = 32 :: z) : pieces [32] (it ++ y) = it :: pieces [32] y := by
  have hfree2 : ∀ b ∈ it, b ∉ [32] := by
    intro b hb hb2
    have : b = 32 := by simpa using hb2
    exact hfree (this ▸ hb)
  have hkeep : (!it.isEmpty) = true := by
    cases it with
    | nil => exact absurd rfl hne
    | cons => rfl
  rcases hy with rfl | ⟨z, rfl⟩
  · rw [List.append_nil, pieces_nil]
    unfold pieces
    rw [splitPieces_free [32] it hfree2]
    simp [hkeep]
  · rw [pieces_cons_sep]
    unfold pieces
    rw [splitPieces_append [32] it 32 z hfree2 (by simp)]
    simp [hkeep]

/-- Feature tokens without a space come back from the text as they were written. -/
theorem pieces_itemsText_append (good others : List CStr)
    (h : ∀ it ∈ good, it ≠ [] ∧ 32 ∉ it) :
    pieces [32] (itemsText (good ++ others)) = good ++ pieces [32] (itemsText others) := by
  induction good with
  | nil => rfl
  | cons it good ih =>
    have hit := h it (by simp)
    rw [List.cons_append, itemsText_cons, pieces_cons_sep,
      pieces_item_append it _ hit.1 hit.2 (itemsText_head _),
      ih (fun x hx => h x (List.mem_cons_of_mem _ hx)), List.cons_append]

theorem pieces_itemsText (good : List CStr) (h : ∀ it ∈ good, it ≠ [] ∧ 32 ∉ it) :
    pieces [32] (itemsText good) = good := by
  have := pieces_itemsText_append good [] h
  rw [List.append_nil, itemsText_nil, pieces_nil, List.append_nil] at this
  exact this

theorem pieces_drop_one (items : List CStr) :
    pieces [32] ((itemsText items).drop 1) = pieces [32] (itemsText items) := by
  cases items with
  | nil => rfl
  | cons it items => rw [itemsText_cons, pieces_cons_sep]; rfl

theorem two_items_text (n1 n2 m1 m2 p : CStr) (h1 : m1 = 32 :: n1) (h2 : m2 = 32 :: n2) :
    m1 ++ p ++ (m2 ++ p) = itemsText [n1 ++ p, n2 ++ p] := by
  subst h1 h2
  simp [itemsText]

theorem flagText_eq (sel : Selector) (token : Token) :
    flagText sel token = itemsText (flagItems sel token) := by
  unfold flagText flagItems
  simp only [itemsText_append]
  congr 1
  · split
    · exact two_items_text _ _ _ _ _ rfl rfl
    · rfl
  · congr 1
    · split
      · exact two_items_text _ _ _ _ _ rfl rfl
      · rfl
    · split
      · exact two_items_text _ _ _ _ _ rfl rfl
      · rfl

theorem fieldLoop_eq (name : CStr) :
    ∀ (fl : List CStr) (k : Nat) (o : CStr),
      fieldLoop (32 :: name) fl k o = o ++ itemsText (fieldItems name fl k) := by
  intro fl
  induction fl with
  | nil => intro k o; simp [fieldLoop, fieldItems, itemsText_nil]
  | cons f fs ih =>
    intro k o
    unfold fieldLoop fieldItems
    split
    · simp [itemsText_nil]
    · rw [ih, itemsText_cons]
      simp

theorem optText_eq (name : CStr) (v : Option CStr) :
    optText (32 :: name) v = itemsText (optItems name v) := by
  cases v <;> simp [optText, optItems, itemsText]

theorem tokenText_eq (delim : CStr) (sel : Selector) (size pos_size i : Nat)
    (htoken ftoken : Token) :
    tokenText delim sel size pos_size i htoken ftoken =
      itemsText (tokenItems delim sel size pos_size i htoken ftoken) := by
  have e1 : ascii " F_H" = 32 :: ascii "F_H" := rfl
  have e2 : ascii " F_F" = 32 :: ascii "F_F" := rfl
  have e3 : ascii " F_H5:" = 32 :: ascii "F_H5:" := rfl
  have e4 : ascii " F_H6:" = 32 :: ascii "F_H6:" := rfl
  have e5 : ascii " F_F5:" = 32 :: ascii "F_F5:" := rfl
  have e6 : ascii " F_F6:" = 32 :: ascii "F_F6:" := rfl
  have e7 : ascii " F_H0:" = 32 :: ascii "F_H0:" := rfl
  have e8 : ascii " F_F0:" = 32 :: ascii "F_F0:" := rfl
  have e9 : ascii " A:" = 32 :: ascii "A:" := rfl
  have e10 : ascii " B:" = 32 :: ascii "B:" := rfl
  have e11 : ascii " G_CASE:" = 32 :: ascii "G_CASE:" := rfl
  have e12 : ascii " F_BOS:1" = 32 :: ascii "F_BOS:1" := rfl
  have e13 : ascii " F_EOS:1" = 32 :: ascii "F_EOS:1" := rfl
  unfold tokenText tokenItems
  simp only [e1, e2, e3, e4, e5, e6, e7, e8, e9, e10, e11, e12, e13, fieldLoop_eq, optText_eq,
    itemsText_append]
  split_ifs <;> (try split) <;>
    simp only [itemsText_cons, itemsText_nil, List.append_assoc, List.cons_append,
      List.nil_append, List.append_nil]

/-- The flag scan writes the flag tokens of the tokens it visits, in token order. -/
theorem flagLoop_some (sel : Selector) (tree : Tree) :
    ∀ (n j : Nat) (o r : CStr), flagLoop sel tree n j o = some r →
      ((tree.tokens.drop j).take n).length = n ∧
      r = o ++ itemsText (((tree.tokens.drop j).take n).flatMap (flagItems sel)) := by
  intro n
  induction n with
  | zero =>
    intro j o r h
    simp only [flagLoop, Option.some.injEq] at h
    subst h
    simp [itemsText_nil]
  | succ n ih =>
    intro j o r h
    unfold flagLoop at h
    split at h
    · exact absurd h (by simp)
    · rename_i token htok
      obtain ⟨h1, h2⟩ := ih _ _ _ h
      have hj : j < tree.tokens.length := by
        by_contra hcon
        rw [List.getElem?_eq_none (by omega)] at htok
        exact absurd htok (by simp)
      have hdrop : tree.tokens.drop j = token :: tree.tokens.drop (j + 1) := by
        rw [List.drop_eq_getElem_cons hj]
        rw [List.getElem?_eq_getElem hj] at htok
        simp only [Option.some.injEq] at htok
        rw [htok]
      rw [hdrop, List.take_succ_cons]
      refine ⟨by simp [h1], ?_⟩
      rw [h2, List.flatMap_cons, itemsText_append, flagText_eq, List.append_assoc]

theorem flagLoop_defined (sel : Selector) (tree : Tree) :
    ∀ (n j : Nat) (o : CStr), j + n ≤ tree.tokens.length →
      ∃ r, flagLoop sel tree n j o = some r := by
  intro n
  induction n with
  | zero => intro j o _; exact ⟨o, rfl⟩
  | succ n ih =>
    intro j o h
    have hj : j < tree.tokens.length := by omega
    obtain ⟨r, hr⟩ := ih (j + 1) (o ++ flagText sel tree.tokens[j]) (by omega)
    exact ⟨r, by rw [flagLoop, List.getElem?_eq_getElem hj]; exact hr⟩

/-- The feature list written for a chunk is the list of the first `kFeatureSize` pieces
of the text of its feature tokens. -/
theorem chunkOut_feature_list (delim : CStr) (sel : Selector) (tree : Tree) (c c1 : Chunk)
    (size pos_size i : Nat) (h : sel.chunkOut delim tree size pos_size i c = some c1) :
    ∃ text hid fid htoken ftoken,
      sel.featureText delim tree size pos_size i c = some (text, hid, fid) ∧
      sel.findHead tree c = some (hid, fid) ∧
      tree.tokens[hid]? = some htoken ∧ tree.tokens[fid]? = some ftoken ∧
      (chunkTokens tree c).length = chunkSpan c ∧
      text = itemsText ((chunkTokens tree c).flatMap (flagItems sel) ++
        tokenItems delim sel size pos_size i htoken ftoken) ∧
      text.length + 1 ≤ FEATURE_BUF ∧
      c1.feature_list = (pieces [32] (text.drop 1)).take kFeatureSize ∧
      pieces [32] (text.drop 1) = pieces [32] text := by
  obtain ⟨flags, hid, fid, htoken, ftoken, h1, h2, h3, h4, h5, h6, _, _, _, _, h11, _⟩ :=
    chunkOut_some delim sel tree c c1 size pos_size i h
  obtain ⟨f1, f2⟩ := flagLoop_some sel tree _ _ _ _ h1
  have htext : flags ++ tokenText delim sel size pos_size i htoken ftoken =
      itemsText ((chunkTokens tree c).flatMap (flagItems sel) ++
        tokenItems delim sel size pos_size i htoken ftoken) := by
    rw [itemsText_append, tokenText_eq, f2]
    rfl
  refine ⟨_, hid, fid, htoken, ftoken, h5, h2, h3, h4, f1, htext, h6, ?_, ?_⟩
  · rw [h11]; rfl
  · rw [htext]; exact pieces_drop_one _

theorem match_eq_of_some (P : PatternMatcher) (s p : CStr) (h : P.match_ s = some p) :
    p = s := by
  obtain ⟨_, _, _, hp, _⟩ := (matchLoop_some_iff s P.patterns_ p).1 h
  exact hp

theorem match_of_mem (P : PatternMatcher) (x : CStr) (h : x ∈ P.patterns_) :
    P.match_ x = some x := by
  cases hm : P.match_ x with
  | none => exact absurd rfl ((matchLoop_none_iff x P.patterns_).1 hm x h)
  | some p => rw [match_eq_of_some P x p hm]

/-- A feature token `name ++ value` is not empty and holds no space when its name is
not empty and neither name nor value holds a space. -/
theorem item_good (name value : CStr) (hn : name ≠ []) (h1 : 32 ∉ name) (h2 : 32 ∉ value) :
    name ++ value ≠ [] ∧ 32 ∉ name ++ value := by
  constructor
  · intro h
    exact hn (List.append_eq_nil.1 h).1
  · intro h
    rcases List.mem_append.1 h with h | h
    · exact h1 h
    · exact h2 h

theorem flagItems_good (sel : Selector) (tok : Token) (h : 32 ∉ tok.normalized_surface) :
    ∀ it ∈ flagItems sel tok, it ≠ [] ∧ 32 ∉ it := by
  intro it hit
  unfold flagItems at hit
  simp only [List.mem_append] at hit
  rcases hit with hit | hit | hit
  · split at hit
    · rename_i p hp
      have hps := match_eq_of_some _ _ _ hp
      subst hps
      simp only [List.mem_cons, List.mem_singleton, List.not_mem_nil, or_false] at hit
      rcases hit with rfl | rfl
      · exact item_good _ _ (by decide) (by decide) h
      · exact item_good _ _ (by decide) (by decide) h
    · simp at hit
  · split at hit
    · rename_i p hp
      have hps := match_eq_of_some _ _ _ hp
      subst hps
      simp only [List.mem_cons, List.mem_singleton, List.not_mem_nil, or_false] at hit
      rcases hit with rfl | rfl
      · exact item_good _ _ (by decide) (by decide) h
      · exact item_good _ _ (by decide) (by decide) h
    · simp at hit
  · split at hit
    · rename_i p hp
      have hps := match_eq_of_some _ _ _ hp
      subst hps
      simp only [List.mem_cons, List.mem_singleton, List.not_mem_nil, or_false] at hit
      rcases hit with rfl | rfl
      · exact item_good _ _ (by decide) (by decide) h
      · exact item_good _ _ (by decide) (by decide) h
    · simp at hit

theorem flagItems_mem (sel : Selector) (tok : Token) :
    (tok.normalized_surface ∈ sel.pat_kutouten_.patterns_ →
      ascii "G_PUNC:" ++ tok.normalized_surface ∈ flagItems sel tok ∧
      ascii "F_PUNC:" ++ tok.normalized_surface ∈ flagItems sel tok) ∧
    (tok.normalized_surface ∈ sel.pat_open_bracket_.patterns_ →
      ascii "G_OB:" ++ tok.normalized_surface ∈ flagItems sel tok ∧
      ascii "F_OB:" ++ tok.normalized_surface ∈ flagItems sel tok) ∧
    (tok.normalized_surface ∈ sel.pat_close_bracket_.patterns_ →
      ascii "G_CB:" ++ tok.normalized_surface ∈ flagItems sel tok ∧
      ascii "F_CB:" ++ tok.normalized_surface ∈ flagItems sel tok) := by
  refine ⟨fun h => ?_, fun h => ?_, fun h => ?_⟩
  · simp [flagItems, match_of_mem _ _ h]
  · simp [flagItems, match_of_mem _ _ h]
  · simp [flagItems, match_of_mem _ _ h]

theorem tokenItems_head (delim : CStr) (sel : Selector) (size pos_size i : Nat)
    (htoken ftoken : Token) :
    ∃ rest, tokenItems delim sel size pos_size i htoken ftoken =
      (ascii "F_H0:" ++ htoken.normalized_surface) :: rest := by
  unfold tokenItems
  simp only [List.singleton_append, List.cons_append]
  exact ⟨_, rfl⟩

theorem chunkTokens_subset (tree : Tree) (chunk : Chunk) (tok : Token)
    (h : tok ∈ chunkTokens tree chunk) : tok ∈ tree.tokens :=
  List.mem_of_mem_drop (List.mem_of_mem_take h)

/-- The stored feature list of a chunk whose text fits and holds at most
`kFeatureSize` feature tokens, the normalized surfaces being without a space: the flag
tokens of the chunk's tokens in token order, then `F_H0`, then the rest. -/
theorem chunkOut_flags (delim : CStr) (sel : Selector) (tree : Tree) (c c1 : Chunk)
    (size pos_size i : Nat) (text : CStr) (hid fid : Nat)
    (h : sel.chunkOut delim tree size pos_size i c = some c1)
    (htext : sel.featureText delim tree size pos_size i c = some (text, hid, fid))
    (hcount : (pieces [32] (text.drop 1)).length ≤ kFeatureSize)
    (hsp : ∀ tok ∈ tree.tokens, 32 ∉ tok.normalized_surface) :
    ∃ htoken rest, tree.tokens[hid]? = some htoken ∧
      c1.feature_list = (chunkTokens tree c).flatMap (flagItems sel) ++
        (ascii "F_H0:" ++ htoken.normalized_surface) :: rest := by
  obtain ⟨text1, hid1, fid1, htoken, ftoken, h1, _, h3, _, _, h6, _, h8, h9⟩ :=
    chunkOut_feature_list delim sel tree c c1 size pos_size i h
  rw [htext] at h1
  simp only [Option.some.injEq, Prod.mk.injEq] at h1
  obtain ⟨rfl, rfl, rfl⟩ := h1
  obtain ⟨rest, hrest⟩ := tokenItems_head delim sel size pos_size i htoken ftoken
  have hgood : ∀ it ∈ (chunkTokens tree c).flatMap (flagItems sel) ++
      [ascii "F_H0:" ++ htoken.normalized_surface], it ≠ [] ∧ 32 ∉ it := by
    intro it hit
    rcases List.mem_append.1 hit with hit | hit
    · obtain ⟨tok, htok, hit2⟩ := List.mem_flatMap.1 hit
      exact flagItems_good sel tok (hsp tok (chunkTokens_subset tree c tok htok)) it hit2
    · rw [List.mem_singleton] at hit
      subst hit
      exact item_good _ _ (by decide) (by decide) (hsp htoken (List.mem_iff_getElem?.2 ⟨_, h3⟩))
  have hp : pieces [32] text = (chunkTokens tree c).flatMap (flagItems sel) ++
      [ascii "F_H0:" ++ htoken.normalized_surface] ++ pieces [32] (itemsText rest) := by
    rw [h6, hrest, ← pieces_itemsText_append _ rest hgood]
    simp
  refine ⟨htoken, pieces [32] (itemsText rest), h3, ?_⟩
  rw [h8, List.take_of_length_le hcount, h9, hp]
  simp

/-- A chunk is written back when its token range and its first token lie within the
sentence and its feature text, with the terminating NUL, fits the stream buffer. -/
theorem chunkOut_defined (delim : CStr) (sel : Selector) (tree : Tree) (c : Chunk)
    (size pos_size i : Nat)
    (h1 : c.token_pos + chunkSpan c ≤ tree.tokens.length)
    (h2 : c.token_pos < tree.tokens.length)
    (hfit : ∀ hid fid htoken ftoken, sel.findHead tree c = some (hid, fid) →
      tree.tokens[hid]? = some htoken → tree.tokens[fid]? = some ftoken →
      (itemsText ((chunkTokens tree c).flatMap (flagItems sel) ++
        tokenItems delim sel size pos_size i htoken ftoken)).length + 1 ≤ FEATURE_BUF) :
    ∃ c1, sel.chunkOut delim tree size pos_size i c = some c1 := by
  obtain ⟨flags, hflags⟩ := flagLoop_defined sel tree (chunkSpan c) c.token_pos [] h1
  obtain ⟨hid, fid, hfh⟩ := findHead_defined sel tree c h1
  obtain ⟨r1, r2⟩ := findHead_range sel tree c hid fid hfh
  have hh : hid < tree.tokens.length := by omega
  have hf : fid < tree.tokens.length := by omega
  have hfit1 := hfit hid fid _ _ hfh (List.getElem?_eq_getElem hh) (List.getElem?_eq_getElem hf)
  obtain ⟨_, f2⟩ := flagLoop_some sel tree _ _ _ _ hflags
  have htext : flags ++ tokenText delim sel size pos_size i tree.tokens[hid] tree.tokens[fid] =
      itemsText ((chunkTokens tree c).flatMap (flagItems sel) ++
        tokenItems delim sel size pos_size i tree.tokens[hid] tree.tokens[fid]) := by
    rw [itemsText_append, tokenText_eq, f2]
    rfl
  unfold Selector.chunkOut Selector.featureText
  rw [hflags, hfh]
  simp only [List.getElem?_eq_getElem hh, List.getElem?_eq_getElem hf]
  unfold writeChunk
  rw [htext, if_neg (not_not.2 hfit1)]
  exact ⟨_, rfl⟩

/-- The feature tokens of a token with subfields `(*,*,*,*)` that is head and function
token of the only chunk of a Scheme A sentence, when its raw feature matches neither
the class-A nor the case pattern. -/
theorem tokenItems_single (delim : CStr) (sel : Selector) (tok : Token)
    (hfl : tok.feature_list = [STAR, STAR, STAR, STAR])
    (hdyn : sel.pat_dyn_a_.prefix_match tok.feature = none)
    (hcase : sel.pat_case_.prefix_match tok.feature = none) :
    tokenItems delim sel 1 4 0 tok tok =
      [ascii "F_H0:" ++ tok.normalized_surface, ascii "F_F0:" ++ tok.normalized_surface,
        ascii "A:", ascii "B:", ascii "F_BOS:1", ascii "F_EOS:1"] := by
  unfold tokenItems
  simp [hfl, hdyn, hcase, get_token, fieldItems, optItems, concat_feature, List.intercalate]

/-- The tokens a chunk of one token visits carry no flag when its token matches no
flag pattern. -/
theorem flags_single (sel : Selector) (tree : Tree) (c : Chunk) (tok : Token)
    (hone : c.token_size = 1) (htok : tree.tokens[c.token_pos]? = some tok)
    (h1 : sel.pat_kutouten_.match_ tok.normalized_surface = none)
    (h2 : sel.pat_open_bracket_.match_ tok.normalized_surface = none)
    (h3 : sel.pat_close_bracket_.match_ tok.normalized_surface = none) :
    (chunkTokens tree c).flatMap (flagItems sel) = [] := by
  have hspan := chunkSpan_le c
  have hj : c.token_pos < tree.tokens.length := by
    by_contra hcon
    rw [List.getElem?_eq_none (by omega)] at htok
    exact absurd htok (by simp)
  have hdrop : tree.tokens.drop c.token_pos = tok :: tree.tokens.drop (c.token_pos + 1) := by
    rw [List.drop_eq_getElem_cons hj]
    rw [List.getElem?_eq_getElem hj] at htok
    simp only [Option.some.injEq] at htok
    rw [htok]
  have hflag : flagItems sel tok = [] := by simp [flagItems, h1, h2, h3]
  unfold chunkTokens
  rw [hdrop]
  have hcases : chunkSpan c = 0 ∨ chunkSpan c = 1 := by omega
  rcases hcases with h | h <;> rw [h] <;> simp [hflag]

theorem single_features_shape (s : CStr) :
    (∀ f ∈ [ascii "F_H0:" ++ s, ascii "F_F0:" ++ s, ascii "A:", ascii "B:", ascii "F_BOS:1",
        ascii "F_EOS:1"],
      ∀ k, 1 ≤ k → k ≤ 6 → ¬ (ascii "F_H" ++ decimal k ++ [58]) <+: f) ∧
    ([ascii "F_H0:" ++ s, ascii "F_F0:" ++ s, ascii "A:", ascii "B:", ascii "F_BOS:1",
        ascii "F_EOS:1"].countP (fun f => (ascii "A:").isPrefixOf f) = 1) ∧
    ([ascii "F_H0:" ++ s, ascii "F_F0:" ++ s, ascii "A:", ascii "B:", ascii "F_BOS:1",
        ascii "F_EOS:1"].countP (fun f => (ascii "B:").isPrefixOf f) = 1) := by
  have e1 : ascii "F_H0:" = [70, 95, 72, 48, 58] := by decide
  have e2 : ascii "F_F0:" = [70, 95, 70, 48, 58] := by decide
  have e3 : ascii "A:" = [65, 58] := by decide
  have e4 : ascii "B:" = [66, 58] := by decide
  have e5 : ascii "F_BOS:1" = [70, 95, 66, 79, 83, 58, 49] := by decide
  have e6 : ascii "F_EOS:1" = [70, 95, 69, 79, 83, 58, 49] := by decide
  have e7 : ascii "F_H" = [70, 95, 72] := by decide
  rw [e1, e2, e3, e4, e5, e6, e7]
  refine ⟨?_, ?_, ?_⟩
  · intro f hf k hk1 hk2
    have hd : decimal k = [48 + k] := by
      interval_cases k <;> decide
    rw [hd]
    simp only [List.mem_cons, List.mem_singleton, List.not_mem_nil, or_false] at hf
    rcases hf with rfl | rfl | rfl | rfl | rfl | rfl <;> simp [List.cons_prefix_cons]
    omega
  · simp [List.countP_cons, List.isPrefixOf]
  · simp [List.countP_cons, List.isPrefixOf]

/-! ## Lemmas on the reference rules and on the emitted feature tokens -/

theorem findHeadStep_eq (sel : Selector) (tree : Tree) (st : Nat × Nat) (j : Nat) :
    findHeadStep sel tree st j =
      match tree.tokens[j]? with
      | none => none
      | some t => some (if headTest sel tree.posset t then j else st.1,
          if funcTest sel tree.posset t then j else st.2) := by
  unfold findHeadStep
  cases tree.tokens[j]? with
  | none => rfl
  | some t =>
    dsimp only
    cases hp : tree.posset
    · by_cases h1 : (sel.pat_ipa_func_.prefix_match t.feature).isSome = true
      · simp [funcTest, headTest, h1]
      · by_cases h2 : (sel.pat_ipa_head_.prefix_match t.feature).isSome = true
        · simp [funcTest, headTest, h1, h2]
        · simp [funcTest, headTest, h1, h2]
    · simp [funcTest, headTest]
    · simp [funcTest, headTest]

theorem getLast?_getD_cons (j d : Nat) (l : List Nat) :
    ((j :: l).getLast?).getD d = (l.getLast?).getD j := by
  cases l with
  | nil => rfl
  | cons a l =>
    rw [List.getLast?_cons_cons]
    cases h : (a :: l).getLast? with
    | none => simp at h
    | some r => rfl

/-- The loop of `findHead` leaves, in each of `hid` and `fid`, the last index it
visited whose token passes the test of that role, or what was there before. -/
theorem findHeadLoop_last (sel : Selector) (tree : Tree) :
    ∀ (n j : Nat) (st st1 : Nat × Nat), findHeadLoop sel tree n j st = some st1 →
      st1.1 = (((List.range' j n).filter
        (tokenPasses tree.tokens (headTest sel tree.posset))).getLast?).getD st.1 ∧
      st1.2 = (((List.range' j n).filter
        (tokenPasses tree.tokens (funcTest sel tree.posset))).getLast?).getD st.2 := by
  intro n
  induction n with
  | zero =>
    intro j st st1 h
    simp only [findHeadLoop, Option.some.injEq] at h
    subst h
    simp
  | succ n ih =>
    intro j st st1 h
    rw [findHeadLoop, findHeadStep_eq] at h
    cases ht : tree.tokens[j]? with
    | none => rw [ht] at h; exact absurd h (by simp)
    | some t =>
      rw [ht] at h
      obtain ⟨h1, h2⟩ := ih _ _ _ h
      simp only [List.range'_succ, List.filter_cons, tokenPasses, ht]
      constructor
      · rw [h1]
        by_cases hq : headTest sel tree.posset t = true
        · simp only [hq, if_true, getLast?_getD_cons]
        · simp only [hq]; rfl
      · rw [h2]
        by_cases hq : funcTest sel tree.posset t = true
        · simp only [hq, if_true, getLast?_getD_cons]
        · simp only [hq]; rfl

/-- `lastIndexOr` is `lo`, or an index of the range whose token passes the test. -/
theorem lastIndexOr_cases (tokens : List Token) (lo n : Nat) (test : Token → Bool) :
    lastIndexOr tokens lo n test = lo ∨
    (lo ≤ lastIndexOr tokens lo n test ∧ lastIndexOr tokens lo n test < lo + n ∧
      ∃ t, tokens[lastIndexOr tokens lo n test]? = some t ∧ test t = true) := by
  unfold lastIndexOr
  cases h : ((List.range' lo n).filter (tokenPasses tokens test)).getLast? with
  | none => exact Or.inl rfl
  | some r =>
    right
    have hm := List.mem_of_getLast?_eq_some h
    rw [List.mem_filter, List.mem_range'_1] at hm
    obtain ⟨⟨h1, h2⟩, h3⟩ := hm
    simp only [Option.getD_some]
    refine ⟨h1, h2, ?_⟩
    unfold tokenPasses at h3
    split at h3
    · rename_i t ht; exact ⟨t, ht, h3⟩
    · exact absurd h3 (by simp)

/-- `findHead` in terms of the two tests and the clamp. -/
theorem findHead_eq_last (sel : Selector) (tree : Tree) (chunk : Chunk) (hid fid : Nat)
    (h : sel.findHead tree chunk = some (hid, fid)) :
    hid = lastIndexOr tree.tokens chunk.token_pos (chunkSpan chunk)
      (headTest sel tree.posset) ∧
    fid = (if tree.posset = PossetType.IPA ∧
        lastIndexOr tree.tokens chunk.token_pos (chunkSpan chunk) (headTest sel tree.posset) >
        lastIndexOr tree.tokens chunk.token_pos (chunkSpan chunk) (funcTest sel tree.posset)
      then lastIndexOr tree.tokens chunk.token_pos (chunkSpan chunk) (headTest sel tree.posset)
      else lastIndexOr tree.tokens chunk.token_pos (chunkSpan chunk)
        (funcTest sel tree.posset)) := by
  unfold Selector.findHead at h
  split at h
  · exact absurd h (by simp)
  · rename_i h1 f1 hloop
    obtain ⟨e1, e2⟩ := findHeadLoop_last sel tree _ _ _ _ hloop
    simp only at e1 e2
    unfold lastIndexOr
    rw [← e1, ← e2]
    split at h
    · rename_i hc
      simp only [Option.some.injEq, Prod.mk.injEq] at h
      rw [if_pos hc]
      exact ⟨h.1.symm, h.2.symm⟩
    · rename_i hc
      simp only [Option.some.injEq, Prod.mk.injEq] at h
      rw [if_neg hc]
      exact ⟨h.1.symm, h.2.symm⟩

/-- A chunk is written back when its feature text is defined and fits, with the
terminating NUL, the stream buffer. -/
theorem chunkOut_of_fits (delim : CStr) (sel : Selector) (tree : Tree) (c : Chunk)
    (size pos_size i : Nat) (text : CStr) (hid fid : Nat)
    (ht : sel.featureText delim tree size pos_size i c = some (text, hid, fid))
    (hfit : text.length + 1 ≤ FEATURE_BUF) :
    ∃ c1, sel.chunkOut delim tree size pos_size i c = some c1 := by
  simp only [Selector.chunkOut, ht, writeChunk, if_neg (not_not.2 hfit)]
  exact ⟨_, rfl⟩

theorem digitChar_ne (k : Nat) (hk : k < 10) :
    (Nat.digitChar k).toNat ≠ 32 ∧ (Nat.digitChar k).toNat ≠ 58 := by
  interval_cases k <;> decide

theorem toDigitsCore_mem (fuel : Nat) :
    ∀ (n : Nat) (ds : List Char) (c : Char), c ∈ Nat.toDigitsCore 10 fuel n ds →
      c ∈ ds ∨ ∃ k, k < 10 ∧ c = Nat.digitChar k := by
  induction fuel with
  | zero => intro n ds c h; exact Or.inl h
  | succ fuel ih =>
    intro n ds c h
    unfold Nat.toDigitsCore at h
    dsimp only at h
    split at h
    · rcases List.mem_cons.1 h with h | h
      · exact Or.inr ⟨n % 10, Nat.mod_lt _ (by decide), h⟩
      · exact Or.inl h
    · rcases ih _ _ _ h with h | h
      · rcases List.mem_cons.1 h with h | h
        · exact Or.inr ⟨n % 10, Nat.mod_lt _ (by decide), h⟩
        · exact Or.inl h
      · exact Or.inr h

/-- The decimal digits of a number hold neither a space nor a colon. -/
theorem decimal_free (n : Nat) : 32 ∉ decimal n ∧ 58 ∉ decimal n := by
  have key : ∀ b ∈ decimal n, b ≠ 32 ∧ b ≠ 58 := by
    intro b hb
    unfold decimal Nat.toDigits at hb
    obtain ⟨c, hc, rfl⟩ := List.mem_map.1 hb
    rcases toDigitsCore_mem _ _ _ _ hc with h | ⟨k, hk, rfl⟩
    · exact absurd h (by simp)
    · exact digitChar_ne k hk
  exact ⟨fun h => (key 32 h).1 rfl, fun h => (key 58 h).2 rfl⟩

theorem get_token_mem (tok : Token) (id : Nat) (v : CStr) (h : get_token tok id = some v) :
    v ∈ tok.feature_list ∧ v ≠ STAR ∧ tok.feature_list[id]? = some v := by
  unfold get_token at h
  split at h
  · exact absurd h (by simp)
  · split at h
    · exact absurd h (by simp)
    · rename_i f hf
      split at h
      · exact absurd h (by simp)
      · rename_i hne
        simp only [Option.some.injEq] at h
        subst h
        exact ⟨List.mem_iff_getElem?.2 ⟨_, hf⟩, hne, hf⟩

theorem get_token_eq (tok : Token) (id : Nat) :
    get_token tok id =
      match tok.feature_list[id]? with
      | none => none
      | some f => if f = STAR then none else some f := by
  unfold get_token
  split
  · rename_i h
    rw [List.getElem?_eq_none h]
  · rfl

theorem concat_feature_free (delim : CStr) (tok : Token) (size : Nat) (hd : 32 ∉ delim)
    (hf : ∀ f ∈ tok.feature_list, 32 ∉ f) : 32 ∉ concat_feature delim tok size := by
  intro h
  unfold concat_feature at h
  rcases mem_intercalate _ _ _ h with h | ⟨l, hl, hb⟩
  · exact hd h
  · exact hf l (List.mem_of_mem_take (List.takeWhile_subset _ hl)) hb

theorem fieldItems_good (name : CStr) (hns : 32 ∉ name) :
    ∀ (fl : List CStr) (k : Nat), (∀ f ∈ fl, 32 ∉ f) →
      ∀ it ∈ fieldItems name fl k, it ≠ [] ∧ 32 ∉ it := by
  intro fl
  induction fl with
  | nil => intro k _ it hit; simp [fieldItems] at hit
  | cons f fs ih =>
    intro k hfl it hit
    unfold fieldItems at hit
    split at hit
    · simp at hit
    · rcases List.mem_cons.1 hit with rfl | hit
      · constructor
        · intro h
          simp at h
        · intro h
          simp only [List.mem_append, List.mem_singleton] at h
          rcases h with ((h | h) | h) | h
          · exact hns h
          · exact (decimal_free (k + 1)).1 h
          · exact absurd h (by decide)
          · exact hfl f (by simp) h
      · exact ih (k + 1) (fun x hx => hfl x (List.mem_cons_of_mem _ hx)) it hit

theorem optItems_good (name : CStr) (hn : name ≠ []) (hns : 32 ∉ name) (tok : Token)
    (id : Nat) (hf : ∀ f ∈ tok.feature_list, 32 ∉ f) :
    ∀ it ∈ optItems name (get_token tok id), it ≠ [] ∧ 32 ∉ it := by
  intro it hit
  cases hg : get_token tok id with
  | none => rw [hg] at hit; simp [optItems] at hit
  | some v =>
    rw [hg] at hit
    simp only [optItems, List.mem_singleton] at hit
    subst hit
    exact item_good _ _ hn hns (hf v (get_token_mem tok id v hg).1)

/-- The feature tokens of the head and function token hold no space when the token
strings and the delimiter hold none. -/
theorem tokenItems_good (delim : CStr) (sel : Selector) (size pos_size i : Nat)
    (htoken ftoken : Token) (hd : 32 ∉ delim)
    (hh : 32 ∉ htoken.normalized_surface ∧ ∀ f ∈ htoken.feature_list, 32 ∉ f)
    (hf : 32 ∉ ftoken.normalized_surface ∧ ∀ f ∈ ftoken.feature_list, 32 ∉ f) :
    ∀ it ∈ tokenItems delim sel size pos_size i htoken ftoken, it ≠ [] ∧ 32 ∉ it := by
  intro it hit
  unfold tokenItems at hit
  simp only [List.mem_append, List.mem_singleton] at hit
  rcases hit with (((((((((((hit | hit) | hit) | hit) | hit) | hit) | hit) | hit) | hit) | hit)
    | hit) | hit) | hit
  · subst hit; exact item_good _ _ (by decide) (by decide) hh.1
  · exact fieldItems_good _ (by decide) _ _
      (fun x hx => hh.2 x (List.mem_of_mem_take hx)) it hit
  · exact optItems_good _ (by decide) (by decide) _ _ hh.2 it hit
  · exact optItems_good _ (by decide) (by decide) _ _ hh.2 it hit
  · subst hit; exact item_good _ _ (by decide) (by decide) hf.1
  · exact fieldItems_good _ (by decide) _ _
      (fun x hx => hf.2 x (List.mem_of_mem_take hx)) it hit
  · exact optItems_good _ (by decide) (by decide) _ _ hf.2 it hit
  · exact optItems_good _ (by decide) (by decide) _ _ hf.2 it hit
  · subst hit
    apply item_good _ _ (by decide) (by decide)
    split
    · exact hf.1
    · split
      · rename_i p hp
        exact hf.2 p (get_token_mem _ _ _ hp).1
      · exact concat_feature_free delim ftoken pos_size hd hf.2
  · subst hit
    exact item_good _ _ (by decide) (by decide) (concat_feature_free delim htoken pos_size hd hh.2)
  · split at hit
    · rw [List.mem_singleton] at hit
      subst hit; exact item_good _ _ (by decide) (by decide) hf.1
    · simp at hit
  · split at hit
    · rw [List.mem_singleton] at hit
      subst hit; decide
    · simp at hit
  · split at hit
    · rw [List.mem_singleton] at hit
      subst hit; decide
    · simp at hit

/-- Inversion of `featureText`: the text is the text of the chunk's feature tokens. -/
theorem featureText_items (delim : CStr) (sel : Selector) (tree : Tree) (c : Chunk)
    (size pos_size i : Nat) (text : CStr) (hid fid : Nat)
    (h : sel.featureText delim tree size pos_size i c = some (text, hid, fid)) :
    ∃ htoken ftoken, sel.findHead tree c = some (hid, fid) ∧
      tree.tokens[hid]? = some htoken ∧ tree.tokens[fid]? = some ftoken ∧
      text = itemsText (chunkItems delim sel tree size pos_size i c htoken ftoken) := by
  unfold Selector.featureText at h
  split at h
  · exact absurd h (by simp)
  · rename_i flags hflags
    split at h
    · exact absurd h (by simp)
    · rename_i hid1 fid1 hfh
      split at h
      · rename_i htoken ftoken hh hf
        simp only [Option.some.injEq, Prod.mk.injEq] at h
        obtain ⟨rfl, rfl, rfl⟩ := h
        obtain ⟨_, f2⟩ := flagLoop_some sel tree _ _ _ _ hflags
        refine ⟨htoken, ftoken, hfh, hh, hf, ?_⟩
        unfold chunkItems
        rw [itemsText_append, tokenText_eq, f2]
        rfl
      · exact absurd h (by simp)

/-- The feature tokens of a chunk hold no space when the token strings and the
delimiter hold none. -/
theorem chunkItems_good (delim : CStr) (sel : Selector) (tree : Tree) (c : Chunk)
    (size pos_size i hid fid : Nat) (htoken ftoken : Token) (hsf : SpaceFree delim tree)
    (hh : tree.tokens[hid]? = some htoken) (hf : tree.tokens[fid]? = some ftoken) :
    ∀ it ∈ chunkItems delim sel tree size pos_size i c htoken ftoken, it ≠ [] ∧ 32 ∉ it := by
  intro it hit
  unfold chunkItems at hit
  rcases List.mem_append.1 hit with hit | hit
  · obtain ⟨tok, htok, hit2⟩ := List.mem_flatMap.1 hit
    exact flagItems_good sel tok (hsf.2 tok (chunkTokens_subset tree c tok htok)).1 it hit2
  · exact tokenItems_good delim sel size pos_size i htoken ftoken hsf.1
      (hsf.2 htoken (List.mem_iff_getElem?.2 ⟨_, hh⟩))
      (hsf.2 ftoken (List.mem_iff_getElem?.2 ⟨_, hf⟩)) it hit

/-- The chunk written back: its feature list is the list of the first `kFeatureSize`
pieces of the feature text, the stored count is the length of that list modulo 256,
and its offsets are those of `findHead`. -/
theorem chunkOut_of_text (delim : CStr) (sel : Selector) (tree : Tree) (c c1 : Chunk)
    (size pos_size i : Nat) (text : CStr) (hid fid : Nat)
    (ht : sel.featureText delim tree size pos_size i c = some (text, hid, fid))
    (h : sel.chunkOut delim tree size pos_size i c = some c1) :
    text.length + 1 ≤ FEATURE_BUF ∧
    c1.feature_list = (pieces [32] (text.drop 1)).take kFeatureSize ∧
    c1.feature_list_size = c1.feature_list.length % 256 ∧
    c1.token_pos = c.token_pos ∧ c1.token_size = c.token_size := by
  simp only [Selector.chunkOut, ht, writeChunk] at h
  split at h
  · exact absurd h (by simp)
  · rename_i hfit
    simp only [Option.some.injEq] at h
    subst h
    exact ⟨not_not.1 hfit, rfl, rfl, rfl, rfl⟩

/-- The stored feature list of a chunk whose token strings hold no space: the first
`kFeatureSize` feature tokens written for the chunk. -/
theorem chunkOut_items (delim : CStr) (sel : Selector) (tree : Tree) (c c1 : Chunk)
    (size pos_size i : Nat) (hsf : SpaceFree delim tree)
    (h : sel.chunkOut delim tree size pos_size i c = some c1) :
    ∃ text hid fid htoken ftoken,
      sel.featureText delim tree size pos_size i c = some (text, hid, fid) ∧
      sel.findHead tree c = some (hid, fid) ∧
      tree.tokens[hid]? = some htoken ∧ tree.tokens[fid]? = some ftoken ∧
      text = itemsText (chunkItems delim sel tree size pos_size i c htoken ftoken) ∧
      pieces [32] (text.drop 1) = chunkItems delim sel tree size pos_size i c htoken ftoken ∧
      c1.feature_list =
        (chunkItems delim sel tree size pos_size i c htoken ftoken).take kFeatureSize ∧
      c1.feature_list_size = c1.feature_list.length % 256 := by
  cases ht : sel.featureText delim tree size pos_size i c with
  | none => simp [Selector.chunkOut, ht] at h
  | some r =>
    obtain ⟨text, hid, fid⟩ := r
    obtain ⟨htoken, ftoken, h1, h2, h3, h4⟩ :=
      featureText_items delim sel tree c size pos_size i text hid fid ht
    obtain ⟨_, g2, g3, _, _⟩ := chunkOut_of_text delim sel tree c c1 size pos_size i text hid fid ht h
    have hp : pieces [32] (text.drop 1) =
        chunkItems delim sel tree size pos_size i c htoken ftoken := by
      rw [h4, pieces_drop_one, pieces_itemsText _
        (chunkItems_good delim sel tree c size pos_size i hid fid htoken ftoken hsf h2 h3)]
    exact ⟨text, hid, fid, htoken, ftoken, rfl, h1, h2, h3, h4, hp, by rw [g2, hp], g3⟩

theorem fieldItems_enumFrom (name : CStr) :
    ∀ (fl : List CStr) (k : Nat),
      fieldItems name fl k = ((fl.takeWhile (fun f => f != STAR)).enumFrom k).map
        (fun kf => name ++ decimal (kf.1 + 1) ++ [58] ++ kf.2) := by
  intro fl
  induction fl with
  | nil => intro k; rfl
  | cons f fs ih =>
    intro k
    unfold fieldItems
    by_cases hf : f = STAR
    · simp [hf]
    · have hp : (f != STAR) = true := by simpa using hf
      rw [if_neg hf, List.takeWhile_cons, hp, if_pos rfl, List.enumFrom_cons, List.map_cons, ih]

theorem fieldItems_takeWhile (name : CStr) (fl : List CStr) (k : Nat) :
    fieldItems name fl k = fieldItems name (fl.takeWhile (fun f => f != STAR)) k := by
  rw [fieldItems_enumFrom, fieldItems_enumFrom name (fl.takeWhile _), List.takeWhile_idem]

theorem fieldItems_ref (name : CStr) (bfc : Nat) (fl : List CStr) :
    fieldItems name (fl.take (min bfc fl.length)) 0 = basicFieldsRef name bfc fl := by
  rw [fieldItems_enumFrom]
  rfl

theorem optItems_ref (name : CStr) (tok : Token) (idx : Nat) :
    optItems name (get_token tok idx) = conjFieldRef name tok.feature_list idx := by
  rw [get_token_eq]
  unfold conjFieldRef
  cases tok.feature_list[idx]? with
  | none => rfl
  | some f =>
    dsimp only
    split <;> rfl

theorem classAValue_ref (delim : CStr) (sel : Selector) (bfc : Nat) (ftoken : Token) :
    classAValue delim sel bfc ftoken = classAValueRef delim sel bfc ftoken := by
  unfold classAValue classAValueRef
  rw [get_token_eq]
  split
  · rfl
  · cases ftoken.feature_list[bfc + 1]? with
    | none => rfl
    | some f =>
      dsimp only
      by_cases hf : f = STAR
      · simp only [hf, if_true]
        rfl
      · simp only [hf, if_false]

/-- The feature tokens of the head and function token, part by part. -/
theorem tokenItems_ref (delim : CStr) (sel : Selector) (size pos_size i : Nat)
    (htoken ftoken : Token) :
    tokenItems delim sel size pos_size i htoken ftoken =
      headFieldsRef pos_size htoken ++ funcFieldsRef pos_size ftoken ++
        tailItems delim sel size pos_size i htoken ftoken := by
  unfold tokenItems headFieldsRef funcFieldsRef tailItems
  rw [fieldItems_ref, fieldItems_ref, optItems_ref, optItems_ref, optItems_ref, optItems_ref,
    ← classAValue_ref]
  simp only [List.append_assoc, classAValue]

theorem name_unique :
    ∀ (n1 n2 v1 v2 : CStr), 58 ∉ n1 → 58 ∉ n2 → n1 ++ 58 :: v1 = n2 ++ 58 :: v2 →
      n1 = n2 ∧ v1 = v2 := by
  intro n1
  induction n1 with
  | nil =>
    intro n2 v1 v2 _ h2 h
    cases n2 with
    | nil => simpa using h
    | cons b n2 =>
      simp only [List.nil_append, List.cons_append, List.cons.injEq] at h
      exact absurd (h.1 ▸ List.mem_cons_self b n2) h2
  | cons a n1 ih =>
    intro n2 v1 v2 h1 h2 h
    cases n2 with
    | nil =>
      simp only [List.nil_append, List.cons_append, List.cons.injEq] at h
      exact absurd (h.1 ▸ List.mem_cons_self a n1) h1
    | cons b n2 =>
      simp only [List.cons_append, List.cons.injEq] at h
      obtain ⟨e1, e2⟩ := ih n2 v1 v2 (fun hm => h1 (List.mem_cons_of_mem _ hm))
        (fun hm => h2 (List.mem_cons_of_mem _ hm)) h.2
      exact ⟨by rw [h.1, e1], e2⟩

theorem featureNames_no_colon : ∀ n ∈ featureNames, 58 ∉ n := by decide

theorem flagFieldNames_sub : ∀ n ∈ flagFieldNames, n ∈ featureNames := by decide

/-- A feature token named in `names` is not a token of another name. -/
theorem named_ne (names : List CStr) (it target value : CStr) (h : Named names it)
    (hn : ∀ n ∈ names, 58 ∉ n) (ht : 58 ∉ target) (hnot : target ∉ names) :
    it ≠ target ++ 58 :: value := by
  obtain ⟨name, hname, v, rfl⟩ := h
  intro heq
  obtain ⟨e, _⟩ := name_unique name target v value (hn name hname) ht heq
  exact hnot (e ▸ hname)

theorem named_mono (n1 n2 : List CStr) (it : CStr) (h : Named n1 it) (hs : ∀ n ∈ n1, n ∈ n2) :
    Named n2 it := by
  obtain ⟨name, hname, v, rfl⟩ := h
  exact ⟨name, hs name hname, v, rfl⟩

theorem flagItems_named (sel : Selector) (tok : Token) :
    ∀ it ∈ flagItems sel tok, Named flagFieldNames it := by
  intro it hit
  unfold flagItems at hit
  simp only [List.mem_append] at hit
  rcases hit with hit | hit | hit
  · split at hit
    · simp only [List.mem_cons, List.mem_singleton, List.not_mem_nil, or_false] at hit
      rcases hit with rfl | rfl
      · exact ⟨ascii "G_PUNC", by decide, _, rfl⟩
      · exact ⟨ascii "F_PUNC", by decide, _, rfl⟩
    · simp at hit
  · split at hit
    · simp only [List.mem_cons, List.mem_singleton, List.not_mem_nil, or_false] at hit
      rcases hit with rfl | rfl
      · exact ⟨ascii "G_OB", by decide, _, rfl⟩
      · exact ⟨ascii "F_OB", by decide, _, rfl⟩
    · simp at hit
  · split at hit
    · simp only [List.mem_cons, List.mem_singleton, List.not_mem_nil, or_false] at hit
      rcases hit with rfl | rfl
      · exact ⟨ascii "G_CB", by decide, _, rfl⟩
      · exact ⟨ascii "F_CB", by decide, _, rfl⟩
    · simp at hit

theorem fieldItems_named (name : CStr) (names : List CStr)
    (h : ∀ j, 1 ≤ j → j ≤ 4 → name ++ decimal j ∈ names) :
    ∀ (fl : List CStr) (k : Nat), k + fl.length ≤ 4 →
      ∀ it ∈ fieldItems name fl k, Named names it := by
  intro fl
  induction fl with
  | nil => intro k _ it hit; simp [fieldItems] at hit
  | cons f fs ih =>
    intro k hk it hit
    simp only [List.length_cons] at hk
    unfold fieldItems at hit
    split at hit
    · simp at hit
    · rcases List.mem_cons.1 hit with rfl | hit
      · exact ⟨name ++ decimal (k + 1), h (k + 1) (by omega) (by omega), f, by simp⟩
      · exact ih (k + 1) (by omega) it hit

theorem basicFieldsRef_named (name : CStr) (names : List CStr)
    (h : ∀ j, 1 ≤ j → j ≤ 4 → name ++ decimal j ∈ names) (bfc : Nat) (hb : bfc ≤ 4)
    (fl : List CStr) : ∀ it ∈ basicFieldsRef name bfc fl, Named names it := by
  rw [← fieldItems_ref]
  apply fieldItems_named name names h
  simp only [List.length_take]
  omega

theorem conjFieldRef_named (name key : CStr) (names : List CStr) (hk : key ∈ names)
    (hname : name = key ++ [58]) (fl : List CStr) (idx : Nat) :
    ∀ it ∈ conjFieldRef name fl idx, Named names it := by
  intro it hit
  unfold conjFieldRef at hit
  split at hit
  · split at hit
    · simp at hit
    · rw [List.mem_singleton] at hit
      subst hit
      subst hname
      rename_i p _ _
      exact ⟨key, hk, p, by simp⟩
  · simp at hit

theorem headFieldsRef_named (bfc : Nat) (hb : bfc ≤ 4) (tok : Token) :
    ∀ it ∈ headFieldsRef bfc tok, Named flagFieldNames it := by
  intro it hit
  unfold headFieldsRef at hit
  simp only [List.mem_append, List.mem_singleton] at hit
  rcases hit with ((hit | hit) | hit) | hit
  · subst hit
    exact ⟨ascii "F_H0", by decide, _, rfl⟩
  · refine basicFieldsRef_named _ _ ?_ bfc hb _ it hit
    intro j h1 h2
    interval_cases j <;> decide
  · exact conjFieldRef_named _ (ascii "F_H5") _ (by decide) rfl _ _ it hit
  · exact conjFieldRef_named _ (ascii "F_H6") _ (by decide) rfl _ _ it hit

theorem funcFieldsRef_named (bfc : Nat) (hb : bfc ≤ 4) (tok : Token) :
    ∀ it ∈ funcFieldsRef bfc tok, Named flagFieldNames it := by
  intro it hit
  unfold funcFieldsRef at hit
  simp only [List.mem_append, List.mem_singleton] at hit
  rcases hit with ((hit | hit) | hit) | hit
  · subst hit
    exact ⟨ascii "F_F0", by decide, _, rfl⟩
  · refine basicFieldsRef_named _ _ ?_ bfc hb _ it hit
    intro j h1 h2
    interval_cases j <;> decide
  · exact conjFieldRef_named _ (ascii "F_F5") _ (by decide) rfl _ _ it hit
  · exact conjFieldRef_named _ (ascii "F_F6") _ (by decide) rfl _ _ it hit

/-- The feature tokens of a chunk: the flags and the head and function token fields,
all named in `flagFieldNames`, then `A`, `B`, the case flag and the boundary flags. -/
theorem chunkItems_split (delim : CStr) (sel : Selector) (tree : Tree) (size bfc i : Nat)
    (hb : bfc ≤ 4) (c : Chunk) (htoken ftoken : Token) :
    chunkItems delim sel tree size bfc i c htoken ftoken =
      ((chunkTokens tree c).flatMap (flagItems sel) ++ headFieldsRef bfc htoken ++
        funcFieldsRef bfc ftoken) ++ tailItems delim sel size bfc i htoken ftoken ∧
    ∀ it ∈ (chunkTokens tree c).flatMap (flagItems sel) ++ headFieldsRef bfc htoken ++
        funcFieldsRef bfc ftoken, Named flagFieldNames it := by
  constructor
  · unfold chunkItems
    rw [tokenItems_ref]
    simp only [List.append_assoc]
  · intro it hit
    simp only [List.mem_append] at hit
    rcases hit with (hit | hit) | hit
    · obtain ⟨tok, _, hit2⟩ := List.mem_flatMap.1 hit
      exact flagItems_named sel tok it hit2
    · exact headFieldsRef_named bfc hb htoken it hit
    · exact funcFieldsRef_named bfc hb ftoken it hit

theorem posSize_le (tree : Tree) : posSize tree ≤ 4 := by
  unfold posSize
  split <;> omega

/-- Every feature token of the tail is named `A`, `B`, `G_CASE`, `F_BOS` or `F_EOS`. -/
theorem tailItems_named (delim : CStr) (sel : Selector) (size bfc i : Nat)
    (htoken ftoken : Token) :
    ∀ it ∈ tailItems delim sel size bfc i htoken ftoken, Named featureNames it := by
  intro it hit
  unfold tailItems at hit
  simp only [List.mem_append, List.mem_singleton] at hit
  rcases hit with (((hit | hit) | hit) | hit) | hit
  · subst hit; exact ⟨ascii "A", by decide, _, rfl⟩
  · subst hit; exact ⟨ascii "B", by decide, _, rfl⟩
  · split at hit
    · rw [List.mem_singleton] at hit
      subst hit; exact ⟨ascii "G_CASE", by decide, _, rfl⟩
    · simp at hit
  · split at hit
    · rw [List.mem_singleton] at hit
      subst hit; exact ⟨ascii "F_BOS", by decide, ascii "1", rfl⟩
    · simp at hit
  · split at hit
    · rw [List.mem_singleton] at hit
      subst hit; exact ⟨ascii "F_EOS", by decide, ascii "1", rfl⟩
    · simp at hit

/-- What `parse` stores for chunk `i` of a sentence whose token strings hold no space. -/
theorem parse_items (delim : CStr) (sel : Selector) (tree tree1 : Tree) (i : Nat)
    (chunk : Chunk) (hparse : sel.parse delim (some tree) = some (true, some tree1))
    (hc : tree.chunks[i]? = some chunk) (hsf : SpaceFree delim tree) :
    ∃ text hid fid htoken ftoken chunk1,
      sel.featureText delim tree tree.chunks.length (posSize tree) i chunk =
        some (text, hid, fid) ∧
      tree.tokens[hid]? = some htoken ∧ tree.tokens[fid]? = some ftoken ∧
      tree1.chunks[i]? = some chunk1 ∧
      pieces [32] (text.drop 1) =
        chunkItems delim sel tree tree.chunks.length (posSize tree) i chunk htoken ftoken ∧
      chunk1.feature_list =
        (chunkItems delim sel tree tree.chunks.length (posSize tree) i chunk htoken
          ftoken).take kFeatureSize ∧
      chunk1.feature_list_size = chunk1.feature_list.length % 256 := by
  obtain ⟨t1, ht1, _, _, _, _, a5⟩ := parse_some delim sel tree _ hparse
  simp only [Prod.mk.injEq, Option.some.injEq, true_and] at ht1
  subst ht1
  obtain ⟨c1, hout, hc1⟩ := a5 i chunk hc
  obtain ⟨text, hid, fid, htoken, ftoken, h1, _, h3, h4, _, h6, h7, h8⟩ :=
    chunkOut_items delim sel tree chunk c1 _ _ i hsf hout
  exact ⟨text, hid, fid, htoken, ftoken, c1, h1, h3, h4, hc1, h6, h7, h8⟩

/-- The text written for a chunk is the text of its flags, head fields, function fields
and tail, in this order; and when the token strings hold no space and the text holds at
most `kFeatureSize` feature tokens, that list of feature tokens is the stored feature
list. -/
theorem emitted_and_stored (delim : CStr) (sel : Selector) (tree : Tree) (i : Nat)
    (chunk : Chunk) (text : CStr) (hid fid : Nat)
    (hc : tree.chunks[i]? = some chunk)
    (ht : sel.featureText delim tree tree.chunks.length (posSize tree) i chunk =
      some (text, hid, fid)) :
    ∃ htoken ftoken, tree.tokens[hid]? = some htoken ∧ tree.tokens[fid]? = some ftoken ∧
      chunkItems delim sel tree tree.chunks.length (posSize tree) i chunk htoken ftoken =
        (chunkTokens tree chunk).flatMap (flagItems sel) ++
          headFieldsRef (posSize tree) htoken ++ funcFieldsRef (posSize tree) ftoken ++
          tailItems delim sel tree.chunks.length (posSize tree) i htoken ftoken ∧
      text = itemsText ((chunkTokens tree chunk).flatMap (flagItems sel) ++
        headFieldsRef (posSize tree) htoken ++ funcFieldsRef (posSize tree) ftoken ++
        tailItems delim sel tree.chunks.length (posSize tree) i htoken ftoken) ∧
      (∀ tree1, SpaceFree delim tree →
        sel.parse delim (some tree) = some (true, some tree1) →
        (pieces [32] (text.drop 1)).length ≤ kFeatureSize →
        ∃ chunk1, tree1.chunks[i]? = some chunk1 ∧
          chunk1.feature_list = (chunkTokens tree chunk).flatMap (flagItems sel) ++
            headFieldsRef (posSize tree) htoken ++ funcFieldsRef (posSize tree) ftoken ++
            tailItems delim sel tree.chunks.length (posSize tree) i htoken ftoken ∧
          chunk1.feature_list_size = chunk1.feature_list.length % 256) := by
  obtain ⟨htoken, ftoken, _, h2, h3, h4⟩ :=
    featureText_items delim sel tree chunk _ _ i text hid fid ht
  obtain ⟨hsplit, _⟩ := chunkItems_split delim sel tree tree.chunks.length (posSize tree) i
    (posSize_le tree) chunk htoken ftoken
  refine ⟨htoken, ftoken, h2, h3, hsplit, by rw [h4, hsplit], ?_⟩
  intro tree1 hsf hparse hcount
  obtain ⟨text1, hid1, fid1, htoken1, ftoken1, chunk1, g1, g2, g3, g4, g5, g6, g7⟩ :=
    parse_items delim sel tree tree1 i chunk hparse hc hsf
  rw [ht] at g1
  simp only [Option.some.injEq, Prod.mk.injEq] at g1
  obtain ⟨rfl, rfl, rfl⟩ := g1
  rw [h2] at g2
  rw [h3] at g3
  cases g2
  cases g3
  refine ⟨chunk1, g4, ?_, g7⟩
  rw [g5] at hcount
  rw [g6, List.take_of_length_le hcount, hsplit]

/-- The result of `parse` on `exTreeConj`. -/
theorem exTreeConj_parse :
    exSel.parse (ascii "-") (some exTreeConj) = some (true, some exTreeConjParsed) := by
  decide

theorem conjFieldRef_mem (name : CStr) (fl : List CStr) (idx : Nat) (v : CStr)
    (h : fl[idx]? = some v) (hv : v ≠ STAR) : name ++ v ∈ conjFieldRef name fl idx := by
  unfold conjFieldRef
  rw [h]
  simp [hv]

theorem conjFieldRef_none (name : CStr) (fl : List CStr) (idx : Nat)
    (h : fl[idx]? = none ∨ fl[idx]? = some STAR) : conjFieldRef name fl idx = [] := by
  unfold conjFieldRef
  rcases h with h | h <;> simp [h]

/-- No feature token named in `flagFieldNames` starts with `A:`. -/
theorem named_not_class_a (it : CStr) (h : Named flagFieldNames it) :
    (ascii "A:").isPrefixOf it = false := by
  obtain ⟨name, hname, v, rfl⟩ := h
  have e : ascii "A:" = [65, 58] := by decide
  have hno : 58 ∉ name := featureNames_no_colon name (flagFieldNames_sub name hname)
  rw [e]
  cases name with
  | nil => simp [List.isPrefixOf]
  | cons a name =>
    cases name with
    | nil =>
      by_cases ha : a = 65
      · subst ha
        exact absurd hname (by decide)
      · simp [List.isPrefixOf, ha]
        omega
    | cons b name =>
      have hb : b ≠ 58 := fun hb => hno (by simp [hb])
      simp [List.isPrefixOf]
      intro _
      omega

/-- The tail of a chunk's feature tokens holds exactly one that starts with `A:`. -/
theorem tailItems_count (delim : CStr) (sel : Selector) (size bfc i : Nat)
    (htoken ftoken : Token) :
    (tailItems delim sel size bfc i htoken ftoken).countP
      (fun it => (ascii "A:").isPrefixOf it) = 1 := by
  have e1 : ascii "A:" = [65, 58] := by decide
  have e2 : ascii "B:" = [66, 58] := by decide
  have e3 : ascii "G_CASE:" = [71, 95, 67, 65, 83, 69, 58] := by decide
  have e4 : ascii "F_BOS:1" = [70, 95, 66, 79, 83, 58, 49] := by decide
  have e5 : ascii "F_EOS:1" = [70, 95, 69, 79, 83, 58, 49] := by decide
  have hA : ∀ v : CStr, [([65, 58] : CStr) ++ v].countP
      (fun it => ([65, 58] : CStr).isPrefixOf it) = 1 := by
    intro v; simp [List.isPrefixOf]
  have hB : ∀ v : CStr, [([66, 58] : CStr) ++ v].countP
      (fun it => ([65, 58] : CStr).isPrefixOf it) = 0 := by
    intro v; simp [List.isPrefixOf]
  have hC : ∀ (c : Prop) [Decidable c] (v : CStr),
      (if c then [([71, 95, 67, 65, 83, 69, 58] : CStr) ++ v] else []).countP
        (fun it => ([65, 58] : CStr).isPrefixOf it) = 0 := by
    intro c _ v; split <;> simp [List.isPrefixOf]
  have hD : ∀ (c : Prop) [Decidable c],
      (if c then [([70, 95, 66, 79, 83, 58, 49] : CStr)] else []).countP
        (fun it => ([65, 58] : CStr).isPrefixOf it) = 0 := by
    intro c _; split <;> simp [List.isPrefixOf]
  have hE : ∀ (c : Prop) [Decidable c],
      (if c then [([70, 95, 69, 79, 83, 58, 49] : CStr)] else []).countP
        (fun it => ([65, 58] : CStr).isPrefixOf it) = 0 := by
    intro c _; split <;> simp [List.isPrefixOf]
  unfold tailItems
  rw [e1, e2, e3, e4, e5]
  rw [List.countP_append, List.countP_append, List.countP_append, List.countP_append,
    hA, hB, hC, hD, hE]

theorem bos_mem_tail (delim : CStr) (sel : Selector) (size bfc i : Nat)
    (htoken ftoken : Token) :
    (ascii "F_BOS:1" ∈ tailItems delim sel size bfc i htoken ftoken ↔ i = 0) ∧
    (ascii "F_EOS:1" ∈ tailItems delim sel size bfc i htoken ftoken ↔ i = size - 1) := by
  have e1 : ascii "A:" = [65, 58] := by decide
  have e2 : ascii "B:" = [66, 58] := by decide
  have e3 : ascii "G_CASE:" = [71, 95, 67, 65, 83, 69, 58] := by decide
  have e4 : ascii "F_BOS:1" = [70, 95, 66, 79, 83, 58, 49] := by decide
  have e5 : ascii "F_EOS:1" = [70, 95, 69, 79, 83, 58, 49] := by decide
  unfold tailItems
  rw [e1, e2, e3, e4, e5]
  constructor
  · by_cases h1 : i = 0 <;> by_cases h2 : i = size - 1 <;>
      by_cases h3 : (sel.pat_case_.prefix_match ftoken.feature).isSome = true <;>
      simp [h1, h2, h3]
  · by_cases h1 : i = 0 <;> by_cases h2 : i = size - 1 <;>
      by_cases h3 : (sel.pat_case_.prefix_match ftoken.feature).isSome = true <;>
      simp [h1, h2, h3]

theorem boundary_not_named (it : CStr) (h : Named flagFieldNames it) :
    it ≠ ascii "F_BOS:1" ∧ it ≠ ascii "F_EOS:1" := by
  have hn : ∀ n ∈ flagFieldNames, 58 ∉ n :=
    fun n hn => featureNames_no_colon n (flagFieldNames_sub n hn)
  exact ⟨named_ne flagFieldNames it (ascii "F_BOS") (ascii "1") h hn (by decide) (by decide),
    named_ne flagFieldNames it (ascii "F_EOS") (ascii "1") h hn (by decide) (by decide)⟩

/-- The tail of the only chunk of a sentence ends with `F_BOS:1`, `F_EOS:1`. -/
theorem tailItems_only_chunk (delim : CStr) (sel : Selector) (bfc : Nat)
    (htoken ftoken : Token) :
    ∃ pre, tailItems delim sel 1 bfc 0 htoken ftoken =
      pre ++ [ascii "F_BOS:1", ascii "F_EOS:1"] := by
  unfold tailItems
  refine ⟨[ascii "A:" ++ classAValueRef delim sel bfc ftoken] ++
    [ascii "B:" ++ concat_feature delim htoken bfc] ++
    (if (sel.pat_case_.prefix_match ftoken.feature).isSome then
      [ascii "G_CASE:" ++ ftoken.normalized_surface] else []), ?_⟩
  simp

/-- A feature token named in one list of names is not named in a list disjoint from
it. -/
theorem named_disjoint (n1 n2 : List CStr) (it : CStr) (h1 : ∀ n ∈ n1, 58 ∉ n)
    (h2 : ∀ n ∈ n2, 58 ∉ n) (hd : ∀ n ∈ n1, n ∉ n2) (h : Named n1 it) : ¬ Named n2 it := by
  obtain ⟨name, hname, v, rfl⟩ := h
  rintro ⟨name2, hname2, v2, heq⟩
  obtain ⟨e, _⟩ := name_unique name name2 v v2 (h1 name hname) (h2 name2 hname2) heq
  exact hd name hname (e ▸ hname2)

theorem flagItems_other (sel : Selector) (tok : Token) :
    ∀ it ∈ flagItems sel tok, Named otherFieldNames it := by
  intro it hit
  obtain ⟨name, hname, v, rfl⟩ := flagItems_named sel tok it hit
  unfold flagItems at hit
  simp only [List.mem_append] at hit
  rcases hit with hit | hit | hit
  · split at hit
    · simp only [List.mem_cons, List.mem_singleton, List.not_mem_nil, or_false] at hit
      rcases hit with h | h
      · exact ⟨ascii "G_PUNC", by decide, _, h⟩
      · exact ⟨ascii "F_PUNC", by decide, _, h⟩
    · simp at hit
  · split at hit
    · simp only [List.mem_cons, List.mem_singleton, List.not_mem_nil, or_false] at hit
      rcases hit with h | h
      · exact ⟨ascii "G_OB", by decide, _, h⟩
      · exact ⟨ascii "F_OB", by decide, _, h⟩
    · simp at hit
  · split at hit
    · simp only [List.mem_cons, List.mem_singleton, List.not_mem_nil, or_false] at hit
      rcases hit with h | h
      · exact ⟨ascii "G_CB", by decide, _, h⟩
      · exact ⟨ascii "F_CB", by decide, _, h⟩
    · simp at hit

theorem headFieldsRef_head (bfc : Nat) (hb : bfc ≤ 4) (tok : Token) :
    ∀ it ∈ headFieldsRef bfc tok, Named headFieldNames it := by
  intro it hit
  unfold headFieldsRef at hit
  simp only [List.mem_append, List.mem_singleton] at hit
  rcases hit with ((hit | hit) | hit) | hit
  · subst hit
    exact ⟨ascii "F_H0", by decide, _, rfl⟩
  · refine basicFieldsRef_named _ _ ?_ bfc hb _ it hit
    intro j h1 h2
    interval_cases j <;> decide
  · exact conjFieldRef_named _ (ascii "F_H5") _ (by decide) rfl _ _ it hit
  · exact conjFieldRef_named _ (ascii "F_H6") _ (by decide) rfl _ _ it hit

theorem funcFieldsRef_other (bfc : Nat) (hb : bfc ≤ 4) (tok : Token) :
    ∀ it ∈ funcFieldsRef bfc tok, Named otherFieldNames it := by
  intro it hit
  unfold funcFieldsRef at hit
  simp only [List.mem_append, List.mem_singleton] at hit
  rcases hit with ((hit | hit) | hit) | hit
  · subst hit
    exact ⟨ascii "F_F0", by decide, _, rfl⟩
  · refine basicFieldsRef_named _ _ ?_ bfc hb _ it hit
    intro j h1 h2
    interval_cases j <;> decide
  · exact conjFieldRef_named _ (ascii "F_F5") _ (by decide) rfl _ _ it hit
  · exact conjFieldRef_named _ (ascii "F_F6") _ (by decide) rfl _ _ it hit

theorem tailItems_other (delim : CStr) (sel : Selector) (size bfc i : Nat)
    (htoken ftoken : Token) :
    ∀ it ∈ tailItems delim sel size bfc i htoken ftoken, Named otherFieldNames it := by
  intro it hit
  unfold tailItems at hit
  simp only [List.mem_append, List.mem_singleton] at hit
  rcases hit with (((hit | hit) | hit) | hit) | hit
  · subst hit; exact ⟨ascii "A", by decide, _, rfl⟩
  · subst hit; exact ⟨ascii "B", by decide, _, rfl⟩
  · split at hit
    · rw [List.mem_singleton] at hit
      subst hit; exact ⟨ascii "G_CASE", by decide, _, rfl⟩
    · simp at hit
  · split at hit
    · rw [List.mem_singleton] at hit
      subst hit; exact ⟨ascii "F_BOS", by decide, ascii "1", rfl⟩
    · simp at hit
  · split at hit
    · rw [List.mem_singleton] at hit
      subst hit; exact ⟨ascii "F_EOS", by decide, ascii "1", rfl⟩
    · simp at hit

/-- No flag, function-token field or tail feature of a chunk is named as a head-token
field. -/
theorem not_head_field (delim : CStr) (sel : Selector) (tree : Tree) (size bfc i : Nat)
    (hb : bfc ≤ 4) (c : Chunk) (htoken ftoken : Token) :
    ∀ it ∈ (chunkTokens tree c).flatMap (flagItems sel) ++
        (funcFieldsRef bfc ftoken ++ tailItems delim sel size bfc i htoken ftoken),
      ¬ Named headFieldNames it := by
  intro it hit
  apply named_disjoint otherFieldNames headFieldNames it (by decide) (by decide) (by decide)
  simp only [List.mem_append, List.mem_flatMap] at hit
  rcases hit with ⟨tok, _, h⟩ | h | h
  · exact flagItems_other sel tok it h
  · exact funcFieldsRef_other bfc hb ftoken it h
  · exact tailItems_other delim sel size bfc i htoken ftoken it h

/-! ## The claims -/

/-- C1: with the identity normalizer, compiling `(l1|...|ln)` for `n >= 1` literals,
each non-empty and without `|` (and, being C strings, without NUL), the text within
the buffer limit, succeeds and leaves exactly `[l1, ..., ln]`; compiling a spec that
is not enclosed in `(` ... `)` succeeds and leaves exactly `[spec]`; the result is
the same whatever alternatives `m` held before the call. -/
theorem C1_compile_reference (BUF_SIZE : Nat) (m : PatternMatcher) :
    (∀ ls : List CStr, ls ≠ [] → (∀ l ∈ ls, l ≠ [] ∧ 124 ∉ l ∧ 0 ∉ l) →
      (parenSpec ls).length < BUF_SIZE - 3 →
      m.compile BUF_SIZE (parenSpec ls) (some Iconv.identity) =
        some (true, PatternMatcher.mk ls)) ∧
    (∀ spec : CStr, 0 ∉ spec → ¬ (spec.head? = some 40 ∧ spec.getLast? = some 41) →
      m.compile BUF_SIZE spec (some Iconv.identity) =
        some (true, PatternMatcher.mk [spec])) := by
  constructor
  · intro ls hne hls hlen
    have hinner : 1 ≤ (List.intercalate [124] ls).length := by
      have := length_le_intercalate [124] ls (fun l hl => (hls l hl).1)
      have : 1 ≤ ls.length := List.length_pos.2 hne
      omega
    have hnul : 0 ∉ List.intercalate [124] ls := by
      intro h0
      rcases mem_intercalate _ _ _ h0 with h1 | ⟨l, hl, hb⟩
      · simp at h1
      · exact (hls l hl).2.2 hb
    have htok : tokenize (List.intercalate [124] ls) [124] BUF_SIZE = ls := by
      unfold tokenize pieces
      rw [splitPieces_intercalate 124 ls hne (fun l hl => (hls l hl).2.1),
        filter_nonempty_self ls (fun l hl => (hls l hl).1), List.take_eq_self_iff]
      have := length_le_intercalate [124] ls (fun l hl => (hls l hl).1)
      simp only [parenSpec, List.length_cons, List.length_append] at hlen
      omega
    obtain ⟨h0, h1, h2⟩ := parenSpec_shape (List.intercalate [124] ls)
    rw [compile_eq]
    unfold parenSpec at hlen ⊢
    have hlen3 : (40 :: (List.intercalate [124] ls ++ [41]) : CStr).length ≥ 3 := by
      simp only [List.length_cons, List.length_append]; omega
    rw [if_pos ⟨hlen3, h0, h1⟩, h2, cstr_of_no_nul _ hnul, htok, if_neg (not_not.2 hlen)]
    have hlt : ls.length < BUF_SIZE := by
      have := length_le_intercalate [124] ls (fun l hl => (hls l hl).1)
      simp only [List.length_cons, List.length_append] at hlen
      omega
    rw [if_neg (not_not.2 hlt)]
    cases ls with
    | nil => exact absurd rfl hne
    | cons => rfl
  · intro spec hnul hnot
    rw [compile_eq, cstr_of_no_nul _ hnul, if_neg]
    rintro ⟨hlen, hfirst, hlast⟩
    apply hnot
    constructor
    · cases spec with
      | nil => simp at hlen
      | cons a t => simpa using hfirst
    · rw [List.getLast?_eq_getElem?]
      exact hlast

/-- C1 at the specs `(a|b|c)`, which gives `[a, b, c]`, and `a`, which gives `[a]`,
for a matcher that held `x` before. -/
theorem C1_compile_reference_witness :
    (PatternMatcher.mk [[120]]).compile 8192 (parenSpec [[97], [98], [99]])
      (some Iconv.identity) = some (true, PatternMatcher.mk [[97], [98], [99]]) ∧
    (PatternMatcher.mk [[120]]).compile 8192 [97] (some Iconv.identity) =
      some (true, PatternMatcher.mk [[97]]) :=
  ⟨(C1_compile_reference 8192 (PatternMatcher.mk [[120]])).1 [[97], [98], [99]]
    (by decide) (by decide) (by decide),
   (C1_compile_reference 8192 (PatternMatcher.mk [[120]])).2 [97] (by decide) (by decide)⟩

/-- C2, as the code has it: `compile` returns failure exactly when the alternative
set it leaves is empty; the two-byte spec `()` is not read as a parenthesised list:
it compiles, with success, to the one literal `()`; a parenthesised spec of three
bytes or more whose inside holds `|` only, within the buffer limit, is one that
`tokenize` reduces to zero alternatives, and it fails. -/
theorem C2_compile_fails_iff_empty (BUF_SIZE : Nat) (m : PatternMatcher) :
    (∀ spec iconv r m1, m.compile BUF_SIZE spec iconv = some (r, m1) →
      (r = false ↔ m1.patterns_ = [])) ∧
    m.compile BUF_SIZE [40, 41] (some Iconv.identity) =
      some (true, PatternMatcher.mk [[40, 41]]) ∧
    (∀ k, 1 ≤ k → k + 2 < BUF_SIZE - 3 →
      m.compile BUF_SIZE (40 :: (List.replicate k 124 ++ [41])) (some Iconv.identity) =
        some (false, PatternMatcher.mk [])) := by
  refine ⟨?_, ?_, ?_⟩
  · intro spec iconv r m1 h
    simp only [PatternMatcher.compile, PatternMatcher.clear, List.nil_append] at h
    split at h
    · split at h
      · exact absurd h (by simp)
      · split at h
        · exact absurd h (by simp)
        · simp only [Option.some.injEq, Prod.mk.injEq] at h
          obtain ⟨hr, hm⟩ := h
          subst hm
          subst hr
          simp
    · simp only [Option.some.injEq, Prod.mk.injEq] at h
      obtain ⟨hr, hm⟩ := h
      subst hm
      subst hr
      simp
  · rw [compile_eq, if_neg (by simp)]
    rfl
  · intro k hk hlen
    obtain ⟨h0, h1, h2⟩ := parenSpec_shape (List.replicate k 124)
    have hlen3 : (40 :: (List.replicate k 124 ++ [41]) : CStr).length ≥ 3 := by
      simp only [List.length_cons, List.length_append, List.length_replicate]; omega
    have hlen2 : (40 :: (List.replicate k 124 ++ [41]) : CStr).length < BUF_SIZE - 3 := by
      simp only [List.length_cons, List.length_append, List.length_replicate]
      simpa using hlen
    have hnul : 0 ∉ List.replicate k 124 := by
      intro h
      have := List.eq_of_mem_replicate h
      omega
    have htok : tokenize (List.replicate k 124) [124] BUF_SIZE = [] := by
      unfold tokenize pieces
      rw [splitPieces_replicate]
      simp
    rw [compile_eq, if_pos ⟨hlen3, h0, h1⟩, h2, cstr_of_no_nul _ hnul, htok,
      if_neg (not_not.2 hlen2), if_neg]
    · rfl
    · simp only [List.length_nil, not_lt, not_le]
      omega

/-- C2 at the spec `(|)`: it lies within the buffer limit and compiles to no
alternative, with failure. -/
theorem C2_compile_fails_iff_empty_witness :
    (PatternMatcher.mk [[120]]).compile 8192 [40, 124, 41] (some Iconv.identity) =
      some (false, PatternMatcher.mk []) :=
  (C2_compile_fails_iff_empty 8192 (PatternMatcher.mk [[120]])).2.2 1 (by decide) (by decide)

/-- C2 fails as stated at the spec `()`: compiling it returns success, with the one
alternative `()`, and not failure. -/
theorem C2_counterexample :
    (PatternMatcher.mk []).compile 8192 [40, 41] (some Iconv.identity) =
      some (true, PatternMatcher.mk [[40, 41]]) ∧
    ¬ ∃ m1, (PatternMatcher.mk []).compile 8192 [40, 41] (some Iconv.identity) =
      some (false, m1) := by
  constructor
  · decide
  · rintro ⟨m1, h⟩
    have h2 : (PatternMatcher.mk []).compile 8192 [40, 41] (some Iconv.identity) =
        some (true, PatternMatcher.mk [[40, 41]]) := by decide
    rw [h2] at h
    simp at h

/-- C3: `PatternMatcher::match(s)` returns the first alternative, in declaration
order, that is exactly equal to `s`; it returns none if and only if no alternative
equals `s`; any returned literal is equal to `s`. -/
theorem C3_match_first_equal (P : PatternMatcher) (s : CStr) :
    (∀ p, P.match_ s = some p ↔
      ∃ pre post, P.patterns_ = pre ++ p :: post ∧ p = s ∧ ∀ q ∈ pre, q ≠ s) ∧
    (P.match_ s = none ↔ ∀ p ∈ P.patterns_, p ≠ s) ∧
    (∀ p, P.match_ s = some p → p = s) := by
  refine ⟨fun p => matchLoop_some_iff s P.patterns_ p, matchLoop_none_iff s P.patterns_, ?_⟩
  intro p hp
  obtain ⟨_, _, _, h, _⟩ := (matchLoop_some_iff s P.patterns_ p).1 hp
  exact h

/-- C3 at the alternatives `a`, `b` and the candidate `b`: the match is `b`. -/
theorem C3_match_first_equal_witness :
    (PatternMatcher.mk [[97], [98]]).match_ [98] = some [98] ∧ ([98] : CStr) = [98] :=
  ⟨by decide, (C3_match_first_equal (PatternMatcher.mk [[97], [98]]) [98]).2.2 [98] (by decide)⟩

/-- C4: `PatternMatcher::prefix_match(s)` returns the first alternative, in
declaration order, that is a byte-prefix of `s`; it returns none if and only if no
alternative is a byte-prefix of `s`; a returned literal is not longer than `s`; an
alternative longer than `s` is skipped and the scan goes on with the next one. -/
theorem C4_prefix_match_first_found (P : PatternMatcher) (s : CStr) :
    (∀ p, P.prefix_match s = some p ↔
      ∃ pre post, P.patterns_ = pre ++ p :: post ∧ p <+: s ∧ ∀ q ∈ pre, ¬ q <+: s) ∧
    (P.prefix_match s = none ↔ ∀ p ∈ P.patterns_, ¬ p <+: s) ∧
    (∀ p, P.prefix_match s = some p → p.length ≤ s.length) ∧
    (∀ q, s.length < q.length →
      (PatternMatcher.mk (q :: P.patterns_)).prefix_match s = P.prefix_match s) := by
  refine ⟨fun p => prefixMatchLoop_some_iff s P.patterns_ p,
    prefixMatchLoop_none_iff s P.patterns_, ?_, ?_⟩
  · intro p hp
    obtain ⟨_, _, _, h, _⟩ := (prefixMatchLoop_some_iff s P.patterns_ p).1 hp
    exact h.length_le
  · intro q hq
    simp [PatternMatcher.prefix_match, prefixMatchLoop, hq]

/-- C4 at the alternatives `abc`, `a` and the candidate `ab`: `abc` is longer than
the candidate and is skipped, the match is `a`. -/
theorem C4_prefix_match_first_found_witness :
    (PatternMatcher.mk [[97, 98, 99], [97]]).prefix_match [97, 98] = some [97] ∧
    (PatternMatcher.mk [[97, 98, 99], [97]]).prefix_match [97, 98] =
      (PatternMatcher.mk [[97]]).prefix_match [97, 98] :=
  ⟨by decide,
   (C4_prefix_match_first_found (PatternMatcher.mk [[97]]) [97, 98]).2.2.2 [97, 98, 99]
     (by decide)⟩

/-- C5: under Scheme A (IPA), for every chunk and every choice of the patterns, the
indices `findHead` returns satisfy `head <= func`; and `findHead` does return indices
when the chunk's token range lies within the sentence. -/
theorem C5_ipa_head_le_func (sel : Selector) (tree : Tree) (chunk : Chunk)
    (hIPA : tree.posset = PossetType.IPA) :
    (∀ hid fid, sel.findHead tree chunk = some (hid, fid) → hid ≤ fid) ∧
    (chunk.token_pos + chunk.token_size ≤ tree.tokens.length →
      ∃ hid fid, sel.findHead tree chunk = some (hid, fid) ∧ hid ≤ fid) := by
  have key : ∀ hid fid, sel.findHead tree chunk = some (hid, fid) → hid ≤ fid := by
    intro hid fid h
    unfold Selector.findHead at h
    split at h
    · exact absurd h (by simp)
    · split at h
      · simp only [Option.some.injEq, Prod.mk.injEq] at h
        omega
      · rename_i hcl
        simp only [Option.some.injEq, Prod.mk.injEq] at h
        obtain ⟨rfl, rfl⟩ := h
        have := not_and.1 hcl hIPA
        omega
  refine ⟨key, fun hwf => ?_⟩
  have hspan := chunkSpan_le chunk
  obtain ⟨hid, fid, h⟩ := findHead_defined sel tree chunk (by omega)
  exact ⟨hid, fid, h, key hid fid h⟩

/-- C5 at a chunk whose function word comes first: the scan leaves `func = 0` and
`head = 1`, the clamp makes both `1`. -/
theorem C5_ipa_head_le_func_witness :
    exSel.findHead exTreeFuncFirst (exChunk 0 2) = some (1, 1) ∧ 1 ≤ 1 :=
  ⟨by decide, (C5_ipa_head_le_func exSel exTreeFuncFirst (exChunk 0 2) rfl).1 1 1 (by decide)⟩

/-- C6: after `parse`, for every chunk with at least one token, whatever the tagset,
the indices `findHead` chose lie in `[token_pos, token_pos + token_size)`; the stored
head and function offsets are the differences `head - token_pos`, `func - token_pos`,
taken without underflow, and each is smaller than the chunk's token count. -/
theorem C6_offsets_in_range (delim : CStr) (sel : Selector) (tree tree1 : Tree)
    (h : sel.parse delim (some tree) = some (true, some tree1))
    (i : Nat) (chunk : Chunk) (hc : tree.chunks[i]? = some chunk)
    (hts : 1 ≤ chunk.token_size) :
    ∃ hid fid chunk1, sel.findHead tree chunk = some (hid, fid) ∧
      tree1.chunks[i]? = some chunk1 ∧
      chunk.token_pos ≤ hid ∧ hid < chunk.token_pos + chunk.token_size ∧
      chunk.token_pos ≤ fid ∧ fid < chunk.token_pos + chunk.token_size ∧
      chunk1.head_pos = hid - chunk.token_pos ∧ chunk1.func_pos = fid - chunk.token_pos ∧
      chunk1.head_pos < chunk.token_size ∧ chunk1.func_pos < chunk.token_size := by
  obtain ⟨t1, ht1, _, _, _, _, a5⟩ := parse_some delim sel tree _ h
  simp only [Prod.mk.injEq, Option.some.injEq, true_and] at ht1
  subst ht1
  obtain ⟨c1, hout, hc1⟩ := a5 i chunk hc
  obtain ⟨_, hid, fid, _, _, _, hfh, _, _, _, _, _, _, e1, e2, _, _⟩ :=
    chunkOut_some delim sel tree chunk c1 _ _ _ hout
  obtain ⟨r1, r2⟩ := findHead_range sel tree chunk hid fid hfh
  have hspan := chunkSpan_le chunk
  rw [offset_eq chunk hid r1] at e1
  rw [offset_eq chunk fid r2] at e2
  refine ⟨hid, fid, c1, hfh, hc1, ?_, ?_, ?_, ?_, e1, e2, ?_, ?_⟩ <;> omega

/-- C6 at the second chunk of `exTreeTwoChunks`: head and function token are both the
token of index 3, the stored offsets are 1. -/
theorem C6_offsets_in_range_witness :
    ∃ hid fid chunk1, exSel.findHead exTreeTwoChunks (exChunk 2 2) = some (hid, fid) ∧
      exTreeTwoChunksParsed.chunks[1]? = some chunk1 ∧
      (exChunk 2 2).token_pos ≤ hid ∧ hid < (exChunk 2 2).token_pos + (exChunk 2 2).token_size ∧
      (exChunk 2 2).token_pos ≤ fid ∧ fid < (exChunk 2 2).token_pos + (exChunk 2 2).token_size ∧
      chunk1.head_pos = hid - (exChunk 2 2).token_pos ∧
      chunk1.func_pos = fid - (exChunk 2 2).token_pos ∧
      chunk1.head_pos < (exChunk 2 2).token_size ∧ chunk1.func_pos < (exChunk 2 2).token_size :=
  C6_offsets_in_range (ascii "-") exSel exTreeTwoChunks exTreeTwoChunksParsed (by decide)
    1 (exChunk 2 2) (by decide) (by decide)

/-- C7: `parse` is idempotent and its outputs are a function of the chunk token ranges,
the token data, the tagset and the patterns only: a sentence with the same tokens,
tagset and chunk token ranges gets the same result (defined or not), and running
`parse` on the sentence `parse` produced gives that sentence again, so every chunk
keeps its head offset, function offset and feature list. -/
theorem C7_parse_idempotent (delim : CStr) (sel : Selector) (tree : Tree) :
    (∀ tree2 : Tree, tree2.tokens = tree.tokens → tree2.posset = tree.posset →
      tree2.chunks.map Chunk.range = tree.chunks.map Chunk.range →
      sel.parse delim (some tree2) = sel.parse delim (some tree)) ∧
    (∀ tree1 : Tree, sel.parse delim (some tree) = some (true, some tree1) →
      sel.parse delim (some tree1) = some (true, some tree1) ∧
      tree1.chunks.map Chunk.range = tree.chunks.map Chunk.range) := by
  constructor
  · intro tree2 ht hp hr
    cases h1 : sel.parse delim (some tree) with
    | some r =>
      obtain ⟨t1, rfl, _⟩ := parse_some delim sel tree r h1
      exact parse_congr_some delim sel tree t1 tree2 h1 ht hp hr
    | none =>
      cases h2 : sel.parse delim (some tree2) with
      | none => rfl
      | some r =>
        obtain ⟨t1, rfl, _⟩ := parse_some delim sel tree2 r h2
        rw [parse_congr_some delim sel tree2 t1 tree h2 ht.symm hp.symm hr.symm] at h1
        exact absurd h1 (by simp)
  · intro tree1 h
    obtain ⟨t1, ht1, a1, a2, _, a4, a5⟩ := parse_some delim sel tree _ h
    simp only [Prod.mk.injEq, Option.some.injEq, true_and] at ht1
    subst ht1
    have hr : tree1.chunks.map Chunk.range = tree.chunks.map Chunk.range := by
      apply List.ext_getElem?
      intro k
      simp only [List.getElem?_map]
      by_cases hk : k < tree.chunks.length
      · obtain ⟨c1, hout, hc1⟩ := a5 k _ (List.getElem?_eq_getElem hk)
        obtain ⟨e1, e2⟩ := chunkOut_range delim sel tree _ c1 _ _ _ hout
        rw [hc1, List.getElem?_eq_getElem hk]
        simp only [Option.map_some', Chunk.range, e1, e2]
      · rw [List.getElem?_eq_none (by omega), List.getElem?_eq_none (by omega)]
    exact ⟨parse_congr_some delim sel tree tree1 tree1 h a1 a2 hr, hr⟩

/-- C7 at `exTreeTwoChunks`: parsing the parsed sentence gives it again. -/
theorem C7_parse_idempotent_witness :
    exSel.parse (ascii "-") (some exTreeTwoChunksParsed) =
      some (true, some exTreeTwoChunksParsed) :=
  ((C7_parse_idempotent (ascii "-") exSel exTreeTwoChunks).2 exTreeTwoChunksParsed
    (by decide)).1

/-- C8: `parse` called with the null sentence returns failure, and there is no
sentence after the call that it could have written to. -/
theorem C8_parse_null (delim : CStr) (sel : Selector) :
    sel.parse delim none = some (false, none) := rfl


/-- C9, as the code has it: when `parse` returns (so the feature text of every chunk
fits its 2048-byte buffer), the normalized surfaces of the sentence's tokens hold no
space, and the text of the chunk holds at most `kFeatureSize` = 256 feature tokens,
then the chunk's feature list starts with the flag tokens of its tokens, in token
order, followed by `F_H0`; so for every token of the chunk whose normalized surface
`x` is an alternative of the punctuation pattern it contains `G_PUNC:x` and
`F_PUNC:x`, likewise `G_OB`, `F_OB` for the open-bracket pattern and `G_CB`, `F_CB`
for the close-bracket pattern, each test on its own and whatever the token's
subfields and raw feature are. -/
theorem C9_flag_features (delim : CStr) (sel : Selector) (tree tree1 : Tree) (i : Nat)
    (chunk : Chunk) (text : CStr) (hid fid : Nat)
    (hparse : sel.parse delim (some tree) = some (true, some tree1))
    (hc : tree.chunks[i]? = some chunk)
    (htext : sel.featureText delim tree tree.chunks.length (posSize tree) i chunk =
      some (text, hid, fid))
    (hcount : (pieces [32] (text.drop 1)).length ≤ kFeatureSize)
    (hsp : ∀ tok ∈ tree.tokens, 32 ∉ tok.normalized_surface) :
    ∃ chunk1 htoken rest, tree1.chunks[i]? = some chunk1 ∧
      tree.tokens[hid]? = some htoken ∧
      chunk1.feature_list = (chunkTokens tree chunk).flatMap (flagItems sel) ++
        (ascii "F_H0:" ++ htoken.normalized_surface) :: rest ∧
      ∀ tok ∈ chunkTokens tree chunk, ∀ x, tok.normalized_surface = x →
        (x ∈ sel.pat_kutouten_.patterns_ →
          ascii "G_PUNC:" ++ x ∈ chunk1.feature_list ∧
          ascii "F_PUNC:" ++ x ∈ chunk1.feature_list) ∧
        (x ∈ sel.pat_open_bracket_.patterns_ →
          ascii "G_OB:" ++ x ∈ chunk1.feature_list ∧
          ascii "F_OB:" ++ x ∈ chunk1.feature_list) ∧
        (x ∈ sel.pat_close_bracket_.patterns_ →
          ascii "G_CB:" ++ x ∈ chunk1.feature_list ∧
          ascii "F_CB:" ++ x ∈ chunk1.feature_list) := by
  obtain ⟨t1, ht1, _, _, _, _, a5⟩ := parse_some delim sel tree _ hparse
  simp only [Prod.mk.injEq, Option.some.injEq, true_and] at ht1
  subst ht1
  obtain ⟨c1, hout, hc1⟩ := a5 i chunk hc
  obtain ⟨htoken, rest, hh, hfl⟩ :=
    chunkOut_flags delim sel tree chunk c1 _ _ i text hid fid hout htext hcount hsp
  refine ⟨c1, htoken, rest, hc1, hh, hfl, ?_⟩
  intro tok htok x hx
  subst hx
  have hsub : ∀ it ∈ flagItems sel tok, it ∈ c1.feature_list := by
    intro it hit
    rw [hfl]
    exact List.mem_append_left _ (List.mem_flatMap.2 ⟨tok, htok, hit⟩)
  obtain ⟨m1, m2, m3⟩ := flagItems_mem sel tok
  exact ⟨fun h => ⟨hsub _ (m1 h).1, hsub _ (m1 h).2⟩,
    fun h => ⟨hsub _ (m2 h).1, hsub _ (m2 h).2⟩,
    fun h => ⟨hsub _ (m3 h).1, hsub _ (m3 h).2⟩⟩

/-- C9 at the second chunk of `exTreeTwoChunks`, whose last token is the punctuation
`。`: its feature list starts with `G_PUNC:。`, `F_PUNC:。`, then `F_H0`. -/
theorem C9_flag_features_witness :
    ∃ chunk1 htoken rest, exTreeTwoChunksParsed.chunks[1]? = some chunk1 ∧
      exTreeTwoChunks.tokens[3]? = some htoken ∧
      chunk1.feature_list = (chunkTokens exTreeTwoChunks (exChunk 2 2)).flatMap (flagItems exSel) ++
        (ascii "F_H0:" ++ htoken.normalized_surface) :: rest ∧
      ∀ tok ∈ chunkTokens exTreeTwoChunks (exChunk 2 2), ∀ x, tok.normalized_surface = x →
        (x ∈ exSel.pat_kutouten_.patterns_ →
          ascii "G_PUNC:" ++ x ∈ chunk1.feature_list ∧
          ascii "F_PUNC:" ++ x ∈ chunk1.feature_list) ∧
        (x ∈ exSel.pat_open_bracket_.patterns_ →
          ascii "G_OB:" ++ x ∈ chunk1.feature_list ∧
          ascii "F_OB:" ++ x ∈ chunk1.feature_list) ∧
        (x ∈ exSel.pat_close_bracket_.patterns_ →
          ascii "G_CB:" ++ x ∈ chunk1.feature_list ∧
          ascii "F_CB:" ++ x ∈ chunk1.feature_list) :=
  C9_flag_features (ascii "-") exSel exTreeTwoChunks exTreeTwoChunksParsed 1 (exChunk 2 2)
    (itemsText [ascii "G_PUNC:" ++ [227, 128, 130], ascii "F_PUNC:" ++ [227, 128, 130],
      ascii "F_H0:" ++ [227, 128, 130], ascii "F_H1:k", ascii "F_F0:" ++ [227, 128, 130],
      ascii "F_F1:k", ascii "A:k", ascii "B:k", ascii "F_EOS:1"]) 3 3
    (by decide) (by decide) (by decide) (by decide) (by decide)

/-- The result of `parse` on `exTreeManyFlags`. -/
theorem exTreeManyFlags_parse :
    exSel.parse (ascii "-") (some exTreeManyFlags) = some (true, some exTreeManyFlagsParsed) := by
  decide!

/-- C9 fails as stated on `exTreeManyFlags`: the feature text of its chunk fits the
buffer (`parse` returns) and no token string holds a space; the last token of the
chunk is the punctuation `。`, an alternative of the punctuation pattern; but the 256
feature tokens stored are the bracket flags of the 128 tokens before it, and neither
`G_PUNC:。` nor `F_PUNC:。` is in the chunk's feature list. -/
theorem C9_counterexample :
    exSel.parse (ascii "-") (some exTreeManyFlags) = some (true, some exTreeManyFlagsParsed) ∧
    (∃ text hid fid, exSel.featureText (ascii "-") exTreeManyFlags 1 4 0 (exChunk 0 129) =
      some (text, hid, fid) ∧ text.length + 1 ≤ FEATURE_BUF) ∧
    (∀ tok ∈ exTreeManyFlags.tokens, 32 ∉ tok.surface ∧ 32 ∉ tok.normalized_surface ∧
      32 ∉ tok.feature ∧ ∀ f ∈ tok.feature_list, 32 ∉ f) ∧
    exTreeManyFlags.chunks[0]? = some (exChunk 0 129) ∧
    (∃ tok ∈ chunkTokens exTreeManyFlags (exChunk 0 129),
      tok.normalized_surface = [227, 128, 130] ∧
      [227, 128, 130] ∈ exSel.pat_kutouten_.patterns_) ∧
    (∃ chunk1, exTreeManyFlagsParsed.chunks[0]? = some chunk1 ∧
      chunk1.feature_list.length = 256 ∧
      ascii "G_PUNC:" ++ [227, 128, 130] ∉ chunk1.feature_list ∧
      ascii "F_PUNC:" ++ [227, 128, 130] ∉ chunk1.feature_list) := by
  refine ⟨exTreeManyFlags_parse, ?_, by decide!, rfl, ?_, ?_⟩
  · obtain ⟨t1, _, _, _, _, _, a5⟩ := parse_some _ _ _ _ exTreeManyFlags_parse
    obtain ⟨c1, hout, _⟩ := a5 0 (exChunk 0 129) rfl
    obtain ⟨_, hid, fid, _, _, _, _, _, _, h5, h6, _⟩ := chunkOut_some _ _ _ _ _ _ _ _ hout
    exact ⟨_, hid, fid, h5, h6⟩
  · exact ⟨exToken [227, 128, 130] (ascii "n,*") [ascii "n", STAR], by decide!, rfl, by decide⟩
  · exact ⟨_, rfl, by decide!, by decide!, by decide!⟩

/-- C10, as the code has it: when `parse` returns, it has stored head offset 0 and
function offset 0 for every chunk of exactly one token (here under Scheme A); and
for a Scheme A sentence whose only chunk has the one token `tok`, with normalized
surface `s` that holds no space and is short enough for the feature text to fit the
2048-byte buffer, subfields `(*,*,*,*)`, a raw feature that prefix-matches neither the
class-A nor the case pattern and a surface that matches no flag pattern, `parse`
returns and the stored feature list is exactly `F_H0:s`, `F_F0:s`, `A:`, `B:`,
`F_BOS:1`, `F_EOS:1`: one `A` and one `B` feature, and no `F_H1` .. `F_H6`. -/
theorem C10_single_token_chunk (delim : CStr) (sel : Selector) (tree : Tree)
    (hIPA : tree.posset = PossetType.IPA) :
    (∀ (tree1 : Tree) (i : Nat) (chunk : Chunk),
      sel.parse delim (some tree) = some (true, some tree1) →
      tree.chunks[i]? = some chunk → chunk.token_size = 1 →
      ∃ chunk1, tree1.chunks[i]? = some chunk1 ∧ chunk1.head_pos = 0 ∧ chunk1.func_pos = 0) ∧
    (∀ (chunk : Chunk) (tok : Token) (s : CStr), tree.chunks = [chunk] →
      chunk.token_size = 1 →
      tree.tokens[chunk.token_pos]? = some tok →
      tok.normalized_surface = s → tok.feature_list = [STAR, STAR, STAR, STAR] →
      sel.pat_dyn_a_.prefix_match tok.feature = none →
      sel.pat_case_.prefix_match tok.feature = none →
      sel.pat_kutouten_.match_ s = none →
      sel.pat_open_bracket_.match_ s = none →
      sel.pat_close_bracket_.match_ s = none →
      32 ∉ s → 2 * s.length + 35 ≤ FEATURE_BUF →
      ∃ tree1 chunk1, sel.parse delim (some tree) = some (true, some tree1) ∧
        tree1.chunks = [chunk1] ∧ chunk1.head_pos = 0 ∧ chunk1.func_pos = 0 ∧
        chunk1.feature_list = [ascii "F_H0:" ++ s, ascii "F_F0:" ++ s, ascii "A:", ascii "B:",
          ascii "F_BOS:1", ascii "F_EOS:1"] ∧
        chunk1.feature_list_size = 6 ∧
        (∀ f ∈ chunk1.feature_list, ∀ k, 1 ≤ k → k ≤ 6 →
          ¬ (ascii "F_H" ++ decimal k ++ [58]) <+: f) ∧
        chunk1.feature_list.countP (fun f => (ascii "A:").isPrefixOf f) = 1 ∧
        chunk1.feature_list.countP (fun f => (ascii "B:").isPrefixOf f) = 1) := by
  have hoffs : ∀ (c c1 : Chunk) (i : Nat), c.token_size = 1 →
      sel.chunkOut delim tree tree.chunks.length (posSize tree) i c = some c1 →
      c1.head_pos = 0 ∧ c1.func_pos = 0 ∧
      sel.findHead tree c = some (c.token_pos, c.token_pos) := by
    intro c c1 i hone hout
    obtain ⟨_, hid, fid, _, _, _, hfh, _, _, _, _, _, _, e1, e2, _, _⟩ :=
      chunkOut_some delim sel tree c c1 _ _ _ hout
    obtain ⟨r1, r2⟩ := findHead_range sel tree c hid fid hfh
    have hspan := chunkSpan_le c
    rw [offset_eq c hid r1] at e1
    rw [offset_eq c fid r2] at e2
    have hh : hid = c.token_pos := by omega
    have hf : fid = c.token_pos := by omega
    subst hh
    subst hf
    exact ⟨by omega, by omega, hfh⟩
  constructor
  · intro tree1 i chunk hparse hc hone
    obtain ⟨t1, ht1, _, _, _, _, a5⟩ := parse_some delim sel tree _ hparse
    simp only [Prod.mk.injEq, Option.some.injEq, true_and] at ht1
    subst ht1
    obtain ⟨c1, hout, hc1⟩ := a5 i chunk hc
    obtain ⟨o1, o2, _⟩ := hoffs chunk c1 i hone hout
    exact ⟨c1, hc1, o1, o2⟩
  · intro chunk tok s hchunks hone htok hs hfl hdyn hcase hk hob hcb hsp hlen
    subst hs
    have hsize : tree.chunks.length = 1 := by rw [hchunks]; rfl
    have hps : posSize tree = 4 := by unfold posSize; rw [if_pos hIPA]
    have hj : chunk.token_pos < tree.tokens.length := by
      by_contra hcon
      rw [List.getElem?_eq_none (by omega)] at htok
      exact absurd htok (by simp)
    have hspan := chunkSpan_le chunk
    have hflags := flags_single sel tree chunk tok hone htok hk hob hcb
    have hitems := tokenItems_single delim sel tok hfl hdyn hcase
    have hfh : ∀ hid fid, sel.findHead tree chunk = some (hid, fid) →
        hid = chunk.token_pos ∧ fid = chunk.token_pos := by
      intro hid fid h
      obtain ⟨r1, r2⟩ := findHead_range sel tree chunk hid fid h
      omega
    have hdef : ∃ c1, sel.chunkOut delim tree 1 4 0 chunk = some c1 := by
      apply chunkOut_defined delim sel tree chunk 1 4 0 (by omega) hj
      intro hid fid htoken ftoken h1 h2 h3
      obtain ⟨rfl, rfl⟩ := hfh hid fid h1
      rw [htok] at h2 h3
      cases h2
      cases h3
      rw [hflags, hitems]
      simp only [itemsText, List.nil_append, List.map_cons, List.map_nil, List.flatten_cons,
        List.flatten_nil, List.length_append, List.length_cons, List.length_nil]
      have e1 : (ascii "F_H0:").length = 5 := by decide
      have e2 : (ascii "F_F0:").length = 5 := by decide
      have e3 : (ascii "A:").length = 2 := by decide
      have e4 : (ascii "B:").length = 2 := by decide
      have e5 : (ascii "F_BOS:1").length = 7 := by decide
      have e6 : (ascii "F_EOS:1").length = 7 := by decide
      omega
    obtain ⟨c1, hout⟩ := hdef
    have hall : ∀ k c, tree.chunks[k]? = some c → ∃ c1,
        sel.chunkOut delim tree tree.chunks.length (posSize tree) k c = some c1 := by
      intro k c hc
      rw [hchunks] at hc
      cases k with
      | zero =>
        simp only [List.getElem?_cons_zero, Option.some.injEq] at hc
        subst hc
        rw [hsize, hps]
        exact ⟨c1, hout⟩
      | succ k => simp at hc
    obtain ⟨tree1, hparse⟩ := parse_defined delim sel tree hall
    obtain ⟨t1, ht1, _, _, _, a4, a5⟩ := parse_some delim sel tree _ hparse
    simp only [Prod.mk.injEq, Option.some.injEq, true_and] at ht1
    subst ht1
    obtain ⟨c2, hout2, hc2⟩ := a5 0 chunk (by rw [hchunks]; rfl)
    rw [hsize, hps, hout] at hout2
    cases hout2
    have hlist : tree1.chunks = [c1] := by
      rw [hsize] at a4
      match hl : tree1.chunks, a4, hc2 with
      | [x], _, h => rw [hl] at hc2; simpa using hc2
    obtain ⟨text, hid, fid, htoken, ftoken, _, f2, f3, f4, _, f6, _, f8, f9⟩ :=
      chunkOut_feature_list delim sel tree chunk c1 _ _ _ hout
    obtain ⟨rfl, rfl⟩ := hfh hid fid f2
    rw [htok] at f3 f4
    cases f3
    cases f4
    rw [hflags, hitems, List.nil_append] at f6
    have hgood : ∀ it ∈ [ascii "F_H0:" ++ tok.normalized_surface,
        ascii "F_F0:" ++ tok.normalized_surface, ascii "A:", ascii "B:", ascii "F_BOS:1",
        ascii "F_EOS:1"], it ≠ [] ∧ 32 ∉ it := by
      intro it hit
      simp only [List.mem_cons, List.mem_singleton, List.not_mem_nil, or_false] at hit
      rcases hit with rfl | rfl | rfl | rfl | rfl | rfl
      · exact item_good _ _ (by decide) (by decide) hsp
      · exact item_good _ _ (by decide) (by decide) hsp
      · decide
      · decide
      · decide
      · decide
    have hfeat : c1.feature_list = [ascii "F_H0:" ++ tok.normalized_surface,
        ascii "F_F0:" ++ tok.normalized_surface, ascii "A:", ascii "B:", ascii "F_BOS:1",
        ascii "F_EOS:1"] := by
      rw [f8, f9, f6, pieces_itemsText _ hgood]
      rfl
    obtain ⟨o1, o2, _⟩ := hoffs chunk c1 0 hone (by rw [hsize, hps]; exact hout)
    obtain ⟨_, _, _, _, _, _, _, _, _, _, _, _, _, _, _, _, g12⟩ :=
      chunkOut_some delim sel tree chunk c1 _ _ _ hout
    obtain ⟨s1, s2, s3⟩ := single_features_shape tok.normalized_surface
    refine ⟨tree1, c1, hparse, hlist, o1, o2, hfeat, ?_, ?_, ?_, ?_⟩
    · rw [g12, hfeat]; rfl
    · rw [hfeat]; exact s1
    · rw [hfeat]; exact s2
    · rw [hfeat]; exact s3

/-- C10 at the sentence `exTreeWatashi`, whose only chunk is the one token `私`. -/
theorem C10_single_token_chunk_witness :
    ∃ tree1 chunk1, exSel.parse (ascii "-") (some exTreeWatashi) = some (true, some tree1) ∧
      tree1.chunks = [chunk1] ∧ chunk1.head_pos = 0 ∧ chunk1.func_pos = 0 ∧
      chunk1.feature_list = [ascii "F_H0:" ++ [231, 167, 129], ascii "F_F0:" ++ [231, 167, 129],
        ascii "A:", ascii "B:", ascii "F_BOS:1", ascii "F_EOS:1"] ∧
      chunk1.feature_list_size = 6 ∧
      (∀ f ∈ chunk1.feature_list, ∀ k, 1 ≤ k → k ≤ 6 →
        ¬ (ascii "F_H" ++ decimal k ++ [58]) <+: f) ∧
      chunk1.feature_list.countP (fun f => (ascii "A:").isPrefixOf f) = 1 ∧
      chunk1.feature_list.countP (fun f => (ascii "B:").isPrefixOf f) = 1 :=
  (C10_single_token_chunk (ascii "-") exSel exTreeWatashi rfl).2 (exChunk 0 1)
    (exToken [231, 167, 129] (ascii "*,*,*,*") [STAR, STAR, STAR, STAR]) [231, 167, 129]
    rfl rfl rfl rfl rfl (by decide) (by decide) (by decide) (by decide) (by decide)
    (by decide) (by decide)

/-- C10 fails as stated on `exTreeSpace`: a Scheme A sentence whose only chunk has the
one token `a b`, with subfields `(*,*,*,*)`, a raw feature that prefix-matches none of
the patterns and a surface that matches no flag pattern; the stored feature list holds
`F_H0:a` and `b`, and not `F_H0:a b`. -/
theorem C10_counterexample :
    exSel.parse (ascii "-") (some exTreeSpace) = some (true, some exTreeSpaceParsed) ∧
    exTreeSpace.posset = PossetType.IPA ∧ exTreeSpace.chunks = [exChunk 0 1] ∧
    (exChunk 0 1).token_size = 1 ∧
    exTreeSpace.tokens[0]? =
      some (exToken (ascii "a b") (ascii "*,*,*,*") [STAR, STAR, STAR, STAR]) ∧
    exSel.pat_ipa_func_.prefix_match (ascii "*,*,*,*") = none ∧
    exSel.pat_ipa_head_.prefix_match (ascii "*,*,*,*") = none ∧
    exSel.pat_dyn_a_.prefix_match (ascii "*,*,*,*") = none ∧
    exSel.pat_case_.prefix_match (ascii "*,*,*,*") = none ∧
    exSel.pat_kutouten_.match_ (ascii "a b") = none ∧
    exSel.pat_open_bracket_.match_ (ascii "a b") = none ∧
    exSel.pat_close_bracket_.match_ (ascii "a b") = none ∧
    (∃ chunk1, exTreeSpaceParsed.chunks = [chunk1] ∧
      ascii "F_H0:" ++ ascii "a b" ∉ chunk1.feature_list) := by
  refine ⟨by decide, rfl, rfl, rfl, rfl, by decide, by decide, by decide, by decide,
    by decide, by decide, by decide, _, rfl, by decide⟩

/-- C11: under Scheme B (JUMAN), `findHead` returns the reference pair: `func` is the
index of the last token of the chunk whose raw feature does not prefix-match the
function-exclusion pattern, `head` the index of the last token whose raw feature does
not prefix-match the head-exclusion pattern, each the chunk's first token index if
there is no such token, each computed from its own pattern only and with no clamp;
`findHead` does return when the chunk's token range lies within the sentence; and in
a two-token chunk whose first token is not function-excluded and whose second token
is, `func` is the chunk's first token, whatever `head` is. -/
theorem C11_juman_find_head (sel : Selector) (tree : Tree) (chunk : Chunk)
    (hJ : tree.posset = PossetType.JUMAN) :
    (∀ hid fid, sel.findHead tree chunk = some (hid, fid) →
      (hid, fid) = findHeadRefB sel tree chunk) ∧
    (chunk.token_pos + chunk.token_size ≤ tree.tokens.length →
      sel.findHead tree chunk = some (findHeadRefB sel tree chunk)) ∧
    (∀ t0 t1 : Token, chunk.token_size = 2 → chunk.token_pos + 2 < SIZE_RANGE →
      tree.tokens[chunk.token_pos]? = some t0 →
      tree.tokens[chunk.token_pos + 1]? = some t1 →
      sel.pat_juman_func_.prefix_match t0.feature = none →
      (sel.pat_juman_func_.prefix_match t1.feature).isSome →
      ∃ hid, sel.findHead tree chunk = some (hid, chunk.token_pos)) := by
  have key : ∀ hid fid, sel.findHead tree chunk = some (hid, fid) →
      (hid, fid) = findHeadRefB sel tree chunk := by
    intro hid fid h
    obtain ⟨e1, e2⟩ := findHead_eq_last sel tree chunk hid fid h
    rw [hJ] at e1 e2
    rw [if_neg (by simp)] at e2
    rw [e1, e2]
    rfl
  have hdef : chunk.token_pos + chunk.token_size ≤ tree.tokens.length →
      sel.findHead tree chunk = some (findHeadRefB sel tree chunk) := by
    intro hwf
    have hspan := chunkSpan_le chunk
    obtain ⟨hid, fid, h⟩ := findHead_defined sel tree chunk (by omega)
    rw [h, key hid fid h]
  refine ⟨key, hdef, ?_⟩
  intro t0 t1 hsz hlt h0 h1 hf0 hf1
  have hlen : chunk.token_pos + 1 < tree.tokens.length := by
    by_contra hcon
    rw [List.getElem?_eq_none (by omega)] at h1
    exact absurd h1 (by simp)
  have hspan : chunkSpan chunk = 2 := by
    rw [chunkSpan_eq chunk (by omega), hsz]
  refine ⟨(findHeadRefB sel tree chunk).1, ?_⟩
  rw [hdef (by omega)]
  have hfunc : (findHeadRefB sel tree chunk).2 = chunk.token_pos := by
    simp only [findHeadRefB, lastIndexOr, hspan]
    have e : List.range' chunk.token_pos 2 = [chunk.token_pos, chunk.token_pos + 1] := rfl
    rw [e]
    have hf1n : sel.pat_juman_func_.prefix_match t1.feature ≠ none :=
      Option.isSome_iff_ne_none.1 hf1
    simp [List.filter_cons, tokenPasses, h0, h1, hf0, hf1n]
  rw [← hfunc]

/-- C11 at `exTreeJuman`: `head` is the second token and `func` the first, so no
clamp has set `func` to `head`. -/
theorem C11_juman_find_head_witness :
    exSel.findHead exTreeJuman (exChunk 0 2) = some (1, 0) ∧
    ∃ hid, exSel.findHead exTreeJuman (exChunk 0 2) = some (hid, (exChunk 0 2).token_pos) :=
  ⟨by decide,
   (C11_juman_find_head exSel exTreeJuman (exChunk 0 2) rfl).2.2
     (exToken (ascii "x") (ascii "n,*") [ascii "n", STAR])
     (exToken (ascii "y") (ascii "f,*") [ascii "f", STAR])
     rfl (by decide) rfl rfl (by decide) (by decide)⟩

/-- C12, as the code has it: the fields `parse` writes for the function token follow the
same pattern as for the head token: `F_F0` with its normalized surface, `F_F{k+1}` for
its leading basic subfields, and then `F_F5` for the subfield at index
`basicFieldCount` and `F_F6` for the one at `basicFieldCount + 1`, each written exactly
when the index is within the declared count and the subfield is not `*`. They stand
between the head fields and `A` in the text written, and, when the token strings hold
no space and the text holds at most 256 feature tokens, in the stored feature list. -/
theorem C12_func_fields (delim : CStr) (sel : Selector) (tree : Tree) (i : Nat)
    (chunk : Chunk) (text : CStr) (hid fid : Nat)
    (hc : tree.chunks[i]? = some chunk)
    (ht : sel.featureText delim tree tree.chunks.length (posSize tree) i chunk =
      some (text, hid, fid)) :
    ∃ htoken ftoken, tree.tokens[hid]? = some htoken ∧ tree.tokens[fid]? = some ftoken ∧
      text = itemsText ((chunkTokens tree chunk).flatMap (flagItems sel) ++
        headFieldsRef (posSize tree) htoken ++ funcFieldsRef (posSize tree) ftoken ++
        tailItems delim sel tree.chunks.length (posSize tree) i htoken ftoken) ∧
      (∀ v, ftoken.feature_list[posSize tree]? = some v → v ≠ STAR →
        ascii "F_F5:" ++ v ∈ funcFieldsRef (posSize tree) ftoken) ∧
      (∀ v, ftoken.feature_list[posSize tree + 1]? = some v → v ≠ STAR →
        ascii "F_F6:" ++ v ∈ funcFieldsRef (posSize tree) ftoken) ∧
      ((ftoken.feature_list[posSize tree]? = none ∨
          ftoken.feature_list[posSize tree]? = some STAR) →
        conjFieldRef (ascii "F_F5:") ftoken.feature_list (posSize tree) = []) ∧
      ((ftoken.feature_list[posSize tree + 1]? = none ∨
          ftoken.feature_list[posSize tree + 1]? = some STAR) →
        conjFieldRef (ascii "F_F6:") ftoken.feature_list (posSize tree + 1) = []) ∧
      (∀ tree1, SpaceFree delim tree →
        sel.parse delim (some tree) = some (true, some tree1) →
        (pieces [32] (text.drop 1)).length ≤ kFeatureSize →
        ∃ chunk1, tree1.chunks[i]? = some chunk1 ∧
          chunk1.feature_list = (chunkTokens tree chunk).flatMap (flagItems sel) ++
            headFieldsRef (posSize tree) htoken ++ funcFieldsRef (posSize tree) ftoken ++
            tailItems delim sel tree.chunks.length (posSize tree) i htoken ftoken) := by
  obtain ⟨htoken, ftoken, h1, h2, _, h4, h5⟩ :=
    emitted_and_stored delim sel tree i chunk text hid fid hc ht
  refine ⟨htoken, ftoken, h1, h2, h4, ?_, ?_, conjFieldRef_none _ _ _, conjFieldRef_none _ _ _,
    ?_⟩
  · intro v hv hne
    unfold funcFieldsRef
    simp only [List.mem_append]
    exact Or.inl (Or.inr (conjFieldRef_mem _ _ _ v hv hne))
  · intro v hv hne
    unfold funcFieldsRef
    simp only [List.mem_append]
    exact Or.inr (conjFieldRef_mem _ _ _ v hv hne)
  · intro tree1 hsf hparse hcount
    obtain ⟨chunk1, g1, g2, _⟩ := h5 tree1 hsf hparse hcount
    exact ⟨chunk1, g1, g2⟩

/-- C12 at `exTreeConj`: the function-token fields are `F_F0:x`, `F_F1:v`, `F_F2:j`,
`F_F5:g`, `F_F6:k`. -/
theorem C12_func_fields_witness :
    funcFieldsRef 4 (exToken (ascii "x") (ascii "v,j,*,*,g,k")
      [ascii "v", ascii "j", STAR, STAR, ascii "g", ascii "k"]) =
      [ascii "F_F0:x", ascii "F_F1:v", ascii "F_F2:j", ascii "F_F5:g", ascii "F_F6:k"] ∧
    ∃ htoken ftoken, exTreeConj.tokens[0]? = some htoken ∧
      exTreeConj.tokens[0]? = some ftoken ∧
      itemsText exConjItems = itemsText ((chunkTokens exTreeConj (exChunk 0 1)).flatMap
        (flagItems exSel) ++ headFieldsRef (posSize exTreeConj) htoken ++
        funcFieldsRef (posSize exTreeConj) ftoken ++
        tailItems (ascii "-") exSel exTreeConj.chunks.length (posSize exTreeConj) 0 htoken
          ftoken) ∧
      (∀ v, ftoken.feature_list[posSize exTreeConj]? = some v → v ≠ STAR →
        ascii "F_F5:" ++ v ∈ funcFieldsRef (posSize exTreeConj) ftoken) ∧
      (∀ v, ftoken.feature_list[posSize exTreeConj + 1]? = some v → v ≠ STAR →
        ascii "F_F6:" ++ v ∈ funcFieldsRef (posSize exTreeConj) ftoken) ∧
      ((ftoken.feature_list[posSize exTreeConj]? = none ∨
          ftoken.feature_list[posSize exTreeConj]? = some STAR) →
        conjFieldRef (ascii "F_F5:") ftoken.feature_list (posSize exTreeConj) = []) ∧
      ((ftoken.feature_list[posSize exTreeConj + 1]? = none ∨
          ftoken.feature_list[posSize exTreeConj + 1]? = some STAR) →
        conjFieldRef (ascii "F_F6:") ftoken.feature_list (posSize exTreeConj + 1) = []) ∧
      (∀ tree1, SpaceFree (ascii "-") exTreeConj →
        exSel.parse (ascii "-") (some exTreeConj) = some (true, some tree1) →
        (pieces [32] ((itemsText exConjItems).drop 1)).length ≤ kFeatureSize →
        ∃ chunk1, tree1.chunks[0]? = some chunk1 ∧
          chunk1.feature_list = (chunkTokens exTreeConj (exChunk 0 1)).flatMap
            (flagItems exSel) ++ headFieldsRef (posSize exTreeConj) htoken ++
            funcFieldsRef (posSize exTreeConj) ftoken ++
            tailItems (ascii "-") exSel exTreeConj.chunks.length (posSize exTreeConj) 0
              htoken ftoken) :=
  ⟨by decide,
   C12_func_fields (ascii "-") exSel exTreeConj 0 (exChunk 0 1) (itemsText exConjItems) 0 0
     (by decide) (by decide)⟩

/-- C12 fails as stated on `exTreeConj`, whose token strings hold no space: the
function token of its chunk has the conjugation type `g` and the conjugation form `k`
right after its four basic subfields, and the stored feature list holds `F_F5:g` and
`F_F6:k`. -/
theorem C12_counterexample :
    exSel.parse (ascii "-") (some exTreeConj) = some (true, some exTreeConjParsed) ∧
    exSel.findHead exTreeConj (exChunk 0 1) = some (0, 0) ∧
    SpaceFree (ascii "-") exTreeConj ∧
    (∃ chunk1, exTreeConjParsed.chunks[0]? = some chunk1 ∧
      ascii "F_F5:g" ∈ chunk1.feature_list ∧ ascii "F_F6:k" ∈ chunk1.feature_list) := by
  refine ⟨exTreeConj_parse, by decide, ⟨by decide, ?_⟩, _, rfl, by decide, by decide⟩
  intro tok htok
  have : tok = exToken (ascii "x") (ascii "v,j,*,*,g,k")
      [ascii "v", ascii "j", STAR, STAR, ascii "g", ascii "k"] := by
    simpa [exTreeConj] using htok
  subst this
  exact ⟨by decide, by decide⟩

/-- C13: the text `parse` writes for a chunk is that of the flags, the head-token
fields, the function-token fields, then one `A` feature, then `B`, the case flag and
the boundary flags; none of the features before or after that `A` feature starts with
`A:`, so exactly one `A` feature is written. Its value is chosen by priority: the
function token's normalized surface if its raw feature prefix-matches the
dynamic-class-A pattern (also when a conjugation form is there); else the subfield at
index `basicFieldCount + 1` if it is within the declared count and not `*`; else the
concatenation of the function token's basic subfields up to the first `*`. When the
token strings hold no space and the text holds at most 256 feature tokens, the stored
feature list is that list of features. -/
theorem C13_class_a (delim : CStr) (sel : Selector) (tree : Tree) (i : Nat)
    (chunk : Chunk) (text : CStr) (hid fid : Nat)
    (hc : tree.chunks[i]? = some chunk)
    (ht : sel.featureText delim tree tree.chunks.length (posSize tree) i chunk =
      some (text, hid, fid)) :
    ∃ htoken ftoken, tree.tokens[hid]? = some htoken ∧
      tree.tokens[fid]? = some ftoken ∧
      text = itemsText (((chunkTokens tree chunk).flatMap (flagItems sel) ++
          headFieldsRef (posSize tree) htoken ++ funcFieldsRef (posSize tree) ftoken) ++
        [ascii "A:" ++ classAValueRef delim sel (posSize tree) ftoken] ++
        ([ascii "B:" ++ concat_feature delim htoken (posSize tree)] ++
          (if (sel.pat_case_.prefix_match ftoken.feature).isSome then
            [ascii "G_CASE:" ++ ftoken.normalized_surface] else []) ++
          (if i = 0 then [ascii "F_BOS:1"] else []) ++
          (if i = tree.chunks.length - 1 then [ascii "F_EOS:1"] else []))) ∧
      (∀ it ∈ ((chunkTokens tree chunk).flatMap (flagItems sel) ++
          headFieldsRef (posSize tree) htoken ++ funcFieldsRef (posSize tree) ftoken) ++
        ([ascii "B:" ++ concat_feature delim htoken (posSize tree)] ++
          (if (sel.pat_case_.prefix_match ftoken.feature).isSome then
            [ascii "G_CASE:" ++ ftoken.normalized_surface] else []) ++
          (if i = 0 then [ascii "F_BOS:1"] else []) ++
          (if i = tree.chunks.length - 1 then [ascii "F_EOS:1"] else [])),
        (ascii "A:").isPrefixOf it = false) ∧
      ((sel.pat_dyn_a_.prefix_match ftoken.feature).isSome →
        classAValueRef delim sel (posSize tree) ftoken = ftoken.normalized_surface) ∧
      (∀ f, sel.pat_dyn_a_.prefix_match ftoken.feature = none →
        ftoken.feature_list[posSize tree + 1]? = some f → f ≠ STAR →
        classAValueRef delim sel (posSize tree) ftoken = f) ∧
      (sel.pat_dyn_a_.prefix_match ftoken.feature = none →
        (ftoken.feature_list[posSize tree + 1]? = none ∨
          ftoken.feature_list[posSize tree + 1]? = some STAR) →
        classAValueRef delim sel (posSize tree) ftoken =
          List.intercalate delim
            ((ftoken.feature_list.take (posSize tree)).takeWhile (fun f => f != STAR))) ∧
      (∀ tree1, SpaceFree delim tree →
        sel.parse delim (some tree) = some (true, some tree1) →
        (pieces [32] (text.drop 1)).length ≤ kFeatureSize →
        ∃ chunk1, tree1.chunks[i]? = some chunk1 ∧
          chunk1.feature_list =
            ((chunkTokens tree chunk).flatMap (flagItems sel) ++
              headFieldsRef (posSize tree) htoken ++ funcFieldsRef (posSize tree) ftoken) ++
            [ascii "A:" ++ classAValueRef delim sel (posSize tree) ftoken] ++
            ([ascii "B:" ++ concat_feature delim htoken (posSize tree)] ++
              (if (sel.pat_case_.prefix_match ftoken.feature).isSome then
                [ascii "G_CASE:" ++ ftoken.normalized_surface] else []) ++
              (if i = 0 then [ascii "F_BOS:1"] else []) ++
              (if i = tree.chunks.length - 1 then [ascii "F_EOS:1"] else [])) ∧
          chunk1.feature_list.countP (fun it => (ascii "A:").isPrefixOf it) = 1) := by
  obtain ⟨htoken, ftoken, h1, h2, h3, h4, h5⟩ :=
    emitted_and_stored delim sel tree i chunk text hid fid hc ht
  obtain ⟨_, hnamed⟩ := chunkItems_split delim sel tree tree.chunks.length (posSize tree) i
    (posSize_le tree) chunk htoken ftoken
  have hshape : (chunkTokens tree chunk).flatMap (flagItems sel) ++
      headFieldsRef (posSize tree) htoken ++ funcFieldsRef (posSize tree) ftoken ++
      tailItems delim sel tree.chunks.length (posSize tree) i htoken ftoken =
      ((chunkTokens tree chunk).flatMap (flagItems sel) ++
        headFieldsRef (posSize tree) htoken ++ funcFieldsRef (posSize tree) ftoken) ++
      [ascii "A:" ++ classAValueRef delim sel (posSize tree) ftoken] ++
      ([ascii "B:" ++ concat_feature delim htoken (posSize tree)] ++
        (if (sel.pat_case_.prefix_match ftoken.feature).isSome then
          [ascii "G_CASE:" ++ ftoken.normalized_surface] else []) ++
        (if i = 0 then [ascii "F_BOS:1"] else []) ++
        (if i = tree.chunks.length - 1 then [ascii "F_EOS:1"] else [])) := by
    unfold tailItems
    simp only [List.append_assoc]
  have hcount : ((chunkTokens tree chunk).flatMap (flagItems sel) ++
      headFieldsRef (posSize tree) htoken ++ funcFieldsRef (posSize tree) ftoken ++
      tailItems delim sel tree.chunks.length (posSize tree) i htoken ftoken).countP
        (fun it => (ascii "A:").isPrefixOf it) = 1 := by
    rw [List.countP_append, tailItems_count, List.countP_eq_zero.2]
    intro it hit
    rw [named_not_class_a it (hnamed it hit)]
    simp
  rw [hshape] at hcount h4
  refine ⟨htoken, ftoken, h1, h2, h4, ?_, ?_, ?_, ?_, ?_⟩
  · intro it hit
    rcases List.mem_append.1 hit with hit | hit
    · exact named_not_class_a it (hnamed it hit)
    · have e1 : ascii "A:" = [65, 58] := by decide
      have e2 : ascii "B:" = [66, 58] := by decide
      have e3 : ascii "G_CASE:" = [71, 95, 67, 65, 83, 69, 58] := by decide
      have e4 : ascii "F_BOS:1" = [70, 95, 66, 79, 83, 58, 49] := by decide
      have e5 : ascii "F_EOS:1" = [70, 95, 69, 79, 83, 58, 49] := by decide
      rw [e1]
      rw [e2, e3, e4, e5] at hit
      simp only [List.mem_append, List.mem_singleton] at hit
      rcases hit with ((hit | hit) | hit) | hit
      · subst hit
        simp [List.isPrefixOf]
      · split at hit
        · rw [List.mem_singleton] at hit
          subst hit
          simp [List.isPrefixOf]
        · simp at hit
      · split at hit
        · rw [List.mem_singleton] at hit
          subst hit
          simp [List.isPrefixOf]
        · simp at hit
      · split at hit
        · rw [List.mem_singleton] at hit
          subst hit
          simp [List.isPrefixOf]
        · simp at hit
  · intro hd
    simp [classAValueRef, hd]
  · intro f hd hf hne
    simp [classAValueRef, hd, hf, hne]
  · intro hd hf
    rcases hf with hf | hf <;> simp [classAValueRef, hd, hf]
  · intro tree1 hsf hparse hcnt
    obtain ⟨chunk1, g1, g2, _⟩ := h5 tree1 hsf hparse hcnt
    rw [hshape] at g2
    exact ⟨chunk1, g1, g2, by rw [g2]; exact hcount⟩

/-- C13 at `exTreeConj`, whose function token has the conjugation form `k` and no
class-A marker: the text written is that of the flags and fields, `A:k`, `B:v-j` and the
boundary flags, and nothing before or after `A:k` starts with `A:`. -/
theorem C13_class_a_witness :
    classAValueRef (ascii "-") exSel 4 (exToken (ascii "x") (ascii "v,j,*,*,g,k")
      [ascii "v", ascii "j", STAR, STAR, ascii "g", ascii "k"]) = ascii "k" ∧
    ∃ htoken ftoken, exTreeConj.tokens[0]? = some htoken ∧
      exTreeConj.tokens[0]? = some ftoken ∧
      itemsText exConjItems = itemsText (((chunkTokens exTreeConj (exChunk 0 1)).flatMap
            (flagItems exSel) ++
          headFieldsRef (posSize exTreeConj) htoken ++
          funcFieldsRef (posSize exTreeConj) ftoken) ++
        [ascii "A:" ++ classAValueRef (ascii "-") exSel (posSize exTreeConj) ftoken] ++
        ([ascii "B:" ++ concat_feature (ascii "-") htoken (posSize exTreeConj)] ++
          (if (exSel.pat_case_.prefix_match ftoken.feature).isSome then
            [ascii "G_CASE:" ++ ftoken.normalized_surface] else []) ++
          (if 0 = 0 then [ascii "F_BOS:1"] else []) ++
          (if 0 = exTreeConj.chunks.length - 1 then [ascii "F_EOS:1"] else []))) ∧
      (∀ it ∈ ((chunkTokens exTreeConj (exChunk 0 1)).flatMap (flagItems exSel) ++
          headFieldsRef (posSize exTreeConj) htoken ++
          funcFieldsRef (posSize exTreeConj) ftoken) ++
        ([ascii "B:" ++ concat_feature (ascii "-") htoken (posSize exTreeConj)] ++
          (if (exSel.pat_case_.prefix_match ftoken.feature).isSome then
            [ascii "G_CASE:" ++ ftoken.normalized_surface] else []) ++
          (if 0 = 0 then [ascii "F_BOS:1"] else []) ++
          (if 0 = exTreeConj.chunks.length - 1 then [ascii "F_EOS:1"] else [])),
        (ascii "A:").isPrefixOf it = false) :=
  ⟨by decide,
   let ⟨htoken, ftoken, h1, h2, h3, h4, _⟩ :=
     C13_class_a (ascii "-") exSel exTreeConj 0 (exChunk 0 1) (itemsText exConjItems) 0 0
       (by decide) (by decide)
   ⟨htoken, ftoken, h1, h2, h3, h4⟩⟩

/-- C14, as the code has it: for a sentence of `n >= 1` chunks whose token strings hold
no space, when `parse` returns (every feature text fits its buffer) and the feature
text of chunk `i` holds at most `kFeatureSize` = 256 feature tokens, the stored
feature list of chunk `i` contains `F_BOS:1` if and only if `i = 0` and `F_EOS:1` if
and only if `i = n - 1`; in a one-chunk sentence the list ends with `F_BOS:1`,
`F_EOS:1`. -/
theorem C14_boundary_flags (delim : CStr) (sel : Selector) (tree tree1 : Tree) (i : Nat)
    (chunk : Chunk) (text : CStr) (hid fid : Nat)
    (hparse : sel.parse delim (some tree) = some (true, some tree1))
    (hc : tree.chunks[i]? = some chunk)
    (ht : sel.featureText delim tree tree.chunks.length (posSize tree) i chunk =
      some (text, hid, fid))
    (hsf : SpaceFree delim tree)
    (hcount : (pieces [32] (text.drop 1)).length ≤ kFeatureSize) :
    ∃ chunk1, tree1.chunks[i]? = some chunk1 ∧
      (ascii "F_BOS:1" ∈ chunk1.feature_list ↔ i = 0) ∧
      (ascii "F_EOS:1" ∈ chunk1.feature_list ↔ i = tree.chunks.length - 1) ∧
      (tree.chunks.length = 1 →
        ∃ pre, chunk1.feature_list = pre ++ [ascii "F_BOS:1", ascii "F_EOS:1"]) := by
  obtain ⟨htoken, ftoken, _, _, _, _, h5⟩ :=
    emitted_and_stored delim sel tree i chunk text hid fid hc ht
  obtain ⟨_, hnamed⟩ := chunkItems_split delim sel tree tree.chunks.length (posSize tree) i
    (posSize_le tree) chunk htoken ftoken
  obtain ⟨chunk1, g1, g2, _⟩ := h5 tree1 hsf hparse hcount
  obtain ⟨b1, b2⟩ := bos_mem_tail delim sel tree.chunks.length (posSize tree) i htoken ftoken
  refine ⟨chunk1, g1, ?_, ?_, ?_⟩
  · rw [g2, List.mem_append, b1]
    constructor
    · rintro (h | h)
      · exact absurd rfl (boundary_not_named _ (hnamed _ h)).1
      · exact h
    · exact fun h => Or.inr h
  · rw [g2, List.mem_append, b2]
    constructor
    · rintro (h | h)
      · exact absurd rfl (boundary_not_named _ (hnamed _ h)).2
      · exact h
    · exact fun h => Or.inr h
  · intro hone
    have hi : i = 0 := by
      have : i < tree.chunks.length := by
        by_contra hcon
        rw [List.getElem?_eq_none (by omega)] at hc
        exact absurd hc (by simp)
      omega
    obtain ⟨pre, hpre⟩ := tailItems_only_chunk delim sel (posSize tree) htoken ftoken
    rw [g2, hone, hi, hpre]
    exact ⟨_, (List.append_assoc _ _ _).symm⟩

/-- C14 at the two chunks of `exTreeTwoChunks`: `F_BOS:1` is in the first chunk's
list only, `F_EOS:1` in the second chunk's list only. -/
theorem C14_boundary_flags_witness :
    (∃ chunk1, exTreeTwoChunksParsed.chunks[0]? = some chunk1 ∧
      (ascii "F_BOS:1" ∈ chunk1.feature_list ↔ 0 = 0) ∧
      (ascii "F_EOS:1" ∈ chunk1.feature_list ↔ 0 = exTreeTwoChunks.chunks.length - 1) ∧
      (exTreeTwoChunks.chunks.length = 1 →
        ∃ pre, chunk1.feature_list = pre ++ [ascii "F_BOS:1", ascii "F_EOS:1"])) ∧
    (∃ chunk1, exTreeTwoChunksParsed.chunks[1]? = some chunk1 ∧
      (ascii "F_BOS:1" ∈ chunk1.feature_list ↔ 1 = 0) ∧
      (ascii "F_EOS:1" ∈ chunk1.feature_list ↔ 1 = exTreeTwoChunks.chunks.length - 1) ∧
      (exTreeTwoChunks.chunks.length = 1 →
        ∃ pre, chunk1.feature_list = pre ++ [ascii "F_BOS:1", ascii "F_EOS:1"])) :=
  ⟨C14_boundary_flags (ascii "-") exSel exTreeTwoChunks exTreeTwoChunksParsed 0 (exChunk 0 2)
     (itemsText [ascii "F_H0:x", ascii "F_H1:n", ascii "F_F0:y", ascii "F_F1:f", ascii "A:f",
       ascii "B:n", ascii "F_BOS:1"]) 0 1
     (by decide) (by decide) (by decide) (by unfold SpaceFree; decide) (by decide),
   C14_boundary_flags (ascii "-") exSel exTreeTwoChunks exTreeTwoChunksParsed 1 (exChunk 2 2)
     (itemsText [ascii "G_PUNC:" ++ [227, 128, 130], ascii "F_PUNC:" ++ [227, 128, 130],
       ascii "F_H0:" ++ [227, 128, 130], ascii "F_H1:k", ascii "F_F0:" ++ [227, 128, 130],
       ascii "F_F1:k", ascii "A:k", ascii "B:k", ascii "F_EOS:1"]) 3 3
     (by decide) (by decide) (by decide) (by unfold SpaceFree; decide) (by decide)⟩

/-- C14 fails as stated on `exTreeManyFlags`, a sentence of one chunk whose token
strings and pattern literals hold no space and whose feature text fits the buffer
(`parse` returns): the 256 feature tokens stored for its chunk are bracket flags, and
neither `F_BOS:1` nor `F_EOS:1`, written last, is among them. -/
theorem C14_counterexample :
    exSel.parse (ascii "-") (some exTreeManyFlags) = some (true, some exTreeManyFlagsParsed) ∧
    exTreeManyFlags.chunks.length = 1 ∧
    SpaceFree (ascii "-") exTreeManyFlags ∧
    (∀ tok ∈ exTreeManyFlags.tokens, 32 ∉ tok.surface ∧ 32 ∉ tok.feature) ∧
    (∀ P ∈ [exSel.pat_ipa_func_, exSel.pat_ipa_head_, exSel.pat_juman_func_,
        exSel.pat_juman_head_, exSel.pat_kutouten_, exSel.pat_open_bracket_,
        exSel.pat_close_bracket_, exSel.pat_dyn_a_, exSel.pat_case_],
      ∀ p ∈ P.patterns_, 32 ∉ p) ∧
    (∃ chunk1, exTreeManyFlagsParsed.chunks[0]? = some chunk1 ∧
      ascii "F_BOS:1" ∉ chunk1.feature_list ∧ ascii "F_EOS:1" ∉ chunk1.feature_list) := by
  refine ⟨exTreeManyFlags_parse, rfl, by unfold SpaceFree; decide!, by decide!, by decide,
    _, rfl, by decide!, by decide!⟩

/-- The feature text of a chunk is defined when its token range and its first token
lie within the sentence. -/
theorem featureText_defined (delim : CStr) (sel : Selector) (tree : Tree) (c : Chunk)
    (size pos_size i : Nat)
    (h1 : c.token_pos + c.token_size ≤ tree.tokens.length)
    (h2 : c.token_pos < tree.tokens.length) :
    ∃ text hid fid, sel.featureText delim tree size pos_size i c = some (text, hid, fid) := by
  have hspan := chunkSpan_le c
  obtain ⟨flags, hflags⟩ := flagLoop_defined sel tree (chunkSpan c) c.token_pos [] (by omega)
  obtain ⟨hid, fid, hfh⟩ := findHead_defined sel tree c (by omega)
  obtain ⟨r1, r2⟩ := findHead_range sel tree c hid fid hfh
  have hh : hid < tree.tokens.length := by omega
  have hf : fid < tree.tokens.length := by omega
  unfold Selector.featureText
  rw [hflags, hfh]
  simp only [List.getElem?_eq_getElem hh, List.getElem?_eq_getElem hf]
  exact ⟨_, _, _, rfl⟩

/-- C15, as the code has it: on a non-null sentence `parse` never returns failure, and
when it returns it has set the stage marker to `OUTPUT_SELECTION` and left every token,
the tagset, the chunk count and every chunk's token range as they were, so that only
the head offset, the function offset, the feature list and its count of each chunk can
differ; it does return when, for every chunk, the token range and the first token lie
within the sentence and the feature text, with its terminating NUL, fits the 2048-byte
buffer. -/
theorem C15_parse_frame (delim : CStr) (sel : Selector) (tree : Tree) :
    (∀ r, sel.parse delim (some tree) = some r →
      ∃ tree1, r = (true, some tree1) ∧
        tree1.output_layer = OutputLayerType.OUTPUT_SELECTION ∧
        tree1.tokens = tree.tokens ∧ tree1.posset = tree.posset ∧
        tree1.chunks.length = tree.chunks.length ∧
        tree1.chunks.map Chunk.range = tree.chunks.map Chunk.range) ∧
    ((∀ i chunk, tree.chunks[i]? = some chunk →
        chunk.token_pos + chunk.token_size ≤ tree.tokens.length ∧
        chunk.token_pos < tree.tokens.length ∧
        ∀ text hid fid,
          sel.featureText delim tree tree.chunks.length (posSize tree) i chunk =
            some (text, hid, fid) → text.length + 1 ≤ FEATURE_BUF) →
      ∃ tree1, sel.parse delim (some tree) = some (true, some tree1)) := by
  constructor
  · intro r hr
    obtain ⟨tree1, rfl, a1, a2, a3, a4, a5⟩ := parse_some delim sel tree r hr
    refine ⟨tree1, rfl, a3, a1, a2, a4, ?_⟩
    apply List.ext_getElem?
    intro k
    simp only [List.getElem?_map]
    by_cases hk : k < tree.chunks.length
    · obtain ⟨c1, hout, hc1⟩ := a5 k _ (List.getElem?_eq_getElem hk)
      obtain ⟨e1, e2⟩ := chunkOut_range delim sel tree _ c1 _ _ _ hout
      rw [hc1, List.getElem?_eq_getElem hk]
      simp only [Option.map_some', Chunk.range, e1, e2]
    · rw [List.getElem?_eq_none (by omega), List.getElem?_eq_none (by omega)]
  · intro hall
    apply parse_defined
    intro k c hc
    obtain ⟨h1, h2, h3⟩ := hall k c hc
    obtain ⟨text, hid, fid, ht⟩ :=
      featureText_defined delim sel tree c tree.chunks.length (posSize tree) k h1 h2
    exact chunkOut_of_fits delim sel tree c _ _ k text hid fid ht (h3 text hid fid ht)

/-- C15 at `exTreeTwoChunks`, whose chunks lie within its four tokens and whose feature
texts are short: `parse` returns success. -/
theorem C15_parse_frame_witness :
    ∃ tree1, exSel.parse (ascii "-") (some exTreeTwoChunks) = some (true, some tree1) :=
  (C15_parse_frame (ascii "-") exSel exTreeTwoChunks).2 (by
    intro i chunk hc
    have hi : i = 0 ∨ i = 1 := by
      have : i < 2 := by
        by_contra hcon
        rw [List.getElem?_eq_none (by simpa [exTreeTwoChunks] using hcon)] at hc
        exact absurd hc (by simp)
      omega
    rcases hi with rfl | rfl
    · have hch : chunk = exChunk 0 2 := by simpa [exTreeTwoChunks] using hc.symm
      subst hch
      refine ⟨by decide, by decide, ?_⟩
      intro text hid fid ht
      have : exSel.featureText (ascii "-") exTreeTwoChunks exTreeTwoChunks.chunks.length
          (posSize exTreeTwoChunks) 0 (exChunk 0 2) =
          some (itemsText [ascii "F_H0:x", ascii "F_H1:n", ascii "F_F0:y", ascii "F_F1:f",
            ascii "A:f", ascii "B:n", ascii "F_BOS:1"], 0, 1) := by decide
      rw [this] at ht
      cases ht
      decide
    · have hch : chunk = exChunk 2 2 := by simpa [exTreeTwoChunks] using hc.symm
      subst hch
      refine ⟨by decide, by decide, ?_⟩
      intro text hid fid ht
      have : exSel.featureText (ascii "-") exTreeTwoChunks exTreeTwoChunks.chunks.length
          (posSize exTreeTwoChunks) 1 (exChunk 2 2) =
          some (itemsText [ascii "G_PUNC:" ++ [227, 128, 130],
            ascii "F_PUNC:" ++ [227, 128, 130], ascii "F_H0:" ++ [227, 128, 130],
            ascii "F_H1:k", ascii "F_F0:" ++ [227, 128, 130], ascii "F_F1:k", ascii "A:k",
            ascii "B:k", ascii "F_EOS:1"], 3, 3) := by decide
      rw [this] at ht
      cases ht
      decide)

/-- C15 fails as stated on `exTreeLong`, a sentence whose one chunk lies within its one
token: the feature text of the chunk is 2234 bytes long and does not fit the 2048-byte
buffer with its terminating NUL, and `parse` does not return success with a sentence
whose feature list is the split of that text. -/
theorem C15_counterexample :
    exTreeLong.chunks = [exChunk 0 1] ∧ exTreeLong.tokens.length = 1 ∧
    (∃ text, exSel.featureText (ascii "-") exTreeLong 1 4 0 (exChunk 0 1) =
        some (text, 0, 0) ∧ text.length = 2234 ∧ ¬ (text.length + 1 ≤ FEATURE_BUF)) ∧
    exSel.parse (ascii "-") (some exTreeLong) = none ∧
    ¬ ∃ tree1, exSel.parse (ascii "-") (some exTreeLong) = some (true, some tree1) := by
  have hp : exSel.parse (ascii "-") (some exTreeLong) = none := by decide!
  refine ⟨rfl, rfl, ⟨itemsText [ascii "F_H0:" ++ List.replicate 1100 97,
    ascii "F_F0:" ++ List.replicate 1100 97, ascii "A:", ascii "B:", ascii "F_BOS:1",
    ascii "F_EOS:1"], by decide!, by decide!, by decide!⟩, hp, ?_⟩
  rintro ⟨t, ht⟩
  rw [hp] at ht
  exact absurd ht (by simp)

/-- C16: under Scheme A (IPA), `findHead` returns the reference pair: with `f0` the
index of the last token whose raw feature prefix-matches the function-word pattern
and `head` the index of the last token whose raw feature prefix-matches neither the
function-word nor the head-exclusion pattern (each the chunk's first token index if
there is none), `func` is `f0` if `head <= f0` and `head` otherwise; `findHead` does
return when the chunk's token range lies within the sentence; and a token that
matches the function-word pattern is chosen as head only if it is the chunk's first
token. -/
theorem C16_ipa_find_head (sel : Selector) (tree : Tree) (chunk : Chunk)
    (hA : tree.posset = PossetType.IPA) :
    (∀ hid fid, sel.findHead tree chunk = some (hid, fid) →
      (hid, fid) = findHeadRefA sel tree chunk) ∧
    (chunk.token_pos + chunk.token_size ≤ tree.tokens.length →
      sel.findHead tree chunk = some (findHeadRefA sel tree chunk)) ∧
    (∀ hid fid t, sel.findHead tree chunk = some (hid, fid) →
      tree.tokens[hid]? = some t →
      (sel.pat_ipa_func_.prefix_match t.feature).isSome → hid = chunk.token_pos) := by
  have key : ∀ hid fid, sel.findHead tree chunk = some (hid, fid) →
      (hid, fid) = findHeadRefA sel tree chunk := by
    intro hid fid h
    obtain ⟨e1, e2⟩ := findHead_eq_last sel tree chunk hid fid h
    rw [hA] at e1 e2
    have hh : headTest sel PossetType.IPA = (fun t =>
        !(sel.pat_ipa_func_.prefix_match t.feature).isSome &&
          !(sel.pat_ipa_head_.prefix_match t.feature).isSome) := rfl
    have hf : funcTest sel PossetType.IPA =
        (fun t => (sel.pat_ipa_func_.prefix_match t.feature).isSome) := rfl
    rw [hh] at e1 e2
    rw [hf] at e2
    rw [e1, e2]
    unfold findHeadRefA
    dsimp only
    generalize lastIndexOr tree.tokens chunk.token_pos (chunkSpan chunk) (fun t =>
        !(sel.pat_ipa_func_.prefix_match t.feature).isSome &&
          !(sel.pat_ipa_head_.prefix_match t.feature).isSome) = H
    generalize lastIndexOr tree.tokens chunk.token_pos (chunkSpan chunk)
        (fun t => (sel.pat_ipa_func_.prefix_match t.feature).isSome) = F
    by_cases hle : H ≤ F
    · rw [if_neg (by omega), if_pos hle]
    · rw [if_pos ⟨rfl, by omega⟩, if_neg hle]
  refine ⟨key, ?_, ?_⟩
  · intro hwf
    have hspan := chunkSpan_le chunk
    obtain ⟨hid, fid, h⟩ := findHead_defined sel tree chunk (by omega)
    rw [h, key hid fid h]
  · intro hid fid t h ht hfunc
    obtain ⟨e1, _⟩ := findHead_eq_last sel tree chunk hid fid h
    rw [hA] at e1
    rcases lastIndexOr_cases tree.tokens chunk.token_pos (chunkSpan chunk)
      (headTest sel PossetType.IPA) with h1 | ⟨_, _, t1, ht1, hpass⟩
    · rw [e1, h1]
    · rw [← e1, ht] at ht1
      cases ht1
      simp [headTest, hfunc] at hpass

/-- C16 at `exTreeFuncFirst`, whose function word comes first: `f0 = 0`, `head = 1`,
so `func = head = 1`. -/
theorem C16_ipa_find_head_witness :
    exSel.findHead exTreeFuncFirst (exChunk 0 2) = some (1, 1) ∧
    ((1, 1) : Nat × Nat) = findHeadRefA exSel exTreeFuncFirst (exChunk 0 2) :=
  ⟨by decide,
   (C16_ipa_find_head exSel exTreeFuncFirst (exChunk 0 2) rfl).1 1 1 (by decide)⟩

/-- C17: the text `parse` writes for a chunk is that of the flags, then the head-token
fields, then the function-token fields and the tail, and the head-token fields are
exactly, in this order, `F_H0:<head normalized surface>`, then `F_H{k+1}:<subfield k>`
for `k = 0, 1, ...` while `k < min(basicFieldCount, declared subfield count)` and
subfield `k` is not `*`, then `F_H5` for the subfield at index `basicFieldCount` and
`F_H6` for the one at `basicFieldCount + 1`, each if the index is within the declared
count and the subfield is not `*`; `basicFieldCount` is 4 under Scheme A and 2
otherwise. No flag, function-token field or tail feature is named `F_H0` to `F_H6`.
When the token strings hold no space and the text holds at most 256 feature tokens,
the stored feature list is that list of features. -/
theorem C17_head_fields (delim : CStr) (sel : Selector) (tree : Tree) (i : Nat)
    (chunk : Chunk) (text : CStr) (hid fid : Nat)
    (hc : tree.chunks[i]? = some chunk)
    (ht : sel.featureText delim tree tree.chunks.length (posSize tree) i chunk =
      some (text, hid, fid)) :
    posSize tree = (if tree.posset = PossetType.IPA then 4 else 2) ∧
    ∃ htoken ftoken, tree.tokens[hid]? = some htoken ∧
      tree.tokens[fid]? = some ftoken ∧
      text = itemsText ((chunkTokens tree chunk).flatMap (flagItems sel) ++
        ([ascii "F_H0:" ++ htoken.normalized_surface] ++
          basicFieldsRef (ascii "F_H") (posSize tree) htoken.feature_list ++
          conjFieldRef (ascii "F_H5:") htoken.feature_list (posSize tree) ++
          conjFieldRef (ascii "F_H6:") htoken.feature_list (posSize tree + 1)) ++
        (funcFieldsRef (posSize tree) ftoken ++
          tailItems delim sel tree.chunks.length (posSize tree) i htoken ftoken)) ∧
      (∀ it ∈ [ascii "F_H0:" ++ htoken.normalized_surface] ++
          basicFieldsRef (ascii "F_H") (posSize tree) htoken.feature_list ++
          conjFieldRef (ascii "F_H5:") htoken.feature_list (posSize tree) ++
          conjFieldRef (ascii "F_H6:") htoken.feature_list (posSize tree + 1),
        Named headFieldNames it) ∧
      (∀ it ∈ (chunkTokens tree chunk).flatMap (flagItems sel) ++
          (funcFieldsRef (posSize tree) ftoken ++
            tailItems delim sel tree.chunks.length (posSize tree) i htoken ftoken),
        ¬ Named headFieldNames it) ∧
      (∀ tree1, SpaceFree delim tree →
        sel.parse delim (some tree) = some (true, some tree1) →
        (pieces [32] (text.drop 1)).length ≤ kFeatureSize →
        ∃ chunk1, tree1.chunks[i]? = some chunk1 ∧
          chunk1.feature_list = (chunkTokens tree chunk).flatMap (flagItems sel) ++
            ([ascii "F_H0:" ++ htoken.normalized_surface] ++
              basicFieldsRef (ascii "F_H") (posSize tree) htoken.feature_list ++
              conjFieldRef (ascii "F_H5:") htoken.feature_list (posSize tree) ++
              conjFieldRef (ascii "F_H6:") htoken.feature_list (posSize tree + 1)) ++
            (funcFieldsRef (posSize tree) ftoken ++
              tailItems delim sel tree.chunks.length (posSize tree) i htoken ftoken)) := by
  refine ⟨rfl, ?_⟩
  obtain ⟨htoken, ftoken, h1, h2, _, h4, h5⟩ :=
    emitted_and_stored delim sel tree i chunk text hid fid hc ht
  have hshape : (chunkTokens tree chunk).flatMap (flagItems sel) ++
      headFieldsRef (posSize tree) htoken ++ funcFieldsRef (posSize tree) ftoken ++
      tailItems delim sel tree.chunks.length (posSize tree) i htoken ftoken =
      (chunkTokens tree chunk).flatMap (flagItems sel) ++
        ([ascii "F_H0:" ++ htoken.normalized_surface] ++
          basicFieldsRef (ascii "F_H") (posSize tree) htoken.feature_list ++
          conjFieldRef (ascii "F_H5:") htoken.feature_list (posSize tree) ++
          conjFieldRef (ascii "F_H6:") htoken.feature_list (posSize tree + 1)) ++
        (funcFieldsRef (posSize tree) ftoken ++
          tailItems delim sel tree.chunks.length (posSize tree) i htoken ftoken) := by
    unfold headFieldsRef
    simp only [List.append_assoc]
  refine ⟨htoken, ftoken, h1, h2, by rw [h4, hshape],
    headFieldsRef_head (posSize tree) (posSize_le tree) htoken,
    not_head_field delim sel tree tree.chunks.length (posSize tree) i (posSize_le tree) chunk
      htoken ftoken, ?_⟩
  intro tree1 hsf hparse hcount
  obtain ⟨chunk1, g1, g2, _⟩ := h5 tree1 hsf hparse hcount
  exact ⟨chunk1, g1, by rw [g2, hshape]⟩

/-- C17 at `exTreeConj`, whose one token has the subfields `(v,j,*,*,g,k)`: the text
written is that of `F_H0:x`, `F_H1:v`, `F_H2:j`, `F_H5:g`, `F_H6:k` and then the
function-token fields and the tail. -/
theorem C17_head_fields_witness :
    itemsText exConjItems = itemsText ([ascii "F_H0:x", ascii "F_H1:v", ascii "F_H2:j",
      ascii "F_H5:g", ascii "F_H6:k"] ++ [ascii "F_F0:x", ascii "F_F1:v", ascii "F_F2:j",
      ascii "F_F5:g", ascii "F_F6:k", ascii "A:k", ascii "B:v-j", ascii "F_BOS:1",
      ascii "F_EOS:1"]) ∧
    (posSize exTreeConj = (if exTreeConj.posset = PossetType.IPA then 4 else 2) ∧
    ∃ htoken ftoken, exTreeConj.tokens[0]? = some htoken ∧
      exTreeConj.tokens[0]? = some ftoken ∧
      itemsText exConjItems = itemsText ((chunkTokens exTreeConj (exChunk 0 1)).flatMap
          (flagItems exSel) ++
        ([ascii "F_H0:" ++ htoken.normalized_surface] ++
          basicFieldsRef (ascii "F_H") (posSize exTreeConj) htoken.feature_list ++
          conjFieldRef (ascii "F_H5:") htoken.feature_list (posSize exTreeConj) ++
          conjFieldRef (ascii "F_H6:") htoken.feature_list (posSize exTreeConj + 1)) ++
        (funcFieldsRef (posSize exTreeConj) ftoken ++
          tailItems (ascii "-") exSel exTreeConj.chunks.length (posSize exTreeConj) 0 htoken
            ftoken)) ∧
      (∀ it ∈ [ascii "F_H0:" ++ htoken.normalized_surface] ++
          basicFieldsRef (ascii "F_H") (posSize exTreeConj) htoken.feature_list ++
          conjFieldRef (ascii "F_H5:") htoken.feature_list (posSize exTreeConj) ++
          conjFieldRef (ascii "F_H6:") htoken.feature_list (posSize exTreeConj + 1),
        Named headFieldNames it) ∧
      (∀ it ∈ (chunkTokens exTreeConj (exChunk 0 1)).flatMap (flagItems exSel) ++
          (funcFieldsRef (posSize exTreeConj) ftoken ++
            tailItems (ascii "-") exSel exTreeConj.chunks.length (posSize exTreeConj) 0
              htoken ftoken),
        ¬ Named headFieldNames it) ∧
      (∀ tree1, SpaceFree (ascii "-") exTreeConj →
        exSel.parse (ascii "-") (some exTreeConj) = some (true, some tree1) →
        (pieces [32] ((itemsText exConjItems).drop 1)).length ≤ kFeatureSize →
        ∃ chunk1, tree1.chunks[0]? = some chunk1 ∧
          chunk1.feature_list = (chunkTokens exTreeConj (exChunk 0 1)).flatMap
              (flagItems exSel) ++
            ([ascii "F_H0:" ++ htoken.normalized_surface] ++
              basicFieldsRef (ascii "F_H") (posSize exTreeConj) htoken.feature_list ++
              conjFieldRef (ascii "F_H5:") htoken.feature_list (posSize exTreeConj) ++
              conjFieldRef (ascii "F_H6:") htoken.feature_list (posSize exTreeConj + 1)) ++
            (funcFieldsRef (posSize exTreeConj) ftoken ++
              tailItems (ascii "-") exSel exTreeConj.chunks.length (posSize exTreeConj) 0
                htoken ftoken))) :=
  ⟨by decide,
   C17_head_fields (ascii "-") exSel exTreeConj 0 (exChunk 0 1) (itemsText exConjItems) 0 0
     (by decide) (by decide)⟩

theorem take_min_length (n : Nat) (l : List CStr) : l.take (min n l.length) = l.take n := by
  rcases Nat.le_total n l.length with h | h
  · rw [Nat.min_eq_left h]
  · rw [Nat.min_eq_right h, List.take_of_length_le h, List.take_of_length_le (Nat.le_refl _)]

/-- The feature tokens of the head and function token depend on their subfields through
`subfieldView` only. -/
theorem tokenItems_view (delim : CStr) (sel : Selector) (size pos_size i : Nat)
    (h h1 f f1 : Token) (hs : h.normalized_surface = h1.normalized_surface)
    (hv : subfieldView pos_size h = subfieldView pos_size h1)
    (fs : f.normalized_surface = f1.normalized_surface) (ff : f.feature = f1.feature)
    (fv : subfieldView pos_size f = subfieldView pos_size f1) :
    tokenItems delim sel size pos_size i h f = tokenItems delim sel size pos_size i h1 f1 := by
  simp only [subfieldView, Prod.mk.injEq] at hv fv
  obtain ⟨hv1, hv2, hv3⟩ := hv
  obtain ⟨fv1, fv2, fv3⟩ := fv
  unfold tokenItems concat_feature
  rw [take_min_length, take_min_length, take_min_length, take_min_length,
    fieldItems_takeWhile _ (h.feature_list.take pos_size),
    fieldItems_takeWhile _ (f.feature_list.take pos_size),
    fieldItems_takeWhile _ (h1.feature_list.take pos_size),
    fieldItems_takeWhile _ (f1.feature_list.take pos_size),
    hs, hv1, hv2, hv3, fs, ff, fv1, fv2, fv3]

/-- Replacing a subfield that comes after a `*` leaves the basic subfields read up to
the first `*` as they are. -/
theorem takeWhile_set_masked :
    ∀ (l : List CStr) (n i j : Nat) (x : CStr), i < j → l[i]? = some STAR →
      ((l.set j x).take n).takeWhile (fun f => f != STAR) =
        (l.take n).takeWhile (fun f => f != STAR) := by
  intro l
  induction l with
  | nil => intro n i j x _ h; simp at h
  | cons a t ih =>
    intro n i j x hij hi
    cases n with
    | zero => simp
    | succ n =>
      cases j with
      | zero => omega
      | succ j =>
        simp only [List.set_cons_succ, List.take_succ_cons]
        by_cases ha : a = STAR
        · subst ha
          simp [List.takeWhile_cons]
        · cases i with
          | zero =>
            simp only [List.getElem?_cons_zero, Option.some.injEq] at hi
            exact absurd hi ha
          | succ i =>
            simp only [List.getElem?_cons_succ] at hi
            rw [List.takeWhile_cons, List.takeWhile_cons, ih n i j x (by omega) hi]

theorem take_set_beyond :
    ∀ (l : List CStr) (n j : Nat) (x : CStr), n ≤ j → (l.set j x).take n = l.take n := by
  intro l
  induction l with
  | nil => intro n j x _; simp
  | cons a t ih =>
    intro n j x h
    cases n with
    | zero => simp
    | succ n =>
      cases j with
      | zero => omega
      | succ j =>
        simp only [List.set_cons_succ, List.take_succ_cons]
        rw [ih n j x (by omega)]

theorem get_token_set (tok : Token) (j id : Nat) (x : CStr) (h : j ≠ id) :
    get_token (setSubfield tok j x) id = get_token tok id := by
  rw [get_token_eq, get_token_eq]
  simp only [setSubfield, List.getElem?_set]
  rw [if_neg h]

/-- The subfield loop dereferences index `j` exactly when `j` is within the subfields it
ranges over and no subfield before `j` is `*`. -/
theorem fieldLoopReads_mem :
    ∀ (l : List CStr) (k j : Nat), j ∈ fieldLoopReads l k ↔
      ∃ m, j = k + m ∧ m < l.length ∧ ∀ n, n < m → l[n]? ≠ some STAR := by
  intro l
  induction l with
  | nil => intro k j; simp [fieldLoopReads]
  | cons f fs ih =>
    intro k j
    unfold fieldLoopReads
    by_cases hf : f = STAR
    · rw [if_pos hf, List.mem_singleton]
      constructor
      · intro h
        exact ⟨0, by omega, by simp, fun n hn => absurd hn (by omega)⟩
      · rintro ⟨m, hj, _, hall⟩
        cases m with
        | zero => omega
        | succ m => exact absurd (by simp [hf]) (hall 0 (by omega))
    · rw [if_neg hf, List.mem_cons, ih]
      constructor
      · rintro (h | ⟨m, hj, hm, hall⟩)
        · exact ⟨0, by omega, by simp, fun n hn => absurd hn (by omega)⟩
        · refine ⟨m + 1, by omega, by simp; omega, ?_⟩
          intro n hn
          cases n with
          | zero => simp [hf]
          | succ n => simpa using hall n (by omega)
      · rintro ⟨m, hj, hm, hall⟩
        cases m with
        | zero => exact Or.inl (by omega)
        | succ m =>
          refine Or.inr ⟨m, by omega, by simpa using hm, ?_⟩
          intro n hn
          simpa using hall (n + 1) (by omega)

/-- Two subfield lists of one length that agree at every index with no `*` before it
have the same subfields before the first `*`. -/
theorem takeWhile_agree :
    ∀ (l l1 : List CStr), l.length = l1.length →
      (∀ m, m < l.length → (∀ n, n < m → l[n]? ≠ some STAR) → l[m]? = l1[m]?) →
      l.takeWhile (fun f => f != STAR) = l1.takeWhile (fun f => f != STAR) := by
  intro l
  induction l with
  | nil =>
    intro l1 hlen _
    cases l1 with
    | nil => rfl
    | cons b t1 => simp at hlen
  | cons a t ih =>
    intro l1 hlen h
    cases l1 with
    | nil => simp at hlen
    | cons b t1 =>
      have hab : a = b := by
        have := h 0 (by simp) (fun n hn => absurd hn (by omega))
        simpa using this
      subst hab
      rw [List.takeWhile_cons, List.takeWhile_cons]
      by_cases ha : a = STAR
      · simp [ha]
      · have hp : (a != STAR) = true := by simp [ha]
        rw [hp, if_pos rfl, if_pos rfl]
        congr 1
        apply ih t1 (by simpa using hlen)
        intro m hm hall
        have := h (m + 1) (by simp; omega) (by
          intro n hn
          cases n with
          | zero => simp [ha]
          | succ n => simpa using hall n (by omega))
        simpa using this

/-- Every subfield index that `parse` dereferences is within the declared count and at
most `pos_size + 1`, and a basic index is dereferenced only if no subfield before it is
`*`. -/
theorem subfieldReads_bound (pos_size : Nat) (tok : Token) :
    ∀ k ∈ subfieldReads pos_size tok, k < tok.feature_list.length ∧ k ≤ pos_size + 1 ∧
      (k < pos_size → ∀ n, n < k → tok.feature_list[n]? ≠ some STAR) := by
  intro k hk
  unfold subfieldReads getTokenReads at hk
  simp only [List.mem_append] at hk
  rcases hk with (hk | hk) | hk
  · split at hk
    · simp at hk
    · rw [List.mem_singleton] at hk
      exact ⟨by omega, by omega, fun h => absurd h (by omega)⟩
  · split at hk
    · simp at hk
    · rw [List.mem_singleton] at hk
      exact ⟨by omega, by omega, fun h => absurd h (by omega)⟩
  · obtain ⟨m, hj, hm, hall⟩ := (fieldLoopReads_mem _ 0 k).1 hk
    have hkm : k = m := by omega
    subst hkm
    rw [List.length_take] at hm
    refine ⟨by omega, by omega, ?_⟩
    intro _ n hn
    have := hall n hn
    rwa [List.getElem?_take_of_lt (by omega)] at this

/-- The subfields at `pos_size` and `pos_size + 1` are dereferenced exactly when they
are within the declared count, whatever the subfields before them are. -/
theorem subfieldReads_conj (pos_size : Nat) (tok : Token) :
    (pos_size ∈ subfieldReads pos_size tok ↔ pos_size < tok.feature_list.length) ∧
    (pos_size + 1 ∈ subfieldReads pos_size tok ↔ pos_size + 1 < tok.feature_list.length) := by
  constructor
  · constructor
    · intro h
      exact (subfieldReads_bound pos_size tok _ h).1
    · intro h
      unfold subfieldReads getTokenReads
      simp only [List.mem_append]
      exact Or.inl (Or.inl (by rw [if_neg (by omega)]; simp))
  · constructor
    · intro h
      exact (subfieldReads_bound pos_size tok _ h).1
    · intro h
      unfold subfieldReads getTokenReads
      simp only [List.mem_append]
      exact Or.inl (Or.inr (by rw [if_neg (by omega)]; simp))

/-- What `parse` reads of a token's subfields is determined by the declared count and
the subfields at the indices it dereferences. -/
theorem subfieldReads_determine (pos_size : Nat) (tok tok1 : Token)
    (hlen : tok.feature_list.length = tok1.feature_list.length)
    (h : ∀ k ∈ subfieldReads pos_size tok, tok.feature_list[k]? = tok1.feature_list[k]?) :
    subfieldView pos_size tok = subfieldView pos_size tok1 := by
  have hat : ∀ id, id = pos_size ∨ id = pos_size + 1 →
      tok.feature_list[id]? = tok1.feature_list[id]? := by
    intro id hid
    by_cases hlt : id < tok.feature_list.length
    · apply h
      rcases hid with rfl | rfl
      · exact (subfieldReads_conj _ tok).1.2 hlt
      · exact (subfieldReads_conj _ tok).2.2 hlt
    · rw [List.getElem?_eq_none (by omega), List.getElem?_eq_none (by omega)]
  unfold subfieldView
  rw [get_token_eq, get_token_eq, get_token_eq, get_token_eq, hat _ (Or.inl rfl),
    hat _ (Or.inr rfl)]
  congr 1
  apply takeWhile_agree
  · simp only [List.length_take, hlen]
  · intro m hm hall
    rw [List.length_take] at hm
    rw [List.getElem?_take_of_lt (by omega), List.getElem?_take_of_lt (by omega)]
    apply h
    unfold subfieldReads
    simp only [List.mem_append]
    refine Or.inr ((fieldLoopReads_mem _ 0 m).2 ⟨m, by omega, ?_, ?_⟩)
    · rw [List.length_take]
      omega
    · intro n hn
      have := hall n hn
      rw [List.getElem?_take_of_lt (by omega)] at this
      rw [List.getElem?_take_of_lt (by omega)]
      exact this

theorem basicFieldsRef_set (name : CStr) (ps j : Nat) (fl : List CStr) (x : CStr)
    (h : ps ≤ j) : basicFieldsRef name ps (fl.set j x) = basicFieldsRef name ps fl := by
  unfold basicFieldsRef
  rw [List.length_set, take_set_beyond fl (min ps fl.length) j x (by omega)]

theorem conjFieldRef_set_ne (name : CStr) (fl : List CStr) (idx j : Nat) (x : CStr)
    (h : j ≠ idx) : conjFieldRef name (fl.set j x) idx = conjFieldRef name fl idx := by
  unfold conjFieldRef
  rw [List.getElem?_set_ne h]

theorem conjFieldRef_set_self (name : CStr) (fl : List CStr) (idx : Nat) (x : CStr)
    (h : idx < fl.length) (hx : x ≠ STAR) : conjFieldRef name (fl.set idx x) idx = [name ++ x] := by
  unfold conjFieldRef
  rw [List.getElem?_set_self h]
  simp [hx]

theorem concat_feature_set (delim : CStr) (tok : Token) (j ps : Nat) (x : CStr) (h : ps ≤ j) :
    concat_feature delim (setSubfield tok j x) ps = concat_feature delim tok ps := by
  unfold concat_feature setSubfield
  simp only
  rw [take_set_beyond _ _ _ _ h]

theorem tailItems_set_head (delim : CStr) (sel : Selector) (size ps i j : Nat) (h f : Token)
    (x : CStr) (hj : ps ≤ j) :
    tailItems delim sel size ps i (setSubfield h j x) f = tailItems delim sel size ps i h f := by
  unfold tailItems
  rw [concat_feature_set delim h j ps x hj]

theorem classAValueRef_set_type (delim : CStr) (sel : Selector) (ps : Nat) (f : Token)
    (x : CStr) :
    classAValueRef delim sel ps (setSubfield f ps x) = classAValueRef delim sel ps f := by
  unfold classAValueRef setSubfield
  simp only
  rw [List.getElem?_set_ne (by omega), take_set_beyond _ _ _ _ (Nat.le_refl ps)]

theorem tailItems_set_type (delim : CStr) (sel : Selector) (size ps i : Nat) (h f : Token)
    (x : CStr) :
    tailItems delim sel size ps i h (setSubfield f ps x) = tailItems delim sel size ps i h f := by
  unfold tailItems
  rw [classAValueRef_set_type]
  rfl

theorem classAValueRef_set_form (delim : CStr) (sel : Selector) (ps : Nat) (f : Token)
    (x : CStr) (hlt : ps + 1 < f.feature_list.length) (hx : x ≠ STAR) :
    classAValueRef delim sel ps (setSubfield f (ps + 1) x) =
      if (sel.pat_dyn_a_.prefix_match f.feature).isSome then f.normalized_surface else x := by
  unfold classAValueRef setSubfield
  simp only
  rw [List.getElem?_set_self hlt]
  simp [hx]

theorem headFieldsRef_set_type (ps : Nat) (h : Token) (v : CStr)
    (hlt : ps < h.feature_list.length) (hv : v ≠ STAR) :
    headFieldsRef ps (setSubfield h ps v) =
      ([ascii "F_H0:" ++ h.normalized_surface] ++
        basicFieldsRef (ascii "F_H") ps h.feature_list) ++ ([ascii "F_H5:" ++ v] ++
        conjFieldRef (ascii "F_H6:") h.feature_list (ps + 1)) := by
  unfold headFieldsRef setSubfield
  simp only
  rw [basicFieldsRef_set _ _ _ _ _ (Nat.le_refl ps), conjFieldRef_set_self _ _ _ _ hlt hv,
    conjFieldRef_set_ne _ _ _ _ _ (by omega)]
  simp only [List.append_assoc]

theorem headFieldsRef_set_form (ps : Nat) (h : Token) (v : CStr)
    (hlt : ps + 1 < h.feature_list.length) (hv : v ≠ STAR) :
    headFieldsRef ps (setSubfield h (ps + 1) v) =
      ([ascii "F_H0:" ++ h.normalized_surface] ++
        basicFieldsRef (ascii "F_H") ps h.feature_list ++
        conjFieldRef (ascii "F_H5:") h.feature_list ps) ++ ([ascii "F_H6:" ++ v] ++ []) := by
  unfold headFieldsRef setSubfield
  simp only
  rw [basicFieldsRef_set _ _ _ _ _ (Nat.le_succ ps), conjFieldRef_set_self _ _ _ _ hlt hv,
    conjFieldRef_set_ne _ _ _ _ _ (by omega)]
  simp only [List.append_assoc, List.append_nil]

theorem funcFieldsRef_set_type (ps : Nat) (f : Token) (v : CStr)
    (hlt : ps < f.feature_list.length) (hv : v ≠ STAR) :
    funcFieldsRef ps (setSubfield f ps v) =
      ([ascii "F_F0:" ++ f.normalized_surface] ++
        basicFieldsRef (ascii "F_F") ps f.feature_list) ++ ([ascii "F_F5:" ++ v] ++
        conjFieldRef (ascii "F_F6:") f.feature_list (ps + 1)) := by
  unfold funcFieldsRef setSubfield
  simp only
  rw [basicFieldsRef_set _ _ _ _ _ (Nat.le_refl ps), conjFieldRef_set_self _ _ _ _ hlt hv,
    conjFieldRef_set_ne _ _ _ _ _ (by omega)]
  simp only [List.append_assoc]

theorem funcFieldsRef_set_form (ps : Nat) (f : Token) (v : CStr)
    (hlt : ps + 1 < f.feature_list.length) (hv : v ≠ STAR) :
    funcFieldsRef ps (setSubfield f (ps + 1) v) =
      ([ascii "F_F0:" ++ f.normalized_surface] ++
        basicFieldsRef (ascii "F_F") ps f.feature_list ++
        conjFieldRef (ascii "F_F5:") f.feature_list ps) ++ ([ascii "F_F6:" ++ v] ++ []) := by
  unfold funcFieldsRef setSubfield
  simp only
  rw [basicFieldsRef_set _ _ _ _ _ (Nat.le_succ ps), conjFieldRef_set_self _ _ _ _ hlt hv,
    conjFieldRef_set_ne _ _ _ _ _ (by omega)]
  simp only [List.append_assoc, List.append_nil]

/-- Two feature texts that differ in the value of one feature only are different. -/
theorem itemsText_mid_inj (X Y : List CStr) (n v w : CStr)
    (h : itemsText (X ++ ([n ++ v] ++ Y)) = itemsText (X ++ ([n ++ w] ++ Y))) : v = w := by
  have e : ∀ u : CStr, itemsText (X ++ ([n ++ u] ++ Y)) =
      (itemsText X ++ 32 :: n) ++ (u ++ itemsText Y) := by
    intro u
    simp [itemsText]
  rw [e, e] at h
  exact List.append_cancel_right (List.append_cancel_left h)

/-- Two feature texts that differ in the value shared by two adjacent features only are
different. -/
theorem itemsText_mid2_inj (X Y : List CStr) (n a v w : CStr)
    (h : itemsText (X ++ ([n ++ v] ++ ([a ++ v] ++ Y))) =
      itemsText (X ++ ([n ++ w] ++ ([a ++ w] ++ Y)))) : v = w := by
  have e : ∀ u : CStr, itemsText (X ++ ([n ++ u] ++ ([a ++ u] ++ Y))) =
      (itemsText X ++ 32 :: n) ++ (u ++ ((32 :: a) ++ (u ++ itemsText Y))) := by
    intro u
    simp [itemsText]
  rw [e, e] at h
  have h2 := List.append_cancel_left h
  have hl := congrArg List.length h2
  simp only [List.length_append, List.length_cons] at hl
  exact (List.append_inj h2 (by omega)).1

/-- The conjugation-type subfield of the head token is read: two head tokens that
differ in it only give different texts. -/
theorem tokenText_head_type_inj (delim : CStr) (sel : Selector) (size ps i : Nat)
    (h f : Token) (v w : CStr) (hlt : ps < h.feature_list.length) (hv : v ≠ STAR)
    (hw : w ≠ STAR)
    (heq : tokenText delim sel size ps i (setSubfield h ps v) f =
      tokenText delim sel size ps i (setSubfield h ps w) f) : v = w := by
  rw [tokenText_eq, tokenText_eq, tokenItems_ref, tokenItems_ref,
    headFieldsRef_set_type ps h v hlt hv, headFieldsRef_set_type ps h w hlt hw,
    tailItems_set_head _ _ _ _ _ _ _ _ _ (Nat.le_refl ps),
    tailItems_set_head _ _ _ _ _ _ _ _ _ (Nat.le_refl ps)] at heq
  exact itemsText_mid_inj
    ([ascii "F_H0:" ++ h.normalized_surface] ++ basicFieldsRef (ascii "F_H") ps h.feature_list)
    (conjFieldRef (ascii "F_H6:") h.feature_list (ps + 1) ++
      (funcFieldsRef ps f ++ tailItems delim sel size ps i h f))
    (ascii "F_H5:") v w (by simpa only [List.append_assoc] using heq)

/-- The conjugation-form subfield of the head token is read. -/
theorem tokenText_head_form_inj (delim : CStr) (sel : Selector) (size ps i : Nat)
    (h f : Token) (v w : CStr) (hlt : ps + 1 < h.feature_list.length) (hv : v ≠ STAR)
    (hw : w ≠ STAR)
    (heq : tokenText delim sel size ps i (setSubfield h (ps + 1) v) f =
      tokenText delim sel size ps i (setSubfield h (ps + 1) w) f) : v = w := by
  rw [tokenText_eq, tokenText_eq, tokenItems_ref, tokenItems_ref,
    headFieldsRef_set_form ps h v hlt hv, headFieldsRef_set_form ps h w hlt hw,
    tailItems_set_head _ _ _ _ _ _ _ _ _ (Nat.le_succ ps),
    tailItems_set_head _ _ _ _ _ _ _ _ _ (Nat.le_succ ps)] at heq
  exact itemsText_mid_inj
    ([ascii "F_H0:" ++ h.normalized_surface] ++ basicFieldsRef (ascii "F_H") ps h.feature_list ++
      conjFieldRef (ascii "F_H5:") h.feature_list ps)
    (funcFieldsRef ps f ++ tailItems delim sel size ps i h f)
    (ascii "F_H6:") v w (by simpa only [List.append_assoc, List.nil_append] using heq)

/-- The conjugation-type subfield of the function token is read. -/
theorem tokenText_func_type_inj (delim : CStr) (sel : Selector) (size ps i : Nat)
    (h f : Token) (v w : CStr) (hlt : ps < f.feature_list.length) (hv : v ≠ STAR)
    (hw : w ≠ STAR)
    (heq : tokenText delim sel size ps i h (setSubfield f ps v) =
      tokenText delim sel size ps i h (setSubfield f ps w)) : v = w := by
  rw [tokenText_eq, tokenText_eq, tokenItems_ref, tokenItems_ref,
    funcFieldsRef_set_type ps f v hlt hv, funcFieldsRef_set_type ps f w hlt hw,
    tailItems_set_type, tailItems_set_type] at heq
  exact itemsText_mid_inj
    (headFieldsRef ps h ++ ([ascii "F_F0:" ++ f.normalized_surface] ++
      basicFieldsRef (ascii "F_F") ps f.feature_list))
    (conjFieldRef (ascii "F_F6:") f.feature_list (ps + 1) ++ tailItems delim sel size ps i h f)
    (ascii "F_F5:") v w (by simpa only [List.append_assoc] using heq)

/-- The conjugation-form subfield of the function token is read. -/
theorem tokenText_func_form_inj (delim : CStr) (sel : Selector) (size ps i : Nat)
    (h f : Token) (v w : CStr) (hlt : ps + 1 < f.feature_list.length) (hv : v ≠ STAR)
    (hw : w ≠ STAR)
    (heq : tokenText delim sel size ps i h (setSubfield f (ps + 1) v) =
      tokenText delim sel size ps i h (setSubfield f (ps + 1) w)) : v = w := by
  rw [tokenText_eq, tokenText_eq, tokenItems_ref, tokenItems_ref,
    funcFieldsRef_set_form ps f v hlt hv, funcFieldsRef_set_form ps f w hlt hw] at heq
  unfold tailItems at heq
  rw [classAValueRef_set_form delim sel ps f v hlt hv,
    classAValueRef_set_form delim sel ps f w hlt hw] at heq
  have e1 : (setSubfield f (ps + 1) v).feature = f.feature := rfl
  have e2 : (setSubfield f (ps + 1) w).feature = f.feature := rfl
  have e3 : (setSubfield f (ps + 1) v).normalized_surface = f.normalized_surface := rfl
  have e4 : (setSubfield f (ps + 1) w).normalized_surface = f.normalized_surface := rfl
  rw [e1, e2, e3, e4] at heq
  by_cases hd : (sel.pat_dyn_a_.prefix_match f.feature).isSome
  · rw [if_pos hd, if_pos hd] at heq
    exact itemsText_mid_inj
      (headFieldsRef ps h ++ ([ascii "F_F0:" ++ f.normalized_surface] ++
        basicFieldsRef (ascii "F_F") ps f.feature_list ++
        conjFieldRef (ascii "F_F5:") f.feature_list ps))
      ([ascii "A:" ++ f.normalized_surface] ++
        ([ascii "B:" ++ concat_feature delim h ps] ++
        ((if (sel.pat_case_.prefix_match f.feature).isSome then
          [ascii "G_CASE:" ++ f.normalized_surface] else []) ++
        ((if i = 0 then [ascii "F_BOS:1"] else []) ++
        (if i = size - 1 then [ascii "F_EOS:1"] else [])))))
      (ascii "F_F6:") v w (by simpa only [List.append_assoc, List.nil_append] using heq)
  · rw [if_neg hd, if_neg hd] at heq
    exact itemsText_mid2_inj
      (headFieldsRef ps h ++ ([ascii "F_F0:" ++ f.normalized_surface] ++
        basicFieldsRef (ascii "F_F") ps f.feature_list ++
        conjFieldRef (ascii "F_F5:") f.feature_list ps))
      ([ascii "B:" ++ concat_feature delim h ps] ++
        ((if (sel.pat_case_.prefix_match f.feature).isSome then
          [ascii "G_CASE:" ++ f.normalized_surface] else []) ++
        ((if i = 0 then [ascii "F_BOS:1"] else []) ++
        (if i = size - 1 then [ascii "F_EOS:1"] else []))))
      (ascii "F_F6:") (ascii "A:") v w
      (by simpa only [List.append_assoc, List.nil_append] using heq)

/-- C18, as the code has it: the `*` sentinel ends the scan of the basic subfields
only. The text `parse` writes for a head token and a function token is that of `F_H0`,
the basic head subfields up to the first `*`, `F_H5` and `F_H6`, then the same for the
function token, then the tail; the fields for the subfields at indices
`basicFieldCount` and `basicFieldCount + 1` are there whenever the index is within the
declared count and that subfield is not `*`, whatever the subfields before it are, and
they are read indeed: two tokens that differ in such a subfield only give different
texts. The text depends on the subfields through the basic subfields up to the first
`*` and those two subfields only: replacing a basic subfield that comes after a `*`, or
a subfield at an index above `basicFieldCount + 1`, changes nothing of what is read.
Every index `parse` dereferences is within the declared count and at most
`basicFieldCount + 1`, a basic index is dereferenced only if no subfield before it is
`*`, and the subfields at the dereferenced indices determine what is read. -/
theorem C18_sentinel_scope (delim : CStr) (sel : Selector) (size pos_size i : Nat) :
    (∀ h h1 f f1 : Token, h.normalized_surface = h1.normalized_surface →
      subfieldView pos_size h = subfieldView pos_size h1 →
      f.normalized_surface = f1.normalized_surface → f.feature = f1.feature →
      subfieldView pos_size f = subfieldView pos_size f1 →
      tokenText delim sel size pos_size i h f = tokenText delim sel size pos_size i h1 f1) ∧
    (∀ (tok : Token) (i0 j : Nat) (x : CStr), i0 < j → j < pos_size →
      tok.feature_list[i0]? = some STAR →
      subfieldView pos_size (setSubfield tok j x) = subfieldView pos_size tok) ∧
    (∀ (tok : Token) (j : Nat) (x : CStr), pos_size + 2 ≤ j →
      subfieldView pos_size (setSubfield tok j x) = subfieldView pos_size tok) ∧
    (∀ h f : Token, tokenText delim sel size pos_size i h f =
      itemsText (([ascii "F_H0:" ++ h.normalized_surface] ++
          basicFieldsRef (ascii "F_H") pos_size h.feature_list ++
          conjFieldRef (ascii "F_H5:") h.feature_list pos_size ++
          conjFieldRef (ascii "F_H6:") h.feature_list (pos_size + 1)) ++
        ([ascii "F_F0:" ++ f.normalized_surface] ++
          basicFieldsRef (ascii "F_F") pos_size f.feature_list ++
          conjFieldRef (ascii "F_F5:") f.feature_list pos_size ++
          conjFieldRef (ascii "F_F6:") f.feature_list (pos_size + 1)) ++
        tailItems delim sel size pos_size i h f)) ∧
    (∀ (h f : Token) (v w : CStr), pos_size < h.feature_list.length → v ≠ STAR → w ≠ STAR →
      tokenText delim sel size pos_size i (setSubfield h pos_size v) f =
        tokenText delim sel size pos_size i (setSubfield h pos_size w) f → v = w) ∧
    (∀ (h f : Token) (v w : CStr), pos_size + 1 < h.feature_list.length → v ≠ STAR →
      w ≠ STAR →
      tokenText delim sel size pos_size i (setSubfield h (pos_size + 1) v) f =
        tokenText delim sel size pos_size i (setSubfield h (pos_size + 1) w) f → v = w) ∧
    (∀ (h f : Token) (v w : CStr), pos_size < f.feature_list.length → v ≠ STAR → w ≠ STAR →
      tokenText delim sel size pos_size i h (setSubfield f pos_size v) =
        tokenText delim sel size pos_size i h (setSubfield f pos_size w) → v = w) ∧
    (∀ (h f : Token) (v w : CStr), pos_size + 1 < f.feature_list.length → v ≠ STAR →
      w ≠ STAR →
      tokenText delim sel size pos_size i h (setSubfield f (pos_size + 1) v) =
        tokenText delim sel size pos_size i h (setSubfield f (pos_size + 1) w) → v = w) ∧
    (∀ (tok : Token), ∀ k ∈ subfieldReads pos_size tok,
      k < tok.feature_list.length ∧ k ≤ pos_size + 1 ∧
      (k < pos_size → ∀ n, n < k → tok.feature_list[n]? ≠ some STAR)) ∧
    (∀ tok : Token,
      (pos_size ∈ subfieldReads pos_size tok ↔ pos_size < tok.feature_list.length) ∧
      (pos_size + 1 ∈ subfieldReads pos_size tok ↔
        pos_size + 1 < tok.feature_list.length)) ∧
    (∀ tok tok1 : Token, tok.feature_list.length = tok1.feature_list.length →
      (∀ k ∈ subfieldReads pos_size tok, tok.feature_list[k]? = tok1.feature_list[k]?) →
      subfieldView pos_size tok = subfieldView pos_size tok1) := by
  refine ⟨?_, ?_, ?_, ?_, tokenText_head_type_inj delim sel size pos_size i,
    tokenText_head_form_inj delim sel size pos_size i,
    tokenText_func_type_inj delim sel size pos_size i,
    tokenText_func_form_inj delim sel size pos_size i,
    subfieldReads_bound pos_size, subfieldReads_conj pos_size,
    subfieldReads_determine pos_size⟩
  · intro h h1 f f1 hs hv fs ff fv
    rw [tokenText_eq, tokenText_eq,
      tokenItems_view delim sel size pos_size i h h1 f f1 hs hv fs ff fv]
  · intro tok i0 j x hij hj hi
    unfold subfieldView
    rw [get_token_set tok j pos_size x (by omega), get_token_set tok j (pos_size + 1) x (by omega)]
    simp only [setSubfield]
    rw [takeWhile_set_masked tok.feature_list pos_size i0 j x hij hi]
  · intro tok j x hj
    unfold subfieldView
    rw [get_token_set tok j pos_size x (by omega), get_token_set tok j (pos_size + 1) x (by omega)]
    simp only [setSubfield]
    rw [take_set_beyond tok.feature_list pos_size j x (by omega)]
  · intro h f
    rw [tokenText_eq, tokenItems_ref]
    rfl

/-- C18 at the token of `exTreeConj`, subfields `(v,j,*,*,g,k)` with four basic ones:
replacing subfield 3, which comes after the `*` at index 2, by `z` changes nothing of
what is read, and replacing subfield 4, the conjugation type `g`, by `z` changes the
text written. -/
theorem C18_sentinel_scope_witness :
    subfieldView 4 (setSubfield (exToken (ascii "x") (ascii "v,j,*,*,g,k")
      [ascii "v", ascii "j", STAR, STAR, ascii "g", ascii "k"]) 3 (ascii "z")) =
    subfieldView 4 (exToken (ascii "x") (ascii "v,j,*,*,g,k")
      [ascii "v", ascii "j", STAR, STAR, ascii "g", ascii "k"]) ∧
    tokenText (ascii "-") exSel 1 4 0
      (setSubfield (exToken (ascii "x") (ascii "v,j,*,*,g,k")
        [ascii "v", ascii "j", STAR, STAR, ascii "g", ascii "k"]) 4 (ascii "g"))
      (exToken (ascii "x") (ascii "v,j,*,*,g,k")
        [ascii "v", ascii "j", STAR, STAR, ascii "g", ascii "k"]) ≠
    tokenText (ascii "-") exSel 1 4 0
      (setSubfield (exToken (ascii "x") (ascii "v,j,*,*,g,k")
        [ascii "v", ascii "j", STAR, STAR, ascii "g", ascii "k"]) 4 (ascii "z"))
      (exToken (ascii "x") (ascii "v,j,*,*,g,k")
        [ascii "v", ascii "j", STAR, STAR, ascii "g", ascii "k"]) :=
  ⟨(C18_sentinel_scope (ascii "-") exSel 1 4 0).2.1
    (exToken (ascii "x") (ascii "v,j,*,*,g,k")
      [ascii "v", ascii "j", STAR, STAR, ascii "g", ascii "k"]) 2 3 (ascii "z")
    (by decide) (by decide) (by decide),
   fun heq => absurd
    ((C18_sentinel_scope (ascii "-") exSel 1 4 0).2.2.2.2.1
      (exToken (ascii "x") (ascii "v,j,*,*,g,k")
        [ascii "v", ascii "j", STAR, STAR, ascii "g", ascii "k"])
      (exToken (ascii "x") (ascii "v,j,*,*,g,k")
        [ascii "v", ascii "j", STAR, STAR, ascii "g", ascii "k"])
      (ascii "g") (ascii "z") (by decide) (by decide) (by decide) heq)
    (by decide)⟩

/-- C18 fails as stated on `exTreeConj`: the subfield of index 2 of its token is `*`,
and yet the subfields of the greater indices 4 and 5, `g` and `k`, are read into the
stored features `F_H5:g`, `F_H6:k` and `A:k`. -/
theorem C18_counterexample :
    exSel.parse (ascii "-") (some exTreeConj) = some (true, some exTreeConjParsed) ∧
    (∃ tok, exTreeConj.tokens[0]? = some tok ∧
      exSel.findHead exTreeConj (exChunk 0 1) = some (0, 0) ∧
      tok.feature_list[2]? = some STAR ∧
      tok.feature_list[4]? = some (ascii "g") ∧ tok.feature_list[5]? = some (ascii "k")) ∧
    (∃ chunk1, exTreeConjParsed.chunks[0]? = some chunk1 ∧
      ascii "F_H5:" ++ ascii "g" ∈ chunk1.feature_list ∧
      ascii "F_H6:" ++ ascii "k" ∈ chunk1.feature_list ∧
      ascii "A:" ++ ascii "k" ∈ chunk1.feature_list) := by
  exact ⟨exTreeConj_parse, ⟨_, rfl, by decide, by decide, by decide, by decide⟩,
    ⟨_, rfl, by decide, by decide, by decide⟩⟩

/-- C19, as the code has it: when `parse` returns and the token strings of the sentence
hold no space, every string in a chunk's stored feature list has the form `NAME:VALUE`
with `NAME` one of the feature names the Selector emits; the list holds the first
`kFeatureSize` = 256 entries of the space-separated split of the feature text, in
order, hence the whole split when that has at most 256 entries; and the stored count
is the number of entries of the list when that is below 256. -/
theorem C19_feature_form (delim : CStr) (sel : Selector) (tree tree1 : Tree) (i : Nat)
    (chunk : Chunk) (hparse : sel.parse delim (some tree) = some (true, some tree1))
    (hc : tree.chunks[i]? = some chunk) (hsf : SpaceFree delim tree) :
    ∃ text hid fid chunk1,
      sel.featureText delim tree tree.chunks.length (posSize tree) i chunk =
        some (text, hid, fid) ∧
      tree1.chunks[i]? = some chunk1 ∧
      (∀ it ∈ chunk1.feature_list, Named featureNames it) ∧
      chunk1.feature_list = (pieces [32] (text.drop 1)).take kFeatureSize ∧
      ((pieces [32] (text.drop 1)).length ≤ kFeatureSize →
        chunk1.feature_list = pieces [32] (text.drop 1)) ∧
      (chunk1.feature_list.length < 256 →
        chunk1.feature_list_size = chunk1.feature_list.length) := by
  obtain ⟨text, hid, fid, htoken, ftoken, chunk1, g1, _, _, g4, g5, g6, g7⟩ :=
    parse_items delim sel tree tree1 i chunk hparse hc hsf
  obtain ⟨hsplit, hnamed⟩ := chunkItems_split delim sel tree tree.chunks.length (posSize tree)
    i (posSize_le tree) chunk htoken ftoken
  refine ⟨text, hid, fid, chunk1, g1, g4, ?_, by rw [g6, g5], ?_, ?_⟩
  · intro it hit
    rw [g6] at hit
    have hit2 := List.mem_of_mem_take hit
    rw [hsplit] at hit2
    rcases List.mem_append.1 hit2 with h | h
    · exact named_mono _ _ it (hnamed it h) flagFieldNames_sub
    · exact tailItems_named delim sel _ _ i htoken ftoken it h
  · intro hcount
    rw [g6, g5]
    rw [g5] at hcount
    exact List.take_of_length_le hcount
  · intro hlt
    rw [g7, Nat.mod_eq_of_lt hlt]

/-- C19 at the second chunk of `exTreeTwoChunks`: nine entries, each of the form
`NAME:VALUE`, and the stored count is 9. -/
theorem C19_feature_form_witness :
    ∃ text hid fid chunk1,
      exSel.featureText (ascii "-") exTreeTwoChunks exTreeTwoChunks.chunks.length
        (posSize exTreeTwoChunks) 1 (exChunk 2 2) = some (text, hid, fid) ∧
      exTreeTwoChunksParsed.chunks[1]? = some chunk1 ∧
      (∀ it ∈ chunk1.feature_list, Named featureNames it) ∧
      chunk1.feature_list = (pieces [32] (text.drop 1)).take kFeatureSize ∧
      ((pieces [32] (text.drop 1)).length ≤ kFeatureSize →
        chunk1.feature_list = pieces [32] (text.drop 1)) ∧
      (chunk1.feature_list.length < 256 →
        chunk1.feature_list_size = chunk1.feature_list.length) :=
  C19_feature_form (ascii "-") exSel exTreeTwoChunks exTreeTwoChunksParsed 1 (exChunk 2 2)
    (by decide) (by decide) (by unfold SpaceFree; decide)

/-- C19 fails as stated on `exTreeSpace`, whose one token has the normalized surface
`a b`: the stored feature list of its chunk holds the entry `b`, which has no colon
and so is not of the form `NAME:VALUE`. -/
theorem C19_counterexample :
    exSel.parse (ascii "-") (some exTreeSpace) = some (true, some exTreeSpaceParsed) ∧
    (∃ chunk1, exTreeSpaceParsed.chunks[0]? = some chunk1 ∧
      ascii "b" ∈ chunk1.feature_list ∧ 58 ∉ ascii "b" ∧
      ¬ Named featureNames (ascii "b")) := by
  refine ⟨by decide, _, rfl, by decide, by decide, ?_⟩
  rintro ⟨name, _, value, h⟩
  have hmem : (58 : Nat) ∈ name ++ 58 :: value := by simp
  rw [← h] at hmem
  exact absurd hmem (by decide)

theorem lastIndexOr_never (tokens : List Token) (lo n : Nat) :
    lastIndexOr tokens lo n (fun _ => false) = lo := by
  rcases lastIndexOr_cases tokens lo n (fun _ => false) with h | ⟨_, _, _, _, h⟩
  · exact h
  · exact absurd h (by simp)

/-- C20, as the code has it: `parse` does not reject a sentence whose tagset is
neither Scheme A nor Scheme B. It never returns failure on a non-null sentence; for
such a tagset it takes `pos_size = 2`, the scan of `findHead` assigns nothing, so head
and function token are both the chunk's first token; and when every chunk's feature
text is defined and fits the buffer, `parse` returns success. -/
theorem C20_other_tagset_not_rejected (delim : CStr) (sel : Selector) (tree : Tree)
    (h1 : tree.posset ≠ PossetType.IPA) (h2 : tree.posset ≠ PossetType.JUMAN) :
    (∀ r, sel.parse delim (some tree) = some r → r.1 = true) ∧
    posSize tree = 2 ∧
    (∀ chunk hid fid, sel.findHead tree chunk = some (hid, fid) →
      hid = chunk.token_pos ∧ fid = chunk.token_pos) ∧
    ((∀ i chunk, tree.chunks[i]? = some chunk → ∃ text hid fid,
        sel.featureText delim tree tree.chunks.length (posSize tree) i chunk =
          some (text, hid, fid) ∧ text.length + 1 ≤ FEATURE_BUF) →
      ∃ tree1, sel.parse delim (some tree) = some (true, some tree1)) := by
  have hU : tree.posset = PossetType.UNIDIC := by
    cases hp : tree.posset
    · exact absurd hp h1
    · exact absurd hp h2
    · rfl
  refine ⟨?_, ?_, ?_, ?_⟩
  · intro r hr
    obtain ⟨t1, rfl, _⟩ := parse_some delim sel tree r hr
    rfl
  · unfold posSize
    rw [if_neg h1]
  · intro chunk hid fid h
    obtain ⟨e1, e2⟩ := findHead_eq_last sel tree chunk hid fid h
    rw [hU] at e1 e2
    rw [if_neg (by simp)] at e2
    have hh : headTest sel PossetType.UNIDIC = fun _ => false := rfl
    have hf : funcTest sel PossetType.UNIDIC = fun _ => false := rfl
    rw [hh] at e1
    rw [hf] at e2
    rw [lastIndexOr_never] at e1 e2
    exact ⟨e1, e2⟩
  · intro hall
    apply parse_defined
    intro k c hc
    obtain ⟨text, hid, fid, ht, hfit⟩ := hall k c hc
    exact chunkOut_of_fits delim sel tree c _ _ k text hid fid ht hfit

/-- C20 at `exTreeUnidic`: head and function token of its chunk are the first token. -/
theorem C20_other_tagset_not_rejected_witness :
    exSel.findHead exTreeUnidic (exChunk 0 2) = some (0, 0) ∧
    (0 = (exChunk 0 2).token_pos ∧ 0 = (exChunk 0 2).token_pos) :=
  ⟨by decide,
   (C20_other_tagset_not_rejected (ascii "-") exSel exTreeUnidic (by decide) (by decide)).2.2.1
     (exChunk 0 2) 0 0 (by decide)⟩

/-- C20 fails as stated on `exTreeUnidic`, whose tagset is neither Scheme A nor
Scheme B: `parse` returns success, with head and function offset 0 and a feature list
built with two basic subfields, and not failure. -/
theorem C20_counterexample :
    exTreeUnidic.posset ≠ PossetType.IPA ∧ exTreeUnidic.posset ≠ PossetType.JUMAN ∧
    exSel.parse (ascii "-") (some exTreeUnidic) = some (true, some exTreeUnidicParsed) ∧
    ¬ ∃ t, exSel.parse (ascii "-") (some exTreeUnidic) = some (false, t) := by
  have h : exSel.parse (ascii "-") (some exTreeUnidic) = some (true, some exTreeUnidicParsed) := by
    decide
  refine ⟨by decide, by decide, h, ?_⟩
  rintro ⟨t, ht⟩
  rw [h] at ht
  simp at ht

end CaboCha
